import Mathlib

/-!
Verification of the crossword grid placement/validation engine
(crossword-generator/crossword_generator.py).

The Python source is shallowly embedded: the grid matrix is a list of rows
of characters ('.' denotes an empty cell), placed words are records, and
every loop of the source becomes a structural recursion.  Cell reads
`self.grid[r][c]` are embedded as `cellD` (total, returning '.' when out of
bounds); a partial variant `cell?` returning `Option Char` is used to show
that the validator never actually reads out of bounds on well-formed input.
-/

namespace Crossword

/-- Embeds the `Direction` enum of the source. -/
inductive Direction : Type where
  | across : Direction
  | down : Direction
deriving DecidableEq, Repr

/-- Embeds the `Word` dataclass: a placed word with its text (as a list of
characters), origin, direction, clue and quality. -/
structure Word : Type where
  text : List Char
  row : Nat
  col : Nat
  direction : Direction
  clue : String
  quality : Int
deriving DecidableEq, Repr

/-- Embeds the `CrosswordGrid` dataclass: dimensions, the `height × width`
cell matrix (row-major, '.' = empty) and the ordered list of placed words.
The `_cached_*` fields of the Python class are pure memoization of the
derived quantities defined below and are not part of the model. -/
structure Grid : Type where
  width : Nat
  height : Nat
  cells : List (List Char)
  words : List Word
deriving DecidableEq, Repr

/-- Partial access to a cell matrix: `matrix[r][c]`, `none` out of bounds. -/
def mcell? (cells : List (List Char)) (r c : Nat) : Option Char :=
  (cells.get? r).bind (fun row => row.get? c)

/-- Partial cell access on a grid: `self.grid[r][c]`. -/
def cell? (g : Grid) (r c : Nat) : Option Char :=
  mcell? g.cells r c

/-- Total cell access used by the executable model; out-of-bounds reads
default to '.' (claim C9 shows the validator never performs any). -/
def cellD (g : Grid) (r c : Nat) : Char :=
  (cell? g r c).getD '.'

/-- Shape invariant of a grid: the matrix really is `height` rows of
`width` cells (established by `__post_init__`, preserved by `place_word`). -/
def WellFormed (g : Grid) : Prop :=
  g.cells.length = g.height ∧ ∀ row ∈ g.cells, row.length = g.width

instance : DecidablePred WellFormed := fun g => by
  unfold WellFormed; infer_instance

/-- Writes one character at `(r, c)` of a cell matrix
(`self.grid[r][c] = char`). -/
def setCell : List (List Char) → Nat → Nat → Char → List (List Char)
  | [], _, _, _ => []
  | row :: rest, 0, c, ch => row.set c ch :: rest
  | row :: rest, r + 1, c, ch => row :: setCell rest r c ch

/-- Letter-writing loop of `place_word` for ACROSS
(`self.grid[row][col + i] = char` for each letter). -/
def placeAcross : List (List Char) → Nat → Nat → List Char → List (List Char)
  | cells, _, _, [] => cells
  | cells, r, c, ch :: rest => placeAcross (setCell cells r c ch) r (c + 1) rest

/-- Letter-writing loop of `place_word` for DOWN
(`self.grid[row + i][col] = char` for each letter). -/
def placeDown : List (List Char) → Nat → Nat → List Char → List (List Char)
  | cells, _, _, [] => cells
  | cells, r, c, ch :: rest => placeDown (setCell cells r c ch) (r + 1) c rest

/-- Embeds `CrosswordGrid.place_word`: writes the letters into the matrix
and appends a `Word` record. -/
def placeWord (g : Grid) (w : List Char) (r c : Nat) (dir : Direction)
    (clue : String) (quality : Int) : Grid :=
  { g with
    cells := match dir with
      | .across => placeAcross g.cells r c w
      | .down => placeDown g.cells r c w
    words := g.words ++ [⟨w, r, c, dir, clue, quality⟩] }

/- ## Cell-level lemmas about the matrix writes -/

theorem setCell_length (cells : List (List Char)) (r c : Nat) (ch : Char) :
    (setCell cells r c ch).length = cells.length := by
  induction cells generalizing r with
  | nil => rfl
  | cons row rest ih =>
    cases r with
    | zero => simp [setCell]
    | succ r => simp [setCell, ih]

theorem setCell_get? (cells : List (List Char)) (r c : Nat) (ch : Char) (r' : Nat) :
    (setCell cells r c ch).get? r' =
      if r = r' then (cells.get? r').map (fun row => row.set c ch)
      else cells.get? r' := by
  induction cells generalizing r r' with
  | nil => simp [setCell]
  | cons row rest ih =>
    cases r with
    | zero =>
      cases r' with
      | zero => simp [setCell]
      | succ r' => simp [setCell]
    | succ r =>
      cases r' with
      | zero => simp [setCell]
      | succ r' =>
        simp only [setCell, List.get?_cons_succ, ih]
        by_cases h : r = r' <;> simp [h]

theorem mcell?_setCell (cells : List (List Char)) (r c : Nat) (ch : Char) (r' c' : Nat) :
    mcell? (setCell cells r c ch) r' c' =
      if r = r' ∧ c = c' then (mcell? cells r' c').map (fun _ => ch)
      else mcell? cells r' c' := by
  unfold mcell?
  rw [setCell_get?]
  by_cases hr : r = r'
  · rw [if_pos hr]
    cases hrow : cells.get? r' with
    | none => simp
    | some row =>
      by_cases hc : c = c'
      · rw [if_pos ⟨hr, hc⟩]
        subst hc
        simp only [Option.map_some', Option.some_bind]
        rw [List.get?_set, if_pos rfl]
        cases hcc : row.get? c <;> simp [hcc]
      · rw [if_neg (by exact fun h => hc h.2)]
        simp only [Option.map_some', Option.some_bind]
        rw [List.get?_set, if_neg hc]
  · rw [if_neg hr, if_neg (by exact fun h => hr h.1)]

theorem mcell?_placeAcross (cells : List (List Char)) (r c : Nat) (w : List Char)
    (r' c' : Nat) :
    mcell? (placeAcross cells r c w) r' c' =
      if r = r' ∧ c ≤ c' ∧ c' < c + w.length then
        (mcell? cells r' c').map (fun _ => w.get! (c' - c))
      else mcell? cells r' c' := by
  induction w generalizing cells c with
  | nil =>
    rw [if_neg (by simp only [List.length_nil]; omega)]
    rfl
  | cons ch rest ih =>
    show mcell? (placeAcross (setCell cells r c ch) r (c + 1) rest) r' c' = _
    rw [ih, mcell?_setCell]
    by_cases hr : r = r'
    · by_cases hc : c = c'
      · have h1 : ¬(r = r' ∧ c + 1 ≤ c' ∧ c' < c + 1 + rest.length) := by omega
        have h2 : r = r' ∧ c ≤ c' ∧ c' < c + (ch :: rest).length := by
          refine ⟨hr, by omega, ?_⟩
          simp only [List.length_cons]
          omega
        rw [if_neg h1, if_pos ⟨hr, hc⟩, if_pos h2]
        subst hc
        simp only [Nat.sub_self]
        cases hcc : mcell? cells r' c <;> simp
      · by_cases hin : c + 1 ≤ c' ∧ c' < c + 1 + rest.length
        · have h2 : r = r' ∧ c ≤ c' ∧ c' < c + (ch :: rest).length := by
            refine ⟨hr, by omega, ?_⟩
            simp only [List.length_cons]
            omega
          rw [if_pos ⟨hr, hin⟩, if_pos h2,
            if_neg (by exact fun h => hc h.2)]
          have hidx : c' - c = (c' - (c + 1)) + 1 := by omega
          rw [hidx]
          cases hcc : mcell? cells r' c' <;> simp
        · have h2 : ¬(r = r' ∧ c ≤ c' ∧ c' < c + (ch :: rest).length) := by
            simp only [List.length_cons]
            intro h
            exact hin ⟨by omega, by omega⟩
          rw [if_neg (by exact fun h => hin h.2), if_neg h2,
            if_neg (by exact fun h => hc h.2)]
    · rw [if_neg (by exact fun h => hr h.1), if_neg (by exact fun h => hr h.1),
        if_neg (by exact fun h => hr h.1)]

theorem mcell?_placeDown (cells : List (List Char)) (r c : Nat) (w : List Char)
    (r' c' : Nat) :
    mcell? (placeDown cells r c w) r' c' =
      if c = c' ∧ r ≤ r' ∧ r' < r + w.length then
        (mcell? cells r' c').map (fun _ => w.get! (r' - r))
      else mcell? cells r' c' := by
  induction w generalizing cells r with
  | nil =>
    rw [if_neg (by simp only [List.length_nil]; omega)]
    rfl
  | cons ch rest ih =>
    show mcell? (placeDown (setCell cells r c ch) (r + 1) c rest) r' c' = _
    rw [ih, mcell?_setCell]
    by_cases hc : c = c'
    · by_cases hr : r = r'
      · have h1 : ¬(c = c' ∧ r + 1 ≤ r' ∧ r' < r + 1 + rest.length) := by omega
        have h2 : c = c' ∧ r ≤ r' ∧ r' < r + (ch :: rest).length := by
          refine ⟨hc, by omega, ?_⟩
          simp only [List.length_cons]
          omega
        rw [if_neg h1, if_pos ⟨hr, hc⟩, if_pos h2]
        subst hr
        simp only [Nat.sub_self]
        cases hcc : mcell? cells r c' <;> simp
      · by_cases hin : r + 1 ≤ r' ∧ r' < r + 1 + rest.length
        · have h2 : c = c' ∧ r ≤ r' ∧ r' < r + (ch :: rest).length := by
            refine ⟨hc, by omega, ?_⟩
            simp only [List.length_cons]
            omega
          rw [if_pos ⟨hc, hin⟩, if_pos h2,
            if_neg (by exact fun h => hr h.1)]
          have hidx : r' - r = (r' - (r + 1)) + 1 := by omega
          rw [hidx]
          cases hcc : mcell? cells r' c' <;> simp
        · have h2 : ¬(c = c' ∧ r ≤ r' ∧ r' < r + (ch :: rest).length) := by
            simp only [List.length_cons]
            intro h
            exact hin ⟨by omega, by omega⟩
          rw [if_neg (by exact fun h => hin h.2), if_neg h2,
            if_neg (by exact fun h => hr h.1)]
    · have hA : ¬(c = c' ∧ r + 1 ≤ r' ∧ r' < r + 1 + rest.length) := fun h => hc h.1
      have hB : ¬(r = r' ∧ c = c') := fun h => hc h.2
      have hC : ¬(c = c' ∧ r ≤ r' ∧ r' < r + (ch :: rest).length) := fun h => hc h.1
      rw [if_neg hA, if_neg hB, if_neg hC]

theorem cell?_eq_some_cellD (g : Grid) (hwf : WellFormed g) {r c : Nat}
    (hr : r < g.height) (hc : c < g.width) :
    cell? g r c = some (cellD g r c) := by
  obtain ⟨hlen, hrow⟩ := hwf
  have hr' : r < g.cells.length := by omega
  have hget := List.get?_eq_get hr'
  have hmem : g.cells.get ⟨r, hr'⟩ ∈ g.cells := List.get_mem _ _ _
  have hcl : c < (g.cells.get ⟨r, hr'⟩).length := by
    rw [hrow _ hmem]; exact hc
  have hch := List.get?_eq_get hcl
  simp only [List.get?_eq_getElem?, List.get_eq_getElem] at hget hch
  simp [cellD, cell?, mcell?, hget, hch]

theorem setCell_rowLengths (cells : List (List Char)) (r c : Nat) (ch : Char) :
    ∀ row ∈ setCell cells r c ch, ∃ row' ∈ cells, row.length = row'.length := by
  induction cells generalizing r with
  | nil => intro row h; cases h
  | cons hd rest ih =>
    cases r with
    | zero =>
      intro row h
      rcases List.mem_cons.mp h with h | h
      · exact ⟨hd, List.mem_cons_self _ _, by simp [h]⟩
      · exact ⟨row, List.mem_cons_of_mem _ h, rfl⟩
    | succ r =>
      intro row h
      rcases List.mem_cons.mp h with h | h
      · exact ⟨hd, List.mem_cons_self _ _, by simp [h]⟩
      · obtain ⟨row', h1, h2⟩ := ih r row h
        exact ⟨row', List.mem_cons_of_mem _ h1, h2⟩

theorem placeAcross_shape (cells : List (List Char)) (r c : Nat) (w : List Char) :
    (placeAcross cells r c w).length = cells.length ∧
      ∀ row ∈ placeAcross cells r c w, ∃ row' ∈ cells, row.length = row'.length := by
  induction w generalizing cells c with
  | nil => exact ⟨rfl, fun row h => ⟨row, h, rfl⟩⟩
  | cons ch rest ih =>
    obtain ⟨h1, h2⟩ := ih (setCell cells r c ch) (c + 1)
    constructor
    · show (placeAcross (setCell cells r c ch) r (c + 1) rest).length = cells.length
      rw [h1, setCell_length]
    · intro row h
      have h' : row ∈ placeAcross (setCell cells r c ch) r (c + 1) rest := h
      obtain ⟨row', hm, he⟩ := h2 row h'
      obtain ⟨row'', hm', he'⟩ := setCell_rowLengths cells r c ch row' hm
      exact ⟨row'', hm', he ▸ he'⟩

theorem placeDown_shape (cells : List (List Char)) (r c : Nat) (w : List Char) :
    (placeDown cells r c w).length = cells.length ∧
      ∀ row ∈ placeDown cells r c w, ∃ row' ∈ cells, row.length = row'.length := by
  induction w generalizing cells r with
  | nil => exact ⟨rfl, fun row h => ⟨row, h, rfl⟩⟩
  | cons ch rest ih =>
    obtain ⟨h1, h2⟩ := ih (setCell cells r c ch) (r + 1)
    constructor
    · show (placeDown (setCell cells r c ch) (r + 1) c rest).length = cells.length
      rw [h1, setCell_length]
    · intro row h
      have h' : row ∈ placeDown (setCell cells r c ch) (r + 1) c rest := h
      obtain ⟨row', hm, he⟩ := h2 row h'
      obtain ⟨row'', hm', he'⟩ := setCell_rowLengths cells r c ch row' hm
      exact ⟨row'', hm', he ▸ he'⟩

theorem wellFormed_placeWord (g : Grid) (hwf : WellFormed g) (w : List Char)
    (r c : Nat) (dir : Direction) (clue : String) (q : Int) :
    WellFormed (placeWord g w r c dir clue q) := by
  obtain ⟨hlen, hrow⟩ := hwf
  cases dir with
  | across =>
    obtain ⟨h1, h2⟩ := placeAcross_shape g.cells r c w
    refine ⟨by simpa [placeWord] using h1 ▸ hlen, fun row h => ?_⟩
    obtain ⟨row', hm, he⟩ := h2 row (by simpa [placeWord] using h)
    rw [he]; exact hrow row' hm
  | down =>
    obtain ⟨h1, h2⟩ := placeDown_shape g.cells r c w
    refine ⟨by simpa [placeWord] using h1 ▸ hlen, fun row h => ?_⟩
    obtain ⟨row', hm, he⟩ := h2 row (by simpa [placeWord] using h)
    rw [he]; exact hrow row' hm

/-- Span membership of a cell for a placement: the set of cells
`place_word` writes to. -/
def InSpan (w : List Char) (r c : Nat) (dir : Direction) (r' c' : Nat) : Prop :=
  match dir with
  | .across => r' = r ∧ c ≤ c' ∧ c' < c + w.length
  | .down => c' = c ∧ r ≤ r' ∧ r' < r + w.length

/-- Position of the i-th letter of a placement. -/
def spanPos (r c : Nat) (dir : Direction) (i : Nat) : Nat × Nat :=
  match dir with
  | .across => (r, c + i)
  | .down => (r + i, c)

/-- C8: `place_word` writes exactly the letters of the word along its span,
leaves every other cell unchanged, and appends exactly one `Word` record at
the end of the word list, modifying no existing record. -/
theorem placeWord_frame_effect (g : Grid) (hwf : WellFormed g) (w : List Char)
    (r c : Nat) (dir : Direction) (clue : String) (q : Int)
    (hbound : (spanPos r c dir (w.length - 1)).1 < g.height ∧
      (spanPos r c dir (w.length - 1)).2 < g.width ∧ r < g.height ∧ c < g.width) :
    (∀ i, i < w.length →
      cell? (placeWord g w r c dir clue q) (spanPos r c dir i).1 (spanPos r c dir i).2 =
        some (w.get! i)) ∧
    (∀ r' c', ¬ InSpan w r c dir r' c' →
      cell? (placeWord g w r c dir clue q) r' c' = cell? g r' c') ∧
    (placeWord g w r c dir clue q).words = g.words ++ [⟨w, r, c, dir, clue, q⟩] := by
  obtain ⟨hb1, hb2, hb3, hb4⟩ := hbound
  refine ⟨?_, ?_, rfl⟩
  · intro i hi
    cases dir with
    | across =>
      show mcell? (placeAcross g.cells r c w) r (c + i) = _
      rw [mcell?_placeAcross, if_pos ⟨rfl, by omega, by omega⟩]
      have : mcell? g.cells r (c + i) = some (cellD g r (c + i)) :=
        cell?_eq_some_cellD g hwf hb3 (by simp only [spanPos] at hb2; omega)
      rw [this, Nat.add_sub_cancel_left, Option.map_some']
    | down =>
      show mcell? (placeDown g.cells r c w) (r + i) c = _
      rw [mcell?_placeDown, if_pos ⟨rfl, by omega, by omega⟩]
      have : mcell? g.cells (r + i) c = some (cellD g (r + i) c) :=
        cell?_eq_some_cellD g hwf (by simp only [spanPos] at hb1; omega) hb4
      rw [this, Nat.add_sub_cancel_left, Option.map_some']
  · intro r' c' hns
    cases dir with
    | across =>
      show mcell? (placeAcross g.cells r c w) r' c' = _
      rw [mcell?_placeAcross, if_neg (fun h => hns ⟨h.1.symm, h.2⟩)]
      rfl
    | down =>
      show mcell? (placeDown g.cells r c w) r' c' = _
      rw [mcell?_placeDown, if_neg (fun h => hns ⟨h.1.symm, h.2⟩)]
      rfl

/-- Witness for C8 at a concrete instance: placing "AB" ACROSS at (0, 0) on
an empty 2 × 2 grid. -/
theorem placeWord_frame_effect_witness :
    (∀ i, i < (['A', 'B'] : List Char).length →
      cell? (placeWord ⟨2, 2, [['.', '.'], ['.', '.']], []⟩ ['A', 'B'] 0 0 .across "c" 1)
          (spanPos 0 0 .across i).1 (spanPos 0 0 .across i).2 =
        some ((['A', 'B'] : List Char).get! i)) ∧
    (∀ r' c', ¬ InSpan ['A', 'B'] 0 0 .across r' c' →
      cell? (placeWord ⟨2, 2, [['.', '.'], ['.', '.']], []⟩ ['A', 'B'] 0 0 .across "c" 1) r' c' =
        cell? ⟨2, 2, [['.', '.'], ['.', '.']], []⟩ r' c') ∧
    (placeWord ⟨2, 2, [['.', '.'], ['.', '.']], []⟩ ['A', 'B'] 0 0 .across "c" 1).words =
      [] ++ [⟨['A', 'B'], 0, 0, .across, "c", 1⟩] :=
  placeWord_frame_effect ⟨2, 2, [['.', '.'], ['.', '.']], []⟩ (by decide)
    ['A', 'B'] 0 0 .across "c" 1 (by decide)

/- ## Letter sequences (`get_all_letter_sequences`) -/

/-- One row/column scan of `get_all_letter_sequences`: collects the maximal
runs of non-'.' characters together with their start index.  `i` is the
index of the next character, `cur` the run in progress (start index and
reversed characters), mirroring the `while` scan of the source. -/
def runsGo : List Char → Nat → Option (Nat × List Char) → List (List Char × Nat)
  | [], _, none => []
  | [], _, some (st, acc) => [(acc.reverse, st)]
  | ch :: rest, i, none =>
      if ch = '.' then runsGo rest (i + 1) none
      else runsGo rest (i + 1) (some (i, [ch]))
  | ch :: rest, i, some (st, acc) =>
      if ch = '.' then (acc.reverse, st) :: runsGo rest (i + 1) none
      else runsGo rest (i + 1) (some (st, ch :: acc))

/-- The characters of row `r` in index order (`self.grid[row][col]` for
`col in range(self.width)`, the order the source scans a row). -/
def rowLine (g : Grid) (r : Nat) : List Char :=
  (List.range g.width).map (fun c => cellD g r c)

/-- The characters of column `c` in index order (`self.grid[row][col]` for
`row in range(self.height)`, the order the source scans a column). -/
def colLine (g : Grid) (c : Nat) : List Char :=
  (List.range g.height).map (fun r => cellD g r c)

/-- Embeds `CrosswordGrid.get_all_letter_sequences`: all maximal contiguous
letter runs of length ≥ 2, horizontal runs (row order) first, then vertical
runs (column order). -/
def getAllLetterSequences (g : Grid) : List (List Char × Nat × Nat × Direction) :=
  ((List.range g.height).flatMap (fun r =>
    (runsGo (rowLine g r) 0 none).filterMap (fun p =>
      if 1 < p.1.length then some (p.1, r, p.2, Direction.across) else none)))
  ++ ((List.range g.width).flatMap (fun c =>
    (runsGo (colLine g c) 0 none).filterMap (fun p =>
      if 1 < p.1.length then some (p.1, p.2, c, Direction.down) else none)))

/-- Membership test of `(text, row, col, direction)` in the set built by
`get_placed_words_set`. -/
def isPlacedTuple (words : List Word) (s : List Char) (r c : Nat) (d : Direction) : Bool :=
  words.any (fun wd => decide (wd.text = s ∧ wd.row = r ∧ wd.col = c ∧ wd.direction = d))

/-- Embeds `CrosswordGrid.count_invalid_sequences`: counts the letter
sequences that do not correspond to a placed word, have length ≥ 2, and
whose text is not among the available answers. -/
def countInvalidSequences (g : Grid) (ans : List (List Char)) : Nat :=
  (getAllLetterSequences g).foldl
    (fun acc t =>
      if ¬ isPlacedTuple g.words t.1 t.2.1 t.2.2.1 t.2.2.2 = true ∧
          2 ≤ t.1.length ∧ t.1 ∉ ans
      then acc + 1 else acc) 0

/-- Stated from claim C1's words (§4.2 rule 4's threshold reapplied
grid-wide): the number of incidental sequences — maximal letter runs not
matching any placed word's `(text, row, col, direction)` — of length ≥ 3
whose text is not in the eligible-answer set. -/
def claimInvalidCount (g : Grid) (ans : List (List Char)) : Nat :=
  ((getAllLetterSequences g).filter
    (fun t => decide (¬ isPlacedTuple g.words t.1 t.2.1 t.2.2.1 t.2.2.2 = true ∧
      3 ≤ t.1.length ∧ t.1 ∉ ans))).length

/-- The same count with the length threshold the code actually uses (≥ 2,
which on the ≥ 2-length output of `get_all_letter_sequences` means every
incidental sequence whose text is not eligible is counted). -/
def incidentalInvalidCount (g : Grid) (ans : List (List Char)) : Nat :=
  ((getAllLetterSequences g).filter
    (fun t => decide (¬ isPlacedTuple g.words t.1 t.2.1 t.2.2.1 t.2.2.2 = true ∧
      2 ≤ t.1.length ∧ t.1 ∉ ans))).length

theorem foldl_count_eq_filter_length {α : Type} (p : α → Prop) [DecidablePred p]
    (l : List α) (acc : Nat) :
    l.foldl (fun a t => if p t then a + 1 else a) acc =
      acc + (l.filter (fun t => decide (p t))).length := by
  induction l generalizing acc with
  | nil => simp
  | cons x xs ih =>
    by_cases h : p x
    · have hfil : (x :: xs).filter (fun t => decide (p t)) =
          x :: xs.filter (fun t => decide (p t)) := by
        simp [List.filter_cons, h]
      rw [List.foldl_cons, if_pos h, ih, hfil, List.length_cons]
      omega
    · have hfil : (x :: xs).filter (fun t => decide (p t)) =
          xs.filter (fun t => decide (p t)) := by
        simp [List.filter_cons, h]
      rw [List.foldl_cons, if_neg h, ih, hfil]

/-- C1, counterexample: on a 2 × 2 grid holding the single incidental run
"QQ" (length 2, no placed words, empty answer set), the code counts 1
invalid sequence while the claim's length ≥ 3 rule counts 0. -/
theorem countInvalidSequences_ne_claimInvalidCount :
    countInvalidSequences ⟨2, 2, [['Q', 'Q'], ['.', '.']], []⟩ [] = 1 ∧
    claimInvalidCount ⟨2, 2, [['Q', 'Q'], ['.', '.']], []⟩ [] = 0 ∧
    countInvalidSequences ⟨2, 2, [['Q', 'Q'], ['.', '.']], []⟩ [] ≠
      claimInvalidCount ⟨2, 2, [['Q', 'Q'], ['.', '.']], []⟩ [] := by
  refine ⟨?_, ?_, ?_⟩ <;> decide

/-- C1 amended: `count_invalid_sequences` counts exactly the incidental
sequences (maximal letter runs not matching any placed word's
`(text, row, col, direction)`) of length ≥ 2 — not ≥ 3 as the claim says —
whose text is not in the eligible-answer set. -/
theorem countInvalidSequences_eq_incidentalInvalidCount (g : Grid)
    (ans : List (List Char)) :
    countInvalidSequences g ans = incidentalInvalidCount g ans := by
  unfold countInvalidSequences incidentalInvalidCount
  rw [foldl_count_eq_filter_length]
  exact Nat.zero_add _

/- ## Consecutive-empty violations (`count_consecutive_empty_violations`) -/

/-- Inner scan of `count_consecutive_empty_violations` over one line: walk
the cells keeping the current consecutive-empty count and increment the
violation total every time that count exceeds `m`. -/
def violScan (m : Nat) : List Char → Nat → Nat → Nat
  | [], _, acc => acc
  | ch :: rest, consec, acc =>
      if ch = '.' then
        violScan m rest (consec + 1) (if m < consec + 1 then acc + 1 else acc)
      else violScan m rest 0 acc

/-- Embeds `CrosswordGrid.count_consecutive_empty_violations`: scan every
row (as stored) and then every column (by index), with threshold
`max(width, height) // 2`. -/
def countConsecutiveEmptyViolations (g : Grid) : Nat :=
  (List.range g.width).foldl
    (fun acc c => violScan (max g.width g.height / 2) (colLine g c) 0 acc)
    (g.cells.foldl (fun acc row => violScan (max g.width g.height / 2) row 0 acc) 0)

/-- Lengths of the maximal runs of '.' characters in a line; `k` is the
length of the run in progress. -/
def dotRunsGo : List Char → Nat → List Nat
  | [], 0 => []
  | [], k + 1 => [k + 1]
  | ch :: rest, k =>
      if ch = '.' then dotRunsGo rest (k + 1)
      else if k = 0 then dotRunsGo rest 0 else k :: dotRunsGo rest 0

/-- Lengths of the maximal runs of empty cells in a line. -/
def dotRuns (l : List Char) : List Nat := dotRunsGo l 0

/-- Sum over runs of how far each run exceeds the threshold `m`. -/
def runExcess (m : Nat) (ks : List Nat) : Nat := (ks.map (fun k => k - m)).sum

/-- Stated from claim C4's words: the number of rows and columns containing
a run of empty cells of length > `max(width, height) // 2`, each such line
counted once. -/
def claimViolatingLineCount (g : Grid) : Nat :=
  (List.range g.height).countP
    (fun r => (dotRuns (rowLine g r)).any (fun k => decide (max g.width g.height / 2 < k))) +
  (List.range g.width).countP
    (fun c => (dotRuns (colLine g c)).any (fun k => decide (max g.width g.height / 2 < k)))

/-- Per-line violation total, expressed over maximal empty runs: a run of
length `k` contributes `k - m` (this is what the scan actually counts). -/
def claimRunExcessTotal (g : Grid) : Nat :=
  (g.cells.map (fun row => runExcess (max g.width g.height / 2) (dotRuns row))).sum +
  ((List.range g.width).map
    (fun c => runExcess (max g.width g.height / 2) (dotRuns (colLine g c)))).sum

theorem violScan_eq_runExcess (m : Nat) (l : List Char) :
    ∀ k acc, violScan m l k acc + (k - m) = acc + runExcess m (dotRunsGo l k) := by
  induction l with
  | nil =>
    intro k acc
    cases k with
    | zero => simp [violScan, dotRunsGo, runExcess]
    | succ k => simp [violScan, dotRunsGo, runExcess]
  | cons ch rest ih =>
    intro k acc
    by_cases hch : ch = '.'
    · have hdot : dotRunsGo (ch :: rest) k = dotRunsGo rest (k + 1) := by
        simp [dotRunsGo, hch]
      have hvs : violScan m (ch :: rest) k acc =
          violScan m rest (k + 1) (if m < k + 1 then acc + 1 else acc) := by
        simp [violScan, hch]
      rw [hdot, hvs]
      have := ih (k + 1) (if m < k + 1 then acc + 1 else acc)
      by_cases hm : m < k + 1
      · rw [if_pos hm] at this ⊢
        omega
      · rw [if_neg hm] at this ⊢
        omega
    · have hvs : violScan m (ch :: rest) k acc = violScan m rest 0 acc := by
        simp [violScan, hch]
      have := ih 0 acc
      cases k with
      | zero =>
        have hdot : dotRunsGo (ch :: rest) 0 = dotRunsGo rest 0 := by
          simp [dotRunsGo, hch]
        rw [hdot, hvs]
        omega
      | succ k =>
        have hdot : dotRunsGo (ch :: rest) (k + 1) = (k + 1) :: dotRunsGo rest 0 := by
          simp [dotRunsGo, hch]
        rw [hdot, hvs]
        have hre : runExcess m ((k + 1) :: dotRunsGo rest 0) =
            (k + 1 - m) + runExcess m (dotRunsGo rest 0) := by
          simp [runExcess]
        rw [hre]
        omega

theorem violScan_zero (m : Nat) (l : List Char) (acc : Nat) :
    violScan m l 0 acc = acc + runExcess m (dotRuns l) := by
  have := violScan_eq_runExcess m l 0 acc
  unfold dotRuns
  omega

theorem foldl_violScan {α : Type} (m : Nat) (line : α → List Char) (l : List α) :
    ∀ acc, l.foldl (fun acc x => violScan m (line x) 0 acc) acc =
      acc + (l.map (fun x => runExcess m (dotRuns (line x)))).sum := by
  induction l with
  | nil => intro acc; simp
  | cons x xs ih =>
    intro acc
    rw [List.foldl_cons, violScan_zero, ih]
    simp only [List.map_cons, List.sum_cons]
    omega

theorem nat_sum_pos (l : List Nat) : 0 < l.sum ↔ ∃ x ∈ l, 0 < x := by
  induction l with
  | nil => simp
  | cons x xs ih =>
    simp only [List.sum_cons, List.mem_cons]
    constructor
    · intro h
      by_cases hx : 0 < x
      · exact ⟨x, Or.inl rfl, hx⟩
      · obtain ⟨y, hy, hy'⟩ := ih.mp (by omega)
        exact ⟨y, Or.inr hy, hy'⟩
    · rintro ⟨y, hy | hy, hy'⟩
      · omega
      · have := ih.mpr ⟨y, hy, hy'⟩
        omega

theorem nat_sum_map_pos {α : Type} (f : α → Nat) (l : List α) :
    0 < (l.map f).sum ↔ ∃ a ∈ l, 0 < f a := by
  rw [nat_sum_pos]
  constructor
  · rintro ⟨x, hx, hx'⟩
    obtain ⟨a, ha, rfl⟩ := List.mem_map.mp hx
    exact ⟨a, ha, hx'⟩
  · rintro ⟨a, ha, ha'⟩
    exact ⟨f a, List.mem_map_of_mem _ ha, ha'⟩

theorem runExcess_pos (m : Nat) (ks : List Nat) :
    0 < runExcess m ks ↔ ∃ k ∈ ks, m < k := by
  unfold runExcess
  rw [nat_sum_map_pos]
  constructor <;> rintro ⟨k, hk, hk'⟩ <;> exact ⟨k, hk, by omega⟩

/-- C4, counterexample: on a 3 × 1 all-empty grid (threshold
`max(3,1) // 2 = 1`) the code counts 2 violations — one for each cell
beyond the threshold in the single empty run of length 3 — while the claim
counts 1 (one violating row, no violating column). -/
theorem countConsecutiveEmptyViolations_ne_claim :
    countConsecutiveEmptyViolations ⟨3, 1, [['.', '.', '.']], []⟩ = 2 ∧
    claimViolatingLineCount ⟨3, 1, [['.', '.', '.']], []⟩ = 1 ∧
    countConsecutiveEmptyViolations ⟨3, 1, [['.', '.', '.']], []⟩ ≠
      claimViolatingLineCount ⟨3, 1, [['.', '.', '.']], []⟩ := by
  refine ⟨?_, ?_, ?_⟩ <;> decide

/-- C4 amended: `count_consecutive_empty_violations` counts, over every row
and every column, `k - m` for each maximal run of `k` empty cells, where
`m = max(width, height) // 2` (so a line with one long run contributes once
per cell beyond the threshold, not once per line); consequently the count
is positive iff some row or column contains an empty run of length > m. -/
theorem countConsecutiveEmptyViolations_eq_runExcess (g : Grid) :
    countConsecutiveEmptyViolations g = claimRunExcessTotal g ∧
    (0 < countConsecutiveEmptyViolations g ↔
      (∃ row ∈ g.cells, ∃ k ∈ dotRuns row, max g.width g.height / 2 < k) ∨
      (∃ c ∈ List.range g.width, ∃ k ∈ dotRuns (colLine g c),
        max g.width g.height / 2 < k)) := by
  have heq : countConsecutiveEmptyViolations g = claimRunExcessTotal g := by
    unfold countConsecutiveEmptyViolations claimRunExcessTotal
    rw [foldl_violScan, foldl_violScan]
    omega
  refine ⟨heq, ?_⟩
  rw [heq]
  unfold claimRunExcessTotal
  have hA : 0 < (g.cells.map
      (fun row => runExcess (max g.width g.height / 2) (dotRuns row))).sum ↔
      ∃ row ∈ g.cells, ∃ k ∈ dotRuns row, max g.width g.height / 2 < k := by
    rw [nat_sum_map_pos]
    exact exists_congr fun row => and_congr_right fun _ =>
      runExcess_pos (max g.width g.height / 2) (dotRuns row)
  have hB : 0 < ((List.range g.width).map
      (fun c => runExcess (max g.width g.height / 2) (dotRuns (colLine g c)))).sum ↔
      ∃ c ∈ List.range g.width, ∃ k ∈ dotRuns (colLine g c),
        max g.width g.height / 2 < k := by
    rw [nat_sum_map_pos]
    exact exists_congr fun c => and_congr_right fun _ =>
      runExcess_pos (max g.width g.height / 2) (dotRuns (colLine g c))
  rw [← hA, ← hB]
  omega

/- ## Sequence reconciliation (`process_unintended_sequences`) -/

/-- Embeds `CrosswordGrid._words_overlap`: words in the same direction never
overlap; otherwise `word2`'s origin must sit on `word1`'s line, within
`word1`'s span. -/
def wordsOverlap (w1 w2 : Word) : Bool :=
  if w1.direction = w2.direction then false
  else match w1.direction with
    | .across => decide (w1.row = w2.row ∧ w1.col ≤ w2.col ∧
        w2.col < w1.col + w1.text.length)
    | .down => decide (w1.col = w2.col ∧ w1.row ≤ w2.row ∧
        w2.row < w1.row + w1.text.length)

/-- Quality lookup of `process_unintended_sequences`: first entry of the
clue list whose answer equals the sequence, defaulting to 2. -/
def lookupQuality (clueList : Option (List (String × List Char × Int)))
    (s : List Char) : Int :=
  match clueList with
  | none => 2
  | some l =>
    match l.find? (fun e => decide (e.2.1 = s)) with
    | some e => e.2.2
    | none => 2

/-- The incidental sequences promoted to words by
`process_unintended_sequences`: length ≥ 3, not matching a placed word,
text in the available answers; clue and quality looked up. -/
def unintendedWords (g : Grid) (ans : List (List Char))
    (clueLookup : List Char → String)
    (clueList : Option (List (String × List Char × Int))) : List Word :=
  (getAllLetterSequences g).filterMap (fun t =>
    if ¬ isPlacedTuple g.words t.1 t.2.1 t.2.2.1 t.2.2.2 = true ∧
        3 ≤ t.1.length ∧ t.1 ∈ ans
    then some ⟨t.1, t.2.1, t.2.2.1, t.2.2.2, clueLookup t.1, lookupQuality clueList t.1⟩
    else none)

/-- The `updated_words` list of `process_unintended_sequences`: placed words
followed by the promoted incidental sequences. -/
def updatedWords (g : Grid) (ans : List (List Char))
    (clueLookup : List Char → String)
    (clueList : Option (List (String × List Char × Int))) : List Word :=
  g.words ++ unintendedWords g ans clueLookup clueList

/-- Whether `process_unintended_sequences` puts `wd` into
`words_to_remove`: some other word of the list has `wd.text` as a strictly
shorter substring of its text and passes `_words_overlap`.  (Membership of
`wd` in the Python `words_to_remove` list is equivalent to this flag, since
dataclass equality is structural.) -/
def removeFlag (updated : List Word) (wd : Word) : Bool :=
  updated.any (fun other =>
    decide (wd ≠ other ∧ wd.text <:+: other.text ∧
      wd.text.length < other.text.length) && wordsOverlap wd other)

/-- Embeds `CrosswordGrid.process_unintended_sequences`: promote valid
incidental sequences, then drop every word flagged as a removable
substring-overlap of a longer word. -/
def processUnintendedSequences (g : Grid) (ans : List (List Char))
    (clueLookup : List Char → String)
    (clueList : Option (List (String × List Char × Int))) : List Word :=
  let updated := updatedWords g ans clueLookup clueList
  updated.filter (fun wd => ! removeFlag updated wd)

/-- Stated from claim C2's words: the shorter word's text is a strict
substring of the longer's, the directions differ, and the shorter word's
origin lies within the longer word's span on the shared axis. -/
def claimSubsumed (shorter longer : Word) : Bool :=
  decide (shorter.text <:+: longer.text) && decide (shorter.text ≠ longer.text) &&
  decide (shorter.direction ≠ longer.direction) &&
  (match longer.direction with
   | .across => decide (shorter.row = longer.row ∧ longer.col ≤ shorter.col ∧
       shorter.col < longer.col + longer.text.length)
   | .down => decide (shorter.col = longer.col ∧ longer.row ≤ shorter.row ∧
       shorter.row < longer.row + longer.text.length))

/-- C2, counterexample: on a 3 × 3 grid with "ABC" placed DOWN at (0,0) and
"BC" placed ACROSS at (1,0), the pair satisfies the claim's subsumption
condition ("BC" is a strict substring of "ABC", directions differ, and the
shorter word's origin (1,0) lies on the longer's span), yet the reconciler
keeps "BC": the code's `_words_overlap` instead requires the longer word's
origin to lie within the shorter word's span. -/
theorem processUnintendedSequences_keeps_claimed_subsumed_word :
    claimSubsumed ⟨['B', 'C'], 1, 0, .across, "c2", 1⟩
      ⟨['A', 'B', 'C'], 0, 0, .down, "c1", 1⟩ = true ∧
    ⟨['B', 'C'], 1, 0, .across, "c2", 1⟩ ∈
      updatedWords
        ⟨3, 3, [['A', '.', '.'], ['B', 'C', '.'], ['C', '.', '.']],
          [⟨['A', 'B', 'C'], 0, 0, .down, "c1", 1⟩, ⟨['B', 'C'], 1, 0, .across, "c2", 1⟩]⟩
        [] (fun _ => "") (some []) ∧
    ⟨['A', 'B', 'C'], 0, 0, .down, "c1", 1⟩ ∈
      updatedWords
        ⟨3, 3, [['A', '.', '.'], ['B', 'C', '.'], ['C', '.', '.']],
          [⟨['A', 'B', 'C'], 0, 0, .down, "c1", 1⟩, ⟨['B', 'C'], 1, 0, .across, "c2", 1⟩]⟩
        [] (fun _ => "") (some []) ∧
    ⟨['B', 'C'], 1, 0, .across, "c2", 1⟩ ∈
      processUnintendedSequences
        ⟨3, 3, [['A', '.', '.'], ['B', 'C', '.'], ['C', '.', '.']],
          [⟨['A', 'B', 'C'], 0, 0, .down, "c1", 1⟩, ⟨['B', 'C'], 1, 0, .across, "c2", 1⟩]⟩
        [] (fun _ => "") (some []) := by
  refine ⟨?_, ?_, ?_, ?_⟩ <;> decide

/-- C2 amended: a word of the reconciled candidate list is dropped whenever
some other word of that list has strictly longer text containing the
first's text as a substring and passes the code's `_words_overlap` test —
which requires the *longer* word's origin to lie within the *shorter*
word's span on the shorter word's line (not the shorter's origin within the
longer's span, as the claim put it). -/
theorem processUnintendedSequences_drops_overlapped_substring (g : Grid)
    (ans : List (List Char)) (clueLookup : List Char → String)
    (clueList : Option (List (String × List Char × Int))) (w1 w2 : Word)
    (h1 : w1 ∈ updatedWords g ans clueLookup clueList)
    (h2 : w2 ∈ updatedWords g ans clueLookup clueList)
    (hsub : w1.text <:+: w2.text) (hlen : w1.text.length < w2.text.length)
    (hov : wordsOverlap w1 w2 = true) :
    w1 ∉ processUnintendedSequences g ans clueLookup clueList := by
  intro hmem
  unfold processUnintendedSequences at hmem
  have := (List.mem_filter.mp hmem).2
  have hflag : removeFlag (updatedWords g ans clueLookup clueList) w1 = true := by
    unfold removeFlag
    rw [List.any_eq_true]
    refine ⟨w2, h2, ?_⟩
    have hne : w1 ≠ w2 := by
      intro h
      rw [h] at hlen
      omega
    rw [Bool.and_eq_true, decide_eq_true_eq]
    exact ⟨⟨hne, hsub, hlen⟩, hov⟩
  rw [hflag] at this
  simp at this

/-- Witness for the amended C2: "AB" ACROSS at (0,0) is dropped because
"ABC" DOWN starts at (0,0), inside "AB"'s span. -/
theorem processUnintendedSequences_drops_overlapped_substring_witness :
    (⟨['A', 'B'], 0, 0, .across, "c2", 1⟩ : Word) ∈
      updatedWords
        ⟨3, 3, [['A', 'B', '.'], ['B', '.', '.'], ['C', '.', '.']],
          [⟨['A', 'B', 'C'], 0, 0, .down, "c1", 1⟩, ⟨['A', 'B'], 0, 0, .across, "c2", 1⟩]⟩
        [] (fun _ => "") (some []) ∧
    (⟨['A', 'B'], 0, 0, .across, "c2", 1⟩ : Word) ∉
      processUnintendedSequences
        ⟨3, 3, [['A', 'B', '.'], ['B', '.', '.'], ['C', '.', '.']],
          [⟨['A', 'B', 'C'], 0, 0, .down, "c1", 1⟩, ⟨['A', 'B'], 0, 0, .across, "c2", 1⟩]⟩
        [] (fun _ => "") (some []) :=
  ⟨by decide,
    processUnintendedSequences_drops_overlapped_substring
      ⟨3, 3, [['A', 'B', '.'], ['B', '.', '.'], ['C', '.', '.']],
        [⟨['A', 'B', 'C'], 0, 0, .down, "c1", 1⟩, ⟨['A', 'B'], 0, 0, .across, "c2", 1⟩]⟩
      [] (fun _ => "") (some []) ⟨['A', 'B'], 0, 0, .across, "c2", 1⟩
      ⟨['A', 'B', 'C'], 0, 0, .down, "c1", 1⟩ (by decide) (by decide) (by decide)
      (by decide) (by decide)⟩

/- ## Average quality (`calculate_average_quality`) -/

/-- Embeds `CrosswordGenerator.calculate_average_quality` (exact rational
arithmetic in place of floats): mean quality over the reconciled word list
when the answer set and clue lookup are supplied, over the raw placed list
otherwise; 0 when that list is empty. -/
def calculateAverageQuality (clueList : List (String × List Char × Int)) (g : Grid)
    (opt : Option ((List (List Char)) × (List Char → String))) : ℚ :=
  let finalWords := match opt with
    | some (ans, cl) => processUnintendedSequences g ans cl (some clueList)
    | none => g.words
  if finalWords = [] then 0
  else (finalWords.map (fun wd => (wd.quality : ℚ))).sum / (finalWords.length : ℚ)

/-- C10: when the reconciled word list is empty (or the raw word list, when
no answer set is supplied), `calculate_average_quality` returns exactly 0,
a value strictly below the best attainable score 1. -/
theorem calculateAverageQuality_empty (clueList : List (String × List Char × Int))
    (g : Grid) (ans : List (List Char)) (cl : List Char → String) :
    (processUnintendedSequences g ans cl (some clueList) = [] →
      calculateAverageQuality clueList g (some (ans, cl)) = 0) ∧
    (g.words = [] → calculateAverageQuality clueList g none = 0) ∧
    (0 : ℚ) < 1 := by
  refine ⟨?_, ?_, by norm_num⟩
  · intro h
    unfold calculateAverageQuality
    simp [h]
  · intro h
    unfold calculateAverageQuality
    simp [h]

/-- Witness for C10 on the empty 1 × 1 grid. -/
theorem calculateAverageQuality_empty_witness :
    (processUnintendedSequences ⟨1, 1, [['.']], []⟩ [] (fun _ => "") (some []) = [] ∧
      calculateAverageQuality [] ⟨1, 1, [['.']], []⟩ (some ([], fun _ => "")) = 0) ∧
    ((⟨1, 1, [['.']], []⟩ : Grid).words = [] ∧
      calculateAverageQuality [] ⟨1, 1, [['.']], []⟩ none = 0) :=
  ⟨⟨by decide,
    (calculateAverageQuality_empty [] ⟨1, 1, [['.']], []⟩ [] (fun _ => "")).1 (by decide)⟩,
   ⟨rfl,
    (calculateAverageQuality_empty [] ⟨1, 1, [['.']], []⟩ [] (fun _ => "")).2.1 rfl⟩⟩

/- ## Candidate ranking (`get_best_quality_words`) -/

/-- Pattern match of the source
(`all(p == "." or p == a for p, a in zip(pattern, answer))`). -/
def matchesPattern (p a : List Char) : Bool :=
  (p.zip a).all (fun e => decide (e.1 = '.' ∨ e.1 = e.2))

/-- The length bucket `self.answers_by_length[n]`: the `(answer, clue,
quality)` triples of the clue list, in corpus order, restricted to answers
of length `n` that fit the grid (`n ≤ max(width, height)`). -/
def answersByLength (clueList : List (String × List Char × Int)) (maxLen n : Nat) :
    List (List Char × String × Int) :=
  clueList.filterMap (fun e =>
    if e.2.1.length ≤ maxLen ∧ e.2.1.length = n then some (e.2.1, e.1, e.2.2) else none)

/-- The pattern rejection test of `get_best_quality_words`
(`len(answer) != len(pattern) or not all(...)`); `false` when no pattern is
given. -/
def patternSkip (pattern : Option (List Char)) (a : List Char) : Bool :=
  match pattern with
  | some p => ! (decide (a.length = p.length) && matchesPattern p a)
  | none => false

/-- Scan loop of `get_best_quality_words`: one unit of `fuel` per record
examined (the `checked > max_to_check` cap), skipping records worse than
the target quality, already used, or failing the pattern; append otherwise
and stop as soon as `max_results` is reached. -/
def gbqwAux (used : List (List Char)) (pattern : Option (List Char)) (target : Int)
    (maxResults : Nat) :
    List (List Char × String × Int) → Nat → List (List Char × String × Int) →
      List (List Char × String × Int)
  | [], _, acc => acc
  | _ :: _, 0, acc => acc
  | e :: rest, fuel + 1, acc =>
      if target < e.2.2 then gbqwAux used pattern target maxResults rest fuel acc
      else if e.1 ∈ used then gbqwAux used pattern target maxResults rest fuel acc
      else if patternSkip pattern e.1 then gbqwAux used pattern target maxResults rest fuel acc
      else
        if maxResults ≤ (acc ++ [e]).length then acc ++ [e]
        else gbqwAux used pattern target maxResults rest fuel (acc ++ [e])

/-- Embeds `CrosswordGenerator.get_best_quality_words` (the missing-bucket
early return coincides with the scan of an empty bucket). -/
def getBestQualityWords (clueList : List (String × List Char × Int)) (maxLen : Nat)
    (length : Nat) (pattern : Option (List Char)) (used : List (List Char))
    (maxResults : Nat) (target : Int) : List (List Char × String × Int) :=
  gbqwAux used pattern target maxResults (answersByLength clueList maxLen length)
    (min 500 (answersByLength clueList maxLen length).length) []

theorem gbqwAux_preserves {used pattern target maxResults}
    (P : List Char × String × Int → Prop)
    (hP : ∀ e : List Char × String × Int,
      e.2.2 ≤ target → e.1 ∉ used →
      (∀ p, pattern = some p → e.1.length = p.length ∧ matchesPattern p e.1 = true) →
      P e) :
    ∀ (bucket : List (List Char × String × Int)) (fuel : Nat)
      (acc : List (List Char × String × Int)),
      (∀ e ∈ acc, P e) →
      ∀ e ∈ gbqwAux used pattern target maxResults bucket fuel acc, P e := by
  intro bucket
  induction bucket with
  | nil => intro fuel acc hacc e he; exact hacc e he
  | cons x rest ih =>
    intro fuel acc hacc e he
    cases fuel with
    | zero => exact hacc e he
    | succ fuel =>
      by_cases h1 : target < x.2.2
      · exact ih fuel acc hacc e (by simpa [gbqwAux, h1] using he)
      · by_cases h2 : x.1 ∈ used
        · exact ih fuel acc hacc e (by simpa [gbqwAux, h1, h2] using he)
        · by_cases h3 : patternSkip pattern x.1 = true
          · exact ih fuel acc hacc e (by simpa [gbqwAux, h1, h2, h3] using he)
          · have hx : P x := by
              refine hP x (by omega) h2 ?_
              intro p hp
              rw [hp] at h3
              simpa [patternSkip, Bool.and_eq_true, decide_eq_true_eq] using h3
            have hacc' : ∀ e ∈ acc ++ [x], P e := by
              intro e he'
              rcases List.mem_append.mp he' with h | h
              · exact hacc e h
              · rw [List.mem_singleton.mp h]; exact hx
            by_cases h4 : maxResults ≤ acc.length + 1
            · exact hacc' e (by simpa [gbqwAux, h1, h2, h3, h4] using he)
            · exact ih fuel (acc ++ [x]) hacc' e (by simpa [gbqwAux, h1, h2, h3, h4] using he)

theorem gbqwAux_sublist {used pattern target maxResults} :
    ∀ (bucket : List (List Char × String × Int)) (fuel : Nat)
      (acc : List (List Char × String × Int)),
      ∃ t, gbqwAux used pattern target maxResults bucket fuel acc = acc ++ t ∧
        t.Sublist bucket := by
  intro bucket
  induction bucket with
  | nil => intro fuel acc; exact ⟨[], by cases fuel <;> simp [gbqwAux], List.Sublist.refl _⟩
  | cons x rest ih =>
    intro fuel acc
    cases fuel with
    | zero => exact ⟨[], by simp [gbqwAux], List.nil_sublist _⟩
    | succ fuel =>
      by_cases h1 : target < x.2.2
      · obtain ⟨t, he, hs⟩ := ih fuel acc
        exact ⟨t, by simpa [gbqwAux, h1] using he, hs.cons x⟩
      · by_cases h2 : x.1 ∈ used
        · obtain ⟨t, he, hs⟩ := ih fuel acc
          exact ⟨t, by simpa [gbqwAux, h1, h2] using he, hs.cons x⟩
        · by_cases h3 : patternSkip pattern x.1 = true
          · obtain ⟨t, he, hs⟩ := ih fuel acc
            exact ⟨t, by simpa [gbqwAux, h1, h2, h3] using he, hs.cons x⟩
          · by_cases h4 : maxResults ≤ acc.length + 1
            · exact ⟨[x], by simp [gbqwAux, h1, h2, h3, h4],
                (List.nil_sublist rest).cons₂ x⟩
            · obtain ⟨t, he, hs⟩ := ih fuel (acc ++ [x])
              refine ⟨x :: t, ?_, hs.cons₂ x⟩
              rw [show acc ++ x :: t = (acc ++ [x]) ++ t by simp]
              simpa [gbqwAux, h1, h2, h3, h4] using he

theorem gbqwAux_length {used pattern target maxResults} :
    ∀ (bucket : List (List Char × String × Int)) (fuel : Nat)
      (acc : List (List Char × String × Int)),
      acc.length < maxResults →
      (gbqwAux used pattern target maxResults bucket fuel acc).length ≤ maxResults := by
  intro bucket
  induction bucket with
  | nil => intro fuel acc hacc; cases fuel <;> simp [gbqwAux] <;> omega
  | cons x rest ih =>
    intro fuel acc hacc
    cases fuel with
    | zero => simp [gbqwAux]; omega
    | succ fuel =>
      by_cases h1 : target < x.2.2
      · simpa [gbqwAux, h1] using ih fuel acc hacc
      · by_cases h2 : x.1 ∈ used
        · simpa [gbqwAux, h1, h2] using ih fuel acc hacc
        · by_cases h3 : patternSkip pattern x.1 = true
          · simpa [gbqwAux, h1, h2, h3] using ih fuel acc hacc
          · by_cases h4 : maxResults ≤ acc.length + 1
            · have h6 : acc.length + 1 ≤ maxResults := by omega
              simpa [gbqwAux, h1, h2, h3, h4] using h6
            · have h5 : (acc ++ [x]).length < maxResults := by
                simp only [List.length_append, List.length_cons, List.length_nil]
                omega
              simpa [gbqwAux, h1, h2, h3, h4] using ih fuel (acc ++ [x]) h5

theorem mem_answersByLength {clueList : List (String × List Char × Int)}
    {maxLen n : Nat} {e : List Char × String × Int}
    (h : e ∈ answersByLength clueList maxLen n) : e.1.length = n := by
  obtain ⟨a, _, ha⟩ := List.mem_filterMap.mp h
  by_cases hc : a.2.1.length ≤ maxLen ∧ a.2.1.length = n
  · rw [if_pos hc] at ha
    cases ha
    exact hc.2
  · rw [if_neg hc] at ha
    cases ha

/-- C7, counterexample: with `max_results = 0` the scan still returns one
record (the source appends before testing the cap), so "at most
`max_results` records" fails at the boundary. -/
theorem getBestQualityWords_maxResults_zero :
    getBestQualityWords [("c", ['A', 'B', 'C'], 1)] 5 3 none [] 0 1 =
      [(['A', 'B', 'C'], "c", 1)] ∧
    ¬ (getBestQualityWords [("c", ['A', 'B', 'C'], 1)] 5 3 none [] 0 1).length ≤ 0 := by
  refine ⟨?_, ?_⟩ <;> decide

/-- C7 amended: every record returned by `get_best_quality_words` has an
answer of exactly the requested length, quality ≤ `target_quality`, answer
not in `used_answers`, and answer matching the pattern; the records appear
in corpus order for the length bucket (the result is a subsequence of the
bucket); and — provided `max_results ≥ 1` — at most `max_results` records
are returned (with `max_results = 0` the source still returns one record,
see the counterexample). -/
theorem getBestQualityWords_spec (clueList : List (String × List Char × Int))
    (maxLen length : Nat) (pattern : Option (List Char)) (used : List (List Char))
    (maxResults : Nat) (target : Int) :
    (∀ e ∈ getBestQualityWords clueList maxLen length pattern used maxResults target,
      e.1.length = length ∧ e.2.2 ≤ target ∧ e.1 ∉ used ∧
      ∀ p, pattern = some p →
        e.1.length = p.length ∧ matchesPattern p e.1 = true) ∧
    (getBestQualityWords clueList maxLen length pattern used maxResults target).Sublist
      (answersByLength clueList maxLen length) ∧
    (1 ≤ maxResults →
      (getBestQualityWords clueList maxLen length pattern used maxResults target).length ≤
        maxResults) := by
  obtain ⟨t, he, hs⟩ := @gbqwAux_sublist used pattern target maxResults
    (answersByLength clueList maxLen length)
    (min 500 (answersByLength clueList maxLen length).length) []
  have hres : getBestQualityWords clueList maxLen length pattern used maxResults target =
      t := by
    unfold getBestQualityWords
    rw [he]
    simp
  refine ⟨?_, ?_, ?_⟩
  · intro e hmem
    have hlen : e.1.length = length := by
      refine mem_answersByLength (hs.subset ?_)
      rw [hres] at hmem
      exact hmem
    have hprops := gbqwAux_preserves
      (P := fun e => e.2.2 ≤ target ∧ e.1 ∉ used ∧
        ∀ p, pattern = some p → e.1.length = p.length ∧ matchesPattern p e.1 = true)
      (fun e hq hu hp => ⟨hq, hu, hp⟩)
      (answersByLength clueList maxLen length)
      (min 500 (answersByLength clueList maxLen length).length) []
      (by intro e h; cases h) e hmem
    exact ⟨hlen, hprops.1, hprops.2.1, hprops.2.2⟩
  · rw [hres]
    exact hs
  · intro hmr
    exact gbqwAux_length (answersByLength clueList maxLen length)
      (min 500 (answersByLength clueList maxLen length).length) []
      (by simpa using hmr)

/-- Witness for C7 at a concrete instance (a two-record corpus, pattern
"A..", `max_results = 1`). -/
theorem getBestQualityWords_spec_witness :
    (∀ e ∈ getBestQualityWords
        [("c1", ['A', 'B', 'C'], 1), ("c2", ['A', 'C', 'E'], 1)] 5 3
        (some ['A', '.', '.']) [] 1 1,
      e.1.length = 3 ∧ e.2.2 ≤ 1 ∧ e.1 ∉ ([] : List (List Char)) ∧
      ∀ p, (some ['A', '.', '.'] : Option (List Char)) = some p →
        e.1.length = p.length ∧ matchesPattern p e.1 = true) ∧
    (getBestQualityWords [("c1", ['A', 'B', 'C'], 1), ("c2", ['A', 'C', 'E'], 1)] 5 3
        (some ['A', '.', '.']) [] 1 1).Sublist
      (answersByLength [("c1", ['A', 'B', 'C'], 1), ("c2", ['A', 'C', 'E'], 1)] 5 3) ∧
    (getBestQualityWords [("c1", ['A', 'B', 'C'], 1), ("c2", ['A', 'C', 'E'], 1)] 5 3
        (some ['A', '.', '.']) [] 1 1).length ≤ 1 := by
  have h := getBestQualityWords_spec
    [("c1", ['A', 'B', 'C'], 1), ("c2", ['A', 'C', 'E'], 1)] 5 3
    (some ['A', '.', '.']) [] 1 1
  exact ⟨h.1, h.2.1, h.2.2 (by decide)⟩

/- ## Placement validation (`is_valid_placement`,
`_get_new_sequences_from_placement`) -/

/-- Upward boundary scan of `_get_new_sequences_from_placement`
(`while start_row > 0 and grid[start_row - 1][col] != "."`), over an
abstract line reader: returns the start of the run through position `p`. -/
def scanUp (read : Nat → Char) : Nat → Nat
  | 0 => 0
  | p + 1 => if read p ≠ '.' then scanUp read p else p + 1

/-- Downward boundary scan
(`while end_row < limit - 1 and grid[end_row + 1][col] != "."`); the
explicit counter `k = (limit - 1) - p` makes the recursion structural. -/
def scanDownAux (read : Nat → Char) : Nat → Nat → Nat
  | p, 0 => p
  | p, k + 1 => if read (p + 1) ≠ '.' then scanDownAux read (p + 1) k else p

/-- End of the run through position `p` along a line of length `limit`. -/
def scanDown (read : Nat → Char) (limit p : Nat) : Nat :=
  scanDownAux read p (limit - 1 - p)

/-- Sequence text built by `_get_new_sequences_from_placement`: the
characters from `start` to `stop` inclusive, with the letter being placed
substituted at position `pos`. -/
def buildSeq (read : Nat → Char) (start stop pos : Nat) (ch : Char) : List Char :=
  (List.range' start (stop + 1 - start)).map (fun t => if t = pos then ch else read t)

/-- The `is_existing_word` filter of `_get_new_sequences_from_placement`. -/
def isExistingWord (words : List Word) (d : Direction) (r c : Nat) (s : List Char) : Bool :=
  words.any (fun wd => decide (wd.direction = d ∧ wd.row = r ∧ wd.col = c ∧ wd.text = s))

/-- Per-letter loop of `_get_new_sequences_from_placement` for an ACROSS
placement at row `r`: the letter in column `j` is checked for the vertical
run it would create there. -/
def newSeqsAcross (g : Grid) (r : Nat) :
    List Char → Nat → List (List Char × Nat × Nat × Direction)
  | [], _ => []
  | ch :: rest, j =>
      let read := fun t => cellD g t j
      let s := scanUp read r
      let e := scanDown read g.height r
      let tail := newSeqsAcross g r rest (j + 1)
      if 2 ≤ e - s + 1 then
        let seq := buildSeq read s e r ch
        if isExistingWord g.words .down s j seq then tail
        else (seq, s, j, .down) :: tail
      else tail

/-- Per-letter loop of `_get_new_sequences_from_placement` for a DOWN
placement at column `c`: the letter in row `i` is checked for the
horizontal run it would create there. -/
def newSeqsDown (g : Grid) (c : Nat) :
    List Char → Nat → List (List Char × Nat × Nat × Direction)
  | [], _ => []
  | ch :: rest, i =>
      let read := fun t => cellD g i t
      let s := scanUp read c
      let e := scanDown read g.width c
      let tail := newSeqsDown g c rest (i + 1)
      if 2 ≤ e - s + 1 then
        let seq := buildSeq read s e c ch
        if isExistingWord g.words .across i s seq then tail
        else (seq, i, s, .across) :: tail
      else tail

/-- Embeds `CrosswordGrid._get_new_sequences_from_placement`. -/
def getNewSequencesFromPlacement (g : Grid) (w : List Char) (r c : Nat)
    (dir : Direction) : List (List Char × Nat × Nat × Direction) :=
  match dir with
  | .across => newSeqsAcross g r w c
  | .down => newSeqsDown g c w r

/-- Letter-compatibility loop of `is_valid_placement` for ACROSS: every
covered cell is empty or already holds the letter being placed. -/
def conflictFreeAcross (g : Grid) (r : Nat) : List Char → Nat → Bool
  | [], _ => true
  | ch :: rest, c =>
      (decide (cellD g r c = '.') || decide (cellD g r c = ch)) &&
        conflictFreeAcross g r rest (c + 1)

/-- Letter-compatibility loop of `is_valid_placement` for DOWN. -/
def conflictFreeDown (g : Grid) (c : Nat) : List Char → Nat → Bool
  | [], _ => true
  | ch :: rest, r =>
      (decide (cellD g r c = '.') || decide (cellD g r c = ch)) &&
        conflictFreeDown g c rest (r + 1)

/-- Geometric phase of `is_valid_placement` for ACROSS (rules 1-3): bounds,
letter compatibility, and end adjacency. -/
def geometricOkAcross (g : Grid) (w : List Char) (r c : Nat) : Bool :=
  decide (c + w.length ≤ g.width) &&
  conflictFreeAcross g r w c &&
  (decide (c = 0) || decide (cellD g r (c - 1) = '.')) &&
  (decide (¬ c + w.length < g.width) || decide (cellD g r (c + w.length) = '.'))

/-- Geometric phase of `is_valid_placement` for DOWN (rules 1-3). -/
def geometricOkDown (g : Grid) (w : List Char) (r c : Nat) : Bool :=
  decide (r + w.length ≤ g.height) &&
  conflictFreeDown g c w r &&
  (decide (r = 0) || decide (cellD g (r - 1) c = '.')) &&
  (decide (¬ r + w.length < g.height) || decide (cellD g (r + w.length) c = '.'))

/-- Corpus-consistency test of one candidate sequence inside
`is_valid_placement` (rule 4): length < 3, or an already placed word, or a
member of the available answers. -/
def seqOk (words : List Word) (ans : List (List Char))
    (t : List Char × Nat × Nat × Direction) : Bool :=
  if 3 ≤ t.1.length then
    isPlacedTuple words t.1 t.2.1 t.2.2.1 t.2.2.2 || decide (t.1 ∈ ans)
  else true

/-- Embeds `CrosswordGrid.is_valid_placement`: geometric rules 1-3, then —
only when an answer set is supplied — the optimized corpus-consistency
check over the sequences the placement would create. -/
def isValidPlacement (g : Grid) (w : List Char) (r c : Nat) (dir : Direction)
    (ans : Option (List (List Char))) : Bool :=
  let geo := match dir with
    | .across => geometricOkAcross g w r c
    | .down => geometricOkDown g w r c
  if geo then
    match ans with
    | none => true
    | some a => (getNewSequencesFromPlacement g w r c dir).all (seqOk g.words a)
  else false

/- ## Placement symmetry under transposition (C6) -/

/-- Direction flip used by the transposed problem. -/
def flipDir : Direction → Direction
  | .across => .down
  | .down => .across

/-- Mirror of a placed word under transposition: row/col swapped, direction
flipped. -/
def transposeWord (wd : Word) : Word :=
  ⟨wd.text, wd.col, wd.row, flipDir wd.direction, wd.clue, wd.quality⟩

/-- The transposed grid of claim C6: width and height swapped, cell
`(i, j)` holding cell `(j, i)` of the original, each word mirrored. -/
def transposeGrid (g : Grid) : Grid :=
  ⟨g.height, g.width,
   (List.range g.width).map (fun i => (List.range g.height).map (fun j => cellD g j i)),
   g.words.map transposeWord⟩

theorem cellD_oob (g : Grid) (hwf : WellFormed g) {r c : Nat}
    (h : g.height ≤ r ∨ g.width ≤ c) : cellD g r c = '.' := by
  obtain ⟨hlen, hrow⟩ := hwf
  unfold cellD cell? mcell?
  rcases h with h | h
  · rw [List.get?_eq_none.mpr (by omega)]
    rfl
  · cases hget : g.cells.get? r with
    | none => rfl
    | some row =>
      have hmem : row ∈ g.cells := List.get?_mem hget
      rw [Option.some_bind, List.get?_eq_none.mpr (by rw [hrow row hmem]; omega)]
      rfl

theorem cellD_transposeGrid (g : Grid) (hwf : WellFormed g) (i j : Nat) :
    cellD (transposeGrid g) i j = cellD g j i := by
  by_cases hi : i < g.width
  · by_cases hj : j < g.height
    · show ((((List.range g.width).map
        (fun i => (List.range g.height).map (fun j => cellD g j i))).get? i).bind
          (fun row => row.get? j)).getD '.' = _
      rw [List.get?_map, List.get?_range hi, Option.map_some', Option.some_bind,
        List.get?_map, List.get?_range hj, Option.map_some']
      rfl
    · have h1 : cellD (transposeGrid g) i j = '.' := by
        apply cellD_oob (transposeGrid g) ?_ (Or.inr (by simpa [transposeGrid] using by omega))
        refine ⟨by simp [transposeGrid], ?_⟩
        intro row hrow
        simp only [transposeGrid, List.mem_map] at hrow
        obtain ⟨a, _, rfl⟩ := hrow
        simp [transposeGrid]
      rw [h1, cellD_oob g hwf (Or.inl (by omega))]
  · have h1 : cellD (transposeGrid g) i j = '.' := by
      unfold cellD cell? mcell? transposeGrid
      rw [List.get?_eq_none.mpr (by simp; omega)]
      rfl
    rw [h1, cellD_oob g hwf (Or.inr (by omega))]

theorem conflictFree_transpose (g : Grid) (hwf : WellFormed g) (r : Nat)
    (w : List Char) : ∀ c, conflictFreeDown (transposeGrid g) r w c =
      conflictFreeAcross g r w c := by
  induction w with
  | nil => intro c; rfl
  | cons ch rest ih =>
    intro c
    have h1 : conflictFreeDown (transposeGrid g) r (ch :: rest) c =
        ((decide (cellD (transposeGrid g) c r = '.') ||
          decide (cellD (transposeGrid g) c r = ch)) &&
          conflictFreeDown (transposeGrid g) r rest (c + 1)) := rfl
    have h2 : conflictFreeAcross g r (ch :: rest) c =
        ((decide (cellD g r c = '.') || decide (cellD g r c = ch)) &&
          conflictFreeAcross g r rest (c + 1)) := rfl
    rw [h1, h2, cellD_transposeGrid g hwf c r, ih]

theorem isExistingWord_transpose (words : List Word) (d : Direction) (r c : Nat)
    (s : List Char) :
    isExistingWord (words.map transposeWord) (flipDir d) r c s =
      isExistingWord words d c r s := by
  unfold isExistingWord
  rw [List.any_map]
  congr 1
  funext wd
  obtain ⟨t2, r2, c2, d2, cl2, q2⟩ := wd
  show decide (flipDir d2 = flipDir d ∧ c2 = r ∧ r2 = c ∧ t2 = s) =
    decide (d2 = d ∧ r2 = c ∧ c2 = r ∧ t2 = s)
  rw [decide_eq_decide]
  cases d2 <;> cases d <;> simp [flipDir] <;> tauto

theorem isPlacedTuple_transpose (words : List Word) (s : List Char) (r c : Nat)
    (d : Direction) :
    isPlacedTuple (words.map transposeWord) s r c (flipDir d) =
      isPlacedTuple words s c r d := by
  unfold isPlacedTuple
  rw [List.any_map]
  congr 1
  funext wd
  obtain ⟨t2, r2, c2, d2, cl2, q2⟩ := wd
  show decide (t2 = s ∧ c2 = r ∧ r2 = c ∧ flipDir d2 = flipDir d) =
    decide (t2 = s ∧ r2 = c ∧ c2 = r ∧ d2 = d)
  rw [decide_eq_decide]
  cases d2 <;> cases d <;> simp [flipDir] <;> tauto

/-- Coordinate swap on a candidate-sequence tuple. -/
def swapTuple (t : List Char × Nat × Nat × Direction) :
    List Char × Nat × Nat × Direction :=
  (t.1, t.2.2.1, t.2.1, flipDir t.2.2.2)

theorem newSeqs_transpose (g : Grid) (hwf : WellFormed g) (r : Nat)
    (w : List Char) : ∀ c, newSeqsDown (transposeGrid g) r w c =
      (newSeqsAcross g r w c).map swapTuple := by
  induction w with
  | nil => intro c; rfl
  | cons ch rest ih =>
    intro c
    have hread : (fun t => cellD (transposeGrid g) c t) = (fun t => cellD g t c) :=
      funext fun t => cellD_transposeGrid g hwf c t
    have hstepL : newSeqsDown (transposeGrid g) r (ch :: rest) c =
        (if 2 ≤ scanDown (fun t => cellD (transposeGrid g) c t) g.height r -
              scanUp (fun t => cellD (transposeGrid g) c t) r + 1 then
          (if isExistingWord (g.words.map transposeWord) .across c
              (scanUp (fun t => cellD (transposeGrid g) c t) r)
              (buildSeq (fun t => cellD (transposeGrid g) c t)
                (scanUp (fun t => cellD (transposeGrid g) c t) r)
                (scanDown (fun t => cellD (transposeGrid g) c t) g.height r) r ch)
           then newSeqsDown (transposeGrid g) r rest (c + 1)
           else ((buildSeq (fun t => cellD (transposeGrid g) c t)
                (scanUp (fun t => cellD (transposeGrid g) c t) r)
                (scanDown (fun t => cellD (transposeGrid g) c t) g.height r) r ch), c,
              (scanUp (fun t => cellD (transposeGrid g) c t) r), .across) ::
              newSeqsDown (transposeGrid g) r rest (c + 1))
         else newSeqsDown (transposeGrid g) r rest (c + 1)) := rfl
    have hstepR : newSeqsAcross g r (ch :: rest) c =
        (if 2 ≤ scanDown (fun t => cellD g t c) g.height r -
              scanUp (fun t => cellD g t c) r + 1 then
          (if isExistingWord g.words .down
              (scanUp (fun t => cellD g t c) r) c
              (buildSeq (fun t => cellD g t c)
                (scanUp (fun t => cellD g t c) r)
                (scanDown (fun t => cellD g t c) g.height r) r ch)
           then newSeqsAcross g r rest (c + 1)
           else ((buildSeq (fun t => cellD g t c)
                (scanUp (fun t => cellD g t c) r)
                (scanDown (fun t => cellD g t c) g.height r) r ch),
              (scanUp (fun t => cellD g t c) r), c, .down) ::
              newSeqsAcross g r rest (c + 1))
         else newSeqsAcross g r rest (c + 1)) := rfl
    rw [hstepL, hstepR, hread, ih]
    set rd := fun t => cellD g t c with hrd
    set s := scanUp rd r with hsdef
    set e := scanDown rd g.height r with hedef
    set seq := buildSeq rd s e r ch with hseqdef
    have hex : isExistingWord (g.words.map transposeWord) .across c s seq =
        isExistingWord g.words .down s c seq := by
      have h := isExistingWord_transpose g.words .down c s seq
      simpa [flipDir] using h
    rw [hex]
    by_cases hlen : 2 ≤ e - s + 1
    · rw [if_pos hlen, if_pos hlen]
      by_cases hw2 : isExistingWord g.words .down s c seq = true
      · rw [if_pos hw2, if_pos hw2]
      · rw [if_neg hw2, if_neg hw2, List.map_cons]
        rfl
    · rw [if_neg hlen, if_neg hlen]

theorem seqOk_swapTuple (words : List Word) (a : List (List Char))
    (t : List Char × Nat × Nat × Direction) :
    seqOk (words.map transposeWord) a (swapTuple t) = seqOk words a t := by
  obtain ⟨s, x, y, d⟩ := t
  show (if 3 ≤ s.length then
      isPlacedTuple (words.map transposeWord) s y x (flipDir d) || decide (s ∈ a)
    else true) =
    (if 3 ≤ s.length then isPlacedTuple words s x y d || decide (s ∈ a) else true)
  by_cases hlen : 3 ≤ s.length
  · rw [if_pos hlen, if_pos hlen, isPlacedTuple_transpose]
  · rw [if_neg hlen, if_neg hlen]

/-- C6: validating `W` ACROSS at `(r, c)` on a well-formed grid `G` gives
the same decision as validating `W` DOWN at `(c, r)` on the transposed grid
(dimensions swapped, cell `(i, j)` mapped to `(j, i)`, each placed word's
row and column swapped and its direction flipped), for any answer set. -/
theorem isValidPlacement_transpose (g : Grid) (hwf : WellFormed g)
    (w : List Char) (r c : Nat) (ans : Option (List (List Char))) :
    isValidPlacement g w r c .across ans =
      isValidPlacement (transposeGrid g) w c r .down ans := by
  unfold isValidPlacement
  have hgeo : geometricOkDown (transposeGrid g) w c r = geometricOkAcross g w r c := by
    unfold geometricOkAcross geometricOkDown
    have h1 : (transposeGrid g).height = g.width := rfl
    rw [h1, conflictFree_transpose g hwf, cellD_transposeGrid g hwf,
      cellD_transposeGrid g hwf]
  rw [hgeo]
  by_cases hg : geometricOkAcross g w r c = true
  · rw [if_pos hg, if_pos hg]
    cases ans with
    | none => rfl
    | some a =>
      show (newSeqsAcross g r w c).all (seqOk g.words a) =
        (newSeqsDown (transposeGrid g) r w c).all (seqOk (g.words.map transposeWord) a)
      rw [newSeqs_transpose g hwf, List.all_map]
      congr 1
      funext t
      exact (seqOk_swapTuple g.words a t).symm
  · rw [if_neg hg, if_neg hg]

/-- Witness for C6: "AB" ACROSS at (0, 1) on a concrete 3 × 2 grid against
DOWN at (1, 0) on its transpose. -/
theorem isValidPlacement_transpose_witness :
    isValidPlacement ⟨3, 2, [['.', '.', 'A'], ['.', '.', '.']], []⟩ ['A', 'B'] 0 1
      .across (some [['A', 'B']]) =
    isValidPlacement
      (transposeGrid ⟨3, 2, [['.', '.', 'A'], ['.', '.', '.']], []⟩) ['A', 'B'] 1 0
      .down (some [['A', 'B']]) :=
  isValidPlacement_transpose ⟨3, 2, [['.', '.', 'A'], ['.', '.', '.']], []⟩
    (by decide) ['A', 'B'] 0 1 (some [['A', 'B']])

/- ## Bounds safety of the validator (C9): an `Option`-indexed variant in
which every grid read goes through `cell?` and any out-of-bounds access
makes the whole computation `none`. -/

/-- Checked letter-compatibility loop for ACROSS: reads
`self.grid[row][col + i]` through `cell?`, with the source's early `return
False` on a conflict. -/
def conflictFreeAcrossM (g : Grid) (r : Nat) : List Char → Nat → Option Bool
  | [], _ => some true
  | ch :: rest, c =>
      (cell? g r c).bind (fun gc =>
        if gc ≠ '.' ∧ gc ≠ ch then some false
        else conflictFreeAcrossM g r rest (c + 1))

/-- Checked letter-compatibility loop for DOWN. -/
def conflictFreeDownM (g : Grid) (c : Nat) : List Char → Nat → Option Bool
  | [], _ => some true
  | ch :: rest, r =>
      (cell? g r c).bind (fun gc =>
        if gc ≠ '.' ∧ gc ≠ ch then some false
        else conflictFreeDownM g c rest (r + 1))

/-- Checked upward boundary scan. -/
def scanUpM (read : Nat → Option Char) : Nat → Option Nat
  | 0 => some 0
  | p + 1 => (read p).bind (fun ch => if ch ≠ '.' then scanUpM read p else some (p + 1))

/-- Checked downward boundary scan. -/
def scanDownAuxM (read : Nat → Option Char) : Nat → Nat → Option Nat
  | p, 0 => some p
  | p, k + 1 => (read (p + 1)).bind (fun ch =>
      if ch ≠ '.' then scanDownAuxM read (p + 1) k else some p)

/-- Checked end-of-run scan along a line of length `limit`. -/
def scanDownM (read : Nat → Option Char) (limit p : Nat) : Option Nat :=
  scanDownAuxM read p (limit - 1 - p)

/-- Checked sequence-text build over an explicit list of positions. -/
def seqListM (read : Nat → Option Char) (pos : Nat) (ch : Char) :
    List Nat → Option (List Char)
  | [] => some []
  | t :: rest => (if t = pos then some ch else read t).bind (fun c0 =>
      (seqListM read pos ch rest).map (fun cs => c0 :: cs))

/-- Checked sequence-text build from `start` to `stop` inclusive. -/
def buildSeqM (read : Nat → Option Char) (start stop pos : Nat) (ch : Char) :
    Option (List Char) :=
  seqListM read pos ch (List.range' start (stop + 1 - start))

/-- Checked `_get_new_sequences_from_placement`, ACROSS case. -/
def newSeqsAcrossM (g : Grid) (r : Nat) :
    List Char → Nat → Option (List (List Char × Nat × Nat × Direction))
  | [], _ => some []
  | ch :: rest, j =>
      (scanUpM (fun t => cell? g t j) r).bind (fun s =>
      (scanDownM (fun t => cell? g t j) g.height r).bind (fun e =>
      (newSeqsAcrossM g r rest (j + 1)).bind (fun tail =>
      if 2 ≤ e - s + 1 then
        (buildSeqM (fun t => cell? g t j) s e r ch).map (fun seq =>
          if isExistingWord g.words .down s j seq then tail
          else (seq, s, j, .down) :: tail)
      else some tail)))

/-- Checked `_get_new_sequences_from_placement`, DOWN case. -/
def newSeqsDownM (g : Grid) (c : Nat) :
    List Char → Nat → Option (List (List Char × Nat × Nat × Direction))
  | [], _ => some []
  | ch :: rest, i =>
      (scanUpM (fun t => cell? g i t) c).bind (fun s =>
      (scanDownM (fun t => cell? g i t) g.width c).bind (fun e =>
      (newSeqsDownM g c rest (i + 1)).bind (fun tail =>
      if 2 ≤ e - s + 1 then
        (buildSeqM (fun t => cell? g i t) s e c ch).map (fun seq =>
          if isExistingWord g.words .across i s seq then tail
          else (seq, i, s, .across) :: tail)
      else some tail)))

/-- Checked `is_valid_placement`: performs exactly the reads the source
performs, in order, and aborts with `none` on any out-of-bounds read. -/
def isValidPlacementChecked (g : Grid) (w : List Char) (r c : Nat)
    (dir : Direction) (ans : Option (List (List Char))) : Option Bool :=
  match dir with
  | .across =>
    if g.width < c + w.length then some false
    else
      (conflictFreeAcrossM g r w c).bind (fun ok =>
        if ok then
          ((if 0 < c then (cell? g r (c - 1)).map (fun ch => decide (ch ≠ '.'))
            else some false).bind (fun bad1 =>
            if bad1 then some false
            else ((if c + w.length < g.width then
                (cell? g r (c + w.length)).map (fun ch => decide (ch ≠ '.'))
              else some false).bind (fun bad2 =>
              if bad2 then some false
              else match ans with
                | none => some true
                | some a => (newSeqsAcrossM g r w c).map
                    (fun seqs => seqs.all (seqOk g.words a))))))
        else some false)
  | .down =>
    if g.height < r + w.length then some false
    else
      (conflictFreeDownM g c w r).bind (fun ok =>
        if ok then
          ((if 0 < r then (cell? g (r - 1) c).map (fun ch => decide (ch ≠ '.'))
            else some false).bind (fun bad1 =>
            if bad1 then some false
            else ((if r + w.length < g.height then
                (cell? g (r + w.length) c).map (fun ch => decide (ch ≠ '.'))
              else some false).bind (fun bad2 =>
              if bad2 then some false
              else match ans with
                | none => some true
                | some a => (newSeqsDownM g c w r).map
                    (fun seqs => seqs.all (seqOk g.words a))))))
        else some false)

theorem scanUp_le (read : Nat → Char) : ∀ p, scanUp read p ≤ p := by
  intro p
  induction p with
  | zero => exact Nat.le_refl 0
  | succ p ih =>
    show (if read p ≠ '.' then scanUp read p else p + 1) ≤ p + 1
    by_cases h : read p ≠ '.'
    · rw [if_pos h]; omega
    · rw [if_neg h]

theorem scanDownAux_bounds (read : Nat → Char) :
    ∀ k p, p ≤ scanDownAux read p k ∧ scanDownAux read p k ≤ p + k := by
  intro k
  induction k with
  | zero =>
    intro p
    have h0 : scanDownAux read p 0 = p := rfl
    rw [h0]
    omega
  | succ k ih =>
    intro p
    show p ≤ (if read (p + 1) ≠ '.' then scanDownAux read (p + 1) k else p) ∧
      (if read (p + 1) ≠ '.' then scanDownAux read (p + 1) k else p) ≤ p + (k + 1)
    by_cases h : read (p + 1) ≠ '.'
    · rw [if_pos h]
      obtain ⟨h1, h2⟩ := ih (p + 1)
      omega
    · rw [if_neg h]
      omega

theorem scanUpM_eq (readM : Nat → Option Char) (readT : Nat → Char) (limit : Nat)
    (h : ∀ t, t < limit → readM t = some (readT t)) :
    ∀ p, p ≤ limit → scanUpM readM p = some (scanUp readT p) := by
  intro p
  induction p with
  | zero => intro _; rfl
  | succ p ih =>
    intro hp
    show (readM p).bind (fun ch => if ch ≠ '.' then scanUpM readM p else some (p + 1)) =
      some (if readT p ≠ '.' then scanUp readT p else p + 1)
    rw [h p (by omega), Option.some_bind]
    by_cases hch : readT p ≠ '.'
    · rw [if_pos hch, if_pos hch, ih (by omega)]
    · rw [if_neg hch, if_neg hch]

theorem scanDownAuxM_eq (readM : Nat → Option Char) (readT : Nat → Char)
    (limit : Nat) (h : ∀ t, t < limit → readM t = some (readT t)) :
    ∀ k p, p + k < limit →
      scanDownAuxM readM p k = some (scanDownAux readT p k) := by
  intro k
  induction k with
  | zero => intro p _; rfl
  | succ k ih =>
    intro p hp
    show (readM (p + 1)).bind
        (fun ch => if ch ≠ '.' then scanDownAuxM readM (p + 1) k else some p) =
      some (if readT (p + 1) ≠ '.' then scanDownAux readT (p + 1) k else p)
    rw [h (p + 1) (by omega), Option.some_bind]
    by_cases hch : readT (p + 1) ≠ '.'
    · rw [if_pos hch, if_pos hch, ih (p + 1) (by omega)]
    · rw [if_neg hch, if_neg hch]

theorem scanDownM_eq (readM : Nat → Option Char) (readT : Nat → Char)
    (limit : Nat) (h : ∀ t, t < limit → readM t = some (readT t))
    (p : Nat) (hp : p < limit) :
    scanDownM readM limit p = some (scanDown readT limit p) := by
  unfold scanDownM scanDown
  exact scanDownAuxM_eq readM readT limit h (limit - 1 - p) p (by omega)

theorem seqListM_eq (readM : Nat → Option Char) (readT : Nat → Char)
    (limit pos : Nat) (ch : Char) (h : ∀ t, t < limit → readM t = some (readT t)) :
    ∀ ts : List Nat, (∀ t ∈ ts, t = pos ∨ t < limit) →
      seqListM readM pos ch ts =
        some (ts.map (fun t => if t = pos then ch else readT t)) := by
  intro ts
  induction ts with
  | nil => intro _; rfl
  | cons t rest ih =>
    intro hts
    show (if t = pos then some ch else readM t).bind (fun c0 =>
        (seqListM readM pos ch rest).map (fun cs => c0 :: cs)) = _
    rw [ih (fun t ht => hts t (List.mem_cons_of_mem _ ht))]
    by_cases hpos : t = pos
    · rw [if_pos hpos]
      simp [hpos]
    · rcases hts t (List.mem_cons_self _ _) with h' | h'
      · exact absurd h' hpos
      · rw [if_neg hpos, h t h']
        simp [hpos]

theorem buildSeqM_eq (readM : Nat → Option Char) (readT : Nat → Char)
    (limit : Nat) (h : ∀ t, t < limit → readM t = some (readT t))
    (start stop pos : Nat) (ch : Char) (hstop : stop < limit) :
    buildSeqM readM start stop pos ch = some (buildSeq readT start stop pos ch) := by
  unfold buildSeqM buildSeq
  apply seqListM_eq readM readT limit pos ch h
  intro t ht
  right
  have := List.mem_range'.mp ht
  omega

theorem newSeqsAcrossM_eq (g : Grid) (hwf : WellFormed g) (r : Nat)
    (hr : r < g.height) (w : List Char) :
    ∀ c, c + w.length ≤ g.width →
      newSeqsAcrossM g r w c = some (newSeqsAcross g r w c) := by
  induction w with
  | nil => intro c _; rfl
  | cons ch rest ih =>
    intro c hc
    have hcw : c < g.width := by
      simp only [List.length_cons] at hc
      omega
    have hread : ∀ t, t < g.height → cell? g t c = some (cellD g t c) :=
      fun t ht => cell?_eq_some_cellD g hwf ht hcw
    have hse : scanUpM (fun t => cell? g t c) r =
        some (scanUp (fun t => cellD g t c) r) :=
      scanUpM_eq _ _ g.height hread r (by omega)
    have hee : scanDownM (fun t => cell? g t c) g.height r =
        some (scanDown (fun t => cellD g t c) g.height r) :=
      scanDownM_eq _ _ g.height hread r hr
    have htail : newSeqsAcrossM g r rest (c + 1) = some (newSeqsAcross g r rest (c + 1)) := by
      apply ih
      simp only [List.length_cons] at hc
      omega
    show (scanUpM (fun t => cell? g t c) r).bind (fun s =>
      (scanDownM (fun t => cell? g t c) g.height r).bind (fun e =>
      (newSeqsAcrossM g r rest (c + 1)).bind (fun tail =>
      if 2 ≤ e - s + 1 then
        (buildSeqM (fun t => cell? g t c) s e r ch).map (fun seq =>
          if isExistingWord g.words .down s c seq then tail
          else (seq, s, c, .down) :: tail)
      else some tail))) = _
    rw [hse, hee, htail, Option.some_bind, Option.some_bind, Option.some_bind]
    set s := scanUp (fun t => cellD g t c) r with hs
    set e := scanDown (fun t => cellD g t c) g.height r with he
    have hestop : e < g.height := by
      rw [he]
      unfold scanDown
      have := scanDownAux_bounds (fun t => cellD g t c) (g.height - 1 - r) r
      omega
    have hbuild : buildSeqM (fun t => cell? g t c) s e r ch =
        some (buildSeq (fun t => cellD g t c) s e r ch) :=
      buildSeqM_eq _ _ g.height hread s e r ch hestop
    by_cases hlen : 2 ≤ e - s + 1
    · rw [if_pos hlen, hbuild, Option.map_some']
      show _ = some (newSeqsAcross g r (ch :: rest) c)
      have hstep : newSeqsAcross g r (ch :: rest) c =
          (if 2 ≤ e - s + 1 then
            (if isExistingWord g.words .down s c (buildSeq (fun t => cellD g t c) s e r ch)
             then newSeqsAcross g r rest (c + 1)
             else (buildSeq (fun t => cellD g t c) s e r ch, s, c, .down) ::
               newSeqsAcross g r rest (c + 1))
           else newSeqsAcross g r rest (c + 1)) := rfl
      rw [hstep, if_pos hlen]
    · rw [if_neg hlen]
      show _ = some (newSeqsAcross g r (ch :: rest) c)
      have hstep : newSeqsAcross g r (ch :: rest) c =
          (if 2 ≤ e - s + 1 then
            (if isExistingWord g.words .down s c (buildSeq (fun t => cellD g t c) s e r ch)
             then newSeqsAcross g r rest (c + 1)
             else (buildSeq (fun t => cellD g t c) s e r ch, s, c, .down) ::
               newSeqsAcross g r rest (c + 1))
           else newSeqsAcross g r rest (c + 1)) := rfl
      rw [hstep, if_neg hlen]

theorem newSeqsDownM_eq (g : Grid) (hwf : WellFormed g) (c : Nat)
    (hc : c < g.width) (w : List Char) :
    ∀ r, r + w.length ≤ g.height →
      newSeqsDownM g c w r = some (newSeqsDown g c w r) := by
  induction w with
  | nil => intro r _; rfl
  | cons ch rest ih =>
    intro r hr
    have hrh : r < g.height := by
      simp only [List.length_cons] at hr
      omega
    have hread : ∀ t, t < g.width → cell? g r t = some (cellD g r t) :=
      fun t ht => cell?_eq_some_cellD g hwf hrh ht
    have hse : scanUpM (fun t => cell? g r t) c =
        some (scanUp (fun t => cellD g r t) c) :=
      scanUpM_eq _ _ g.width hread c (by omega)
    have hee : scanDownM (fun t => cell? g r t) g.width c =
        some (scanDown (fun t => cellD g r t) g.width c) :=
      scanDownM_eq _ _ g.width hread c hc
    have htail : newSeqsDownM g c rest (r + 1) = some (newSeqsDown g c rest (r + 1)) := by
      apply ih
      simp only [List.length_cons] at hr
      omega
    show (scanUpM (fun t => cell? g r t) c).bind (fun s =>
      (scanDownM (fun t => cell? g r t) g.width c).bind (fun e =>
      (newSeqsDownM g c rest (r + 1)).bind (fun tail =>
      if 2 ≤ e - s + 1 then
        (buildSeqM (fun t => cell? g r t) s e c ch).map (fun seq =>
          if isExistingWord g.words .across r s seq then tail
          else (seq, r, s, .across) :: tail)
      else some tail))) = _
    rw [hse, hee, htail, Option.some_bind, Option.some_bind, Option.some_bind]
    set s := scanUp (fun t => cellD g r t) c with hs
    set e := scanDown (fun t => cellD g r t) g.width c with he
    have hestop : e < g.width := by
      rw [he]
      unfold scanDown
      have := scanDownAux_bounds (fun t => cellD g r t) (g.width - 1 - c) c
      omega
    have hbuild : buildSeqM (fun t => cell? g r t) s e c ch =
        some (buildSeq (fun t => cellD g r t) s e c ch) :=
      buildSeqM_eq _ _ g.width hread s e c ch hestop
    by_cases hlen : 2 ≤ e - s + 1
    · rw [if_pos hlen, hbuild, Option.map_some']
      show _ = some (newSeqsDown g c (ch :: rest) r)
      have hstep : newSeqsDown g c (ch :: rest) r =
          (if 2 ≤ e - s + 1 then
            (if isExistingWord g.words .across r s (buildSeq (fun t => cellD g r t) s e c ch)
             then newSeqsDown g c rest (r + 1)
             else (buildSeq (fun t => cellD g r t) s e c ch, r, s, .across) ::
               newSeqsDown g c rest (r + 1))
           else newSeqsDown g c rest (r + 1)) := rfl
      rw [hstep, if_pos hlen]
    · rw [if_neg hlen]
      show _ = some (newSeqsDown g c (ch :: rest) r)
      have hstep : newSeqsDown g c (ch :: rest) r =
          (if 2 ≤ e - s + 1 then
            (if isExistingWord g.words .across r s (buildSeq (fun t => cellD g r t) s e c ch)
             then newSeqsDown g c rest (r + 1)
             else (buildSeq (fun t => cellD g r t) s e c ch, r, s, .across) ::
               newSeqsDown g c rest (r + 1))
           else newSeqsDown g c rest (r + 1)) := rfl
      rw [hstep, if_neg hlen]

theorem conflictFreeAcrossM_eq (g : Grid) (hwf : WellFormed g) (r : Nat)
    (hr : r < g.height) (w : List Char) :
    ∀ c, c + w.length ≤ g.width →
      conflictFreeAcrossM g r w c = some (conflictFreeAcross g r w c) := by
  induction w with
  | nil => intro c _; rfl
  | cons ch rest ih =>
    intro c hc
    have hcw : c < g.width := by
      simp only [List.length_cons] at hc
      omega
    show (cell? g r c).bind (fun gc =>
        if gc ≠ '.' ∧ gc ≠ ch then some false
        else conflictFreeAcrossM g r rest (c + 1)) =
      some ((decide (cellD g r c = '.') || decide (cellD g r c = ch)) &&
        conflictFreeAcross g r rest (c + 1))
    rw [cell?_eq_some_cellD g hwf hr hcw, Option.some_bind]
    by_cases hconf : cellD g r c ≠ '.' ∧ cellD g r c ≠ ch
    · rw [if_pos hconf]
      rw [decide_eq_false hconf.1, decide_eq_false hconf.2]
      rfl
    · rw [if_neg hconf]
      have hor : (decide (cellD g r c = '.') || decide (cellD g r c = ch)) = true := by
        rcases not_and_or.mp hconf with h | h
        · rw [decide_eq_true (not_not.mp h)]
          rfl
        · rw [decide_eq_true (not_not.mp h)]
          simp
      rw [hor, Bool.true_and]
      apply ih
      simp only [List.length_cons] at hc
      omega

theorem conflictFreeDownM_eq (g : Grid) (hwf : WellFormed g) (c : Nat)
    (hc : c < g.width) (w : List Char) :
    ∀ r, r + w.length ≤ g.height →
      conflictFreeDownM g c w r = some (conflictFreeDown g c w r) := by
  induction w with
  | nil => intro r _; rfl
  | cons ch rest ih =>
    intro r hr
    have hrh : r < g.height := by
      simp only [List.length_cons] at hr
      omega
    show (cell? g r c).bind (fun gc =>
        if gc ≠ '.' ∧ gc ≠ ch then some false
        else conflictFreeDownM g c rest (r + 1)) =
      some ((decide (cellD g r c = '.') || decide (cellD g r c = ch)) &&
        conflictFreeDown g c rest (r + 1))
    rw [cell?_eq_some_cellD g hwf hrh hc, Option.some_bind]
    by_cases hconf : cellD g r c ≠ '.' ∧ cellD g r c ≠ ch
    · rw [if_pos hconf]
      rw [decide_eq_false hconf.1, decide_eq_false hconf.2]
      rfl
    · rw [if_neg hconf]
      have hor : (decide (cellD g r c = '.') || decide (cellD g r c = ch)) = true := by
        rcases not_and_or.mp hconf with h | h
        · rw [decide_eq_true (not_not.mp h)]
          rfl
        · rw [decide_eq_true (not_not.mp h)]
          simp
      rw [hor, Bool.true_and]
      apply ih
      simp only [List.length_cons] at hr
      omega

/-- C9: on a grid whose matrix has the declared `height × width` shape, for
every non-empty word and in-bounds origin, `is_valid_placement` — its
bounds, conflict and end-adjacency checks and the corpus-consistency check
through `_get_new_sequences_from_placement` — accesses only cells within
the matrix: the checked embedding, in which every read returns `Option` and
any out-of-bounds access aborts with `none`, returns `some` of the total
embedding's decision. -/
theorem isValidPlacementChecked_eq (g : Grid) (hwf : WellFormed g)
    (w : List Char) (hw : w ≠ []) (r c : Nat) (dir : Direction)
    (ans : Option (List (List Char))) (hr : r < g.height) (hc : c < g.width) :
    isValidPlacementChecked g w r c dir ans =
      some (isValidPlacement g w r c dir ans) := by
  have hwlen : 1 ≤ w.length := List.length_pos.mpr hw
  cases dir with
  | across =>
    show (if g.width < c + w.length then some false else _) = _
    by_cases hb : g.width < c + w.length
    · rw [if_pos hb]
      have hgeo : geometricOkAcross g w r c = false := by
        unfold geometricOkAcross
        rw [decide_eq_false (by omega)]
        rfl
      have hval : isValidPlacement g w r c .across ans = false := by
        simp [isValidPlacement, hgeo]
      rw [hval]
    · rw [if_neg hb]
      have hble : c + w.length ≤ g.width := by omega
      rw [conflictFreeAcrossM_eq g hwf r hr w c hble, Option.some_bind]
      by_cases hok : conflictFreeAcross g r w c = true
      · rw [if_pos hok]
        have hbad1v : (if 0 < c then (cell? g r (c - 1)).map (fun ch => decide (ch ≠ '.'))
            else some false) =
            some (if 0 < c then decide (cellD g r (c - 1) ≠ '.') else false) := by
          by_cases hcz : 0 < c
          · rw [if_pos hcz, if_pos hcz,
              cell?_eq_some_cellD g hwf hr (by omega), Option.map_some']
          · rw [if_neg hcz, if_neg hcz]
        rw [hbad1v, Option.some_bind]
        have hb1 : (decide (c = 0) || decide (cellD g r (c - 1) = '.')) =
            !(if 0 < c then decide (cellD g r (c - 1) ≠ '.') else false) := by
          by_cases hcz : 0 < c
          · rw [if_pos hcz, decide_eq_false (by omega), Bool.false_or]
            by_cases hdot : cellD g r (c - 1) = '.'
            · simp [hdot]
            · simp [hdot]
          · rw [if_neg hcz, decide_eq_true (by omega)]
            rfl
        by_cases hbad1 : (if 0 < c then decide (cellD g r (c - 1) ≠ '.') else false) = true
        · rw [if_pos hbad1]
          have hgeo : geometricOkAcross g w r c = false := by
            unfold geometricOkAcross
            rw [hb1, hbad1]
            simp
          have hval : isValidPlacement g w r c .across ans = false := by
            simp [isValidPlacement, hgeo]
          rw [hval]
        · rw [if_neg hbad1]
          have hbad2v : (if c + w.length < g.width then
              (cell? g r (c + w.length)).map (fun ch => decide (ch ≠ '.'))
              else some false) =
              some (if c + w.length < g.width then
                decide (cellD g r (c + w.length) ≠ '.') else false) := by
            by_cases hce : c + w.length < g.width
            · rw [if_pos hce, if_pos hce,
                cell?_eq_some_cellD g hwf hr (by omega), Option.map_some']
            · rw [if_neg hce, if_neg hce]
          rw [hbad2v, Option.some_bind]
          have hb2 : (decide (¬ c + w.length < g.width) ||
              decide (cellD g r (c + w.length) = '.')) =
              !(if c + w.length < g.width then
                decide (cellD g r (c + w.length) ≠ '.') else false) := by
            by_cases hce : c + w.length < g.width
            · rw [if_pos hce, decide_eq_false (by omega), Bool.false_or]
              by_cases hdot : cellD g r (c + w.length) = '.'
              · simp [hdot]
              · simp [hdot]
            · rw [if_neg hce, decide_eq_true (by omega)]
              rfl
          by_cases hbad2 : (if c + w.length < g.width then
              decide (cellD g r (c + w.length) ≠ '.') else false) = true
          · rw [if_pos hbad2]
            have hgeo : geometricOkAcross g w r c = false := by
              unfold geometricOkAcross
              rw [hb2, hbad2]
              simp
            have hval : isValidPlacement g w r c .across ans = false := by
              simp [isValidPlacement, hgeo]
            rw [hval]
          · rw [if_neg hbad2]
            have hgeo : geometricOkAcross g w r c = true := by
              unfold geometricOkAcross
              rw [hb1, hb2, Bool.not_eq_true] at *
              rw [hb1, hb2, hbad1, hbad2, decide_eq_true hble, hok]
              rfl
            have hval : isValidPlacement g w r c .across ans =
                (match ans with
                  | none => true
                  | some a => (newSeqsAcross g r w c).all (seqOk g.words a)) := by
              simp [isValidPlacement, hgeo]
              rfl
            rw [hval]
            cases ans with
            | none => rfl
            | some a =>
              rw [newSeqsAcrossM_eq g hwf r hr w c hble]
              rfl
      · rw [if_neg hok]
        have hgeo : geometricOkAcross g w r c = false := by
          unfold geometricOkAcross
          rw [Bool.not_eq_true] at hok
          rw [hok]
          simp
        have hval : isValidPlacement g w r c .across ans = false := by
          simp [isValidPlacement, hgeo]
        rw [hval]
  | down =>
    show (if g.height < r + w.length then some false else _) = _
    by_cases hb : g.height < r + w.length
    · rw [if_pos hb]
      have hgeo : geometricOkDown g w r c = false := by
        unfold geometricOkDown
        rw [decide_eq_false (by omega)]
        rfl
      have hval : isValidPlacement g w r c .down ans = false := by
        simp [isValidPlacement, hgeo]
      rw [hval]
    · rw [if_neg hb]
      have hble : r + w.length ≤ g.height := by omega
      rw [conflictFreeDownM_eq g hwf c hc w r hble, Option.some_bind]
      by_cases hok : conflictFreeDown g c w r = true
      · rw [if_pos hok]
        have hbad1v : (if 0 < r then (cell? g (r - 1) c).map (fun ch => decide (ch ≠ '.'))
            else some false) =
            some (if 0 < r then decide (cellD g (r - 1) c ≠ '.') else false) := by
          by_cases hrz : 0 < r
          · rw [if_pos hrz, if_pos hrz,
              cell?_eq_some_cellD g hwf (by omega) hc, Option.map_some']
          · rw [if_neg hrz, if_neg hrz]
        rw [hbad1v, Option.some_bind]
        have hb1 : (decide (r = 0) || decide (cellD g (r - 1) c = '.')) =
            !(if 0 < r then decide (cellD g (r - 1) c ≠ '.') else false) := by
          by_cases hrz : 0 < r
          · rw [if_pos hrz, decide_eq_false (by omega), Bool.false_or]
            by_cases hdot : cellD g (r - 1) c = '.'
            · simp [hdot]
            · simp [hdot]
          · rw [if_neg hrz, decide_eq_true (by omega)]
            rfl
        by_cases hbad1 : (if 0 < r then decide (cellD g (r - 1) c ≠ '.') else false) = true
        · rw [if_pos hbad1]
          have hgeo : geometricOkDown g w r c = false := by
            unfold geometricOkDown
            rw [hb1, hbad1]
            simp
          have hval : isValidPlacement g w r c .down ans = false := by
            simp [isValidPlacement, hgeo]
          rw [hval]
        · rw [if_neg hbad1]
          have hbad2v : (if r + w.length < g.height then
              (cell? g (r + w.length) c).map (fun ch => decide (ch ≠ '.'))
              else some false) =
              some (if r + w.length < g.height then
                decide (cellD g (r + w.length) c ≠ '.') else false) := by
            by_cases hre : r + w.length < g.height
            · rw [if_pos hre, if_pos hre,
                cell?_eq_some_cellD g hwf (by omega) hc, Option.map_some']
            · rw [if_neg hre, if_neg hre]
          rw [hbad2v, Option.some_bind]
          have hb2 : (decide (¬ r + w.length < g.height) ||
              decide (cellD g (r + w.length) c = '.')) =
              !(if r + w.length < g.height then
                decide (cellD g (r + w.length) c ≠ '.') else false) := by
            by_cases hre : r + w.length < g.height
            · rw [if_pos hre, decide_eq_false (by omega), Bool.false_or]
              by_cases hdot : cellD g (r + w.length) c = '.'
              · simp [hdot]
              · simp [hdot]
            · rw [if_neg hre, decide_eq_true (by omega)]
              rfl
          by_cases hbad2 : (if r + w.length < g.height then
              decide (cellD g (r + w.length) c ≠ '.') else false) = true
          · rw [if_pos hbad2]
            have hgeo : geometricOkDown g w r c = false := by
              unfold geometricOkDown
              rw [hb2, hbad2]
              simp
            have hval : isValidPlacement g w r c .down ans = false := by
              simp [isValidPlacement, hgeo]
            rw [hval]
          · rw [if_neg hbad2]
            have hgeo : geometricOkDown g w r c = true := by
              unfold geometricOkDown
              rw [Bool.not_eq_true] at hbad1 hbad2
              rw [hb1, hb2, hbad1, hbad2, decide_eq_true hble, hok]
              rfl
            have hval : isValidPlacement g w r c .down ans =
                (match ans with
                  | none => true
                  | some a => (newSeqsDown g c w r).all (seqOk g.words a)) := by
              simp [isValidPlacement, hgeo]
              rfl
            rw [hval]
            cases ans with
            | none => rfl
            | some a =>
              rw [newSeqsDownM_eq g hwf c hc w r hble]
              rfl
      · rw [if_neg hok]
        have hgeo : geometricOkDown g w r c = false := by
          unfold geometricOkDown
          rw [Bool.not_eq_true] at hok
          rw [hok]
          simp
        have hval : isValidPlacement g w r c .down ans = false := by
          simp [isValidPlacement, hgeo]
        rw [hval]

/-- Witness for C9: "AB" DOWN at (0, 1) on a concrete well-formed 2 × 2
grid. -/
theorem isValidPlacementChecked_eq_witness :
    isValidPlacementChecked ⟨2, 2, [['.', '.'], ['A', '.']], []⟩ ['A', 'B'] 0 1 .down
      (some [['A', 'B']]) =
    some (isValidPlacement ⟨2, 2, [['.', '.'], ['A', '.']], []⟩ ['A', 'B'] 0 1 .down
      (some [['A', 'B']])) :=
  isValidPlacementChecked_eq ⟨2, 2, [['.', '.'], ['A', '.']], []⟩ (by decide)
    ['A', 'B'] (by decide) 0 1 .down (some [['A', 'B']]) (by decide) (by decide)

/- ## Batch orchestration (`generate_crosswords_batch`) -/

/-- Python list slicing `l[:n]` for a possibly negative `n` (a negative
bound drops elements from the end). -/
def pyTake {α : Type} (l : List α) (n : Int) : List α :=
  if 0 ≤ n then l.take n.toNat else l.take (l.length - (-n).toNat)

/-- The attempt loop of `generate_crosswords_batch`, one list element per
iteration of `generate_single_crossword_attempt`: `none` is the
"no center words" outcome, otherwise the produced grid, the acceptance
verdict, and the quality score (modelled in exact rational arithmetic).
`P`, `I`, `C` are the perfect / imperfect / constraint-violating tiers;
the grid copy taken by the source is value-equal to the grid itself. -/
def batchLoop (count : Nat) (penalty : Grid → ℚ) :
    List (Option (Grid × Bool × ℚ)) → List Grid → List Grid → List (Grid × ℚ) →
      List Grid × List Grid × List (Grid × ℚ)
  | [], P, I, C => (P, I, C)
  | att :: rest, P, I, C =>
    match att with
    | none => batchLoop count penalty rest P I C
    | some (g, valid, q) =>
      if valid then
        if q = 1 then
          if count ≤ (P ++ [g]).length then (P ++ [g], I, C)
          else batchLoop count penalty rest (P ++ [g]) I C
        else
          let I' := if (count : Int) - P.length < (I ++ [g]).length
            then pyTake (I ++ [g]) ((count : Int) - P.length) else I ++ [g]
          if count ≤ P.length then (P, I', C)
          else batchLoop count penalty rest P I' C
      else
        let C0 := (C ++ [(g, penalty g)]).mergeSort (fun a b => decide (a.2 ≤ b.2))
        let C' := if ((count : Int) - P.length - I.length) < C0.length
          then pyTake C0 ((count : Int) - P.length - I.length) else C0
        batchLoop count penalty rest P I C'

/-- Embeds `CrosswordGenerator.generate_crosswords_batch`: run the loop over
at most `max_iterations` attempt outcomes, then assemble perfect puzzles
first, imperfect next, and best-penalty-first constraint-violating last,
until `count` is filled. -/
def generateCrosswordsBatch (count maxIter : Nat) (penalty : Grid → ℚ)
    (attempts : List (Option (Grid × Bool × ℚ))) : List Grid :=
  let st := batchLoop count penalty (attempts.take maxIter) [] [] []
  let perfectToAdd := min st.1.length count
  let remaining := count - perfectToAdd
  let imperfectToAdd := if 0 < remaining then min st.2.1.length remaining else 0
  let remaining2 := remaining - imperfectToAdd
  let cvToAdd := if 0 < remaining2 ∧ st.2.2 ≠ [] then min st.2.2.length remaining2 else 0
  (st.1.take perfectToAdd ++ st.2.1.take imperfectToAdd) ++
    (st.2.2.take cvToAdd).map (fun gc => gc.1)

/-- The grid came from an accepted attempt with quality score exactly 1. -/
def PerfectAttempt (attempts : List (Option (Grid × Bool × ℚ))) (g : Grid) : Prop :=
  some (g, true, (1 : ℚ)) ∈ attempts

/-- The grid came from an accepted attempt with quality score ≠ 1. -/
def ImperfectAttempt (attempts : List (Option (Grid × Bool × ℚ))) (g : Grid) : Prop :=
  ∃ q, q ≠ (1 : ℚ) ∧ some (g, true, q) ∈ attempts

/-- The grid came from an attempt that failed the acceptance test. -/
def FailedAttempt (attempts : List (Option (Grid × Bool × ℚ))) (g : Grid) : Prop :=
  ∃ q, some (g, false, q) ∈ attempts

theorem pyTake_subset {α : Type} (l : List α) (n : Int) : ∀ x ∈ pyTake l n, x ∈ l := by
  intro x hx
  unfold pyTake at hx
  by_cases h : 0 ≤ n
  · rw [if_pos h] at hx
    exact List.take_subset _ _ hx
  · rw [if_neg h] at hx
    exact List.take_subset _ _ hx

theorem pyTake_sublist {α : Type} (l : List α) (n : Int) : (pyTake l n).Sublist l := by
  unfold pyTake
  by_cases h : 0 ≤ n
  · rw [if_pos h]
    exact List.take_sublist _ _
  · rw [if_neg h]
    exact List.take_sublist _ _

theorem batchLoop_inv (count : Nat) (penalty : Grid → ℚ)
    (atts0 : List (Option (Grid × Bool × ℚ))) :
    ∀ atts, (∀ x ∈ atts, x ∈ atts0) → ∀ P I C,
      (∀ g ∈ P, PerfectAttempt atts0 g) →
      (∀ g ∈ I, ImperfectAttempt atts0 g) →
      (∀ gc ∈ C, FailedAttempt atts0 gc.1 ∧ gc.2 = penalty gc.1) →
      C.Pairwise (fun a b => a.2 ≤ b.2) →
      (∀ g ∈ (batchLoop count penalty atts P I C).1, PerfectAttempt atts0 g) ∧
      (∀ g ∈ (batchLoop count penalty atts P I C).2.1, ImperfectAttempt atts0 g) ∧
      (∀ gc ∈ (batchLoop count penalty atts P I C).2.2,
        FailedAttempt atts0 gc.1 ∧ gc.2 = penalty gc.1) ∧
      (batchLoop count penalty atts P I C).2.2.Pairwise (fun a b => a.2 ≤ b.2) := by
  intro atts
  induction atts with
  | nil =>
    intro _ P I C hP hI hC hsort
    exact ⟨hP, hI, hC, hsort⟩
  | cons att rest ih =>
    intro hsub P I C hP hI hC hsort
    have hsub' : ∀ x ∈ rest, x ∈ atts0 :=
      fun x hx => hsub x (List.mem_cons_of_mem _ hx)
    cases att with
    | none => exact ih hsub' P I C hP hI hC hsort
    | some t =>
      obtain ⟨g, valid, q⟩ := t
      cases valid with
      | true =>
        have hstep : batchLoop count penalty (some (g, true, q) :: rest) P I C =
            (if q = 1 then
              (if count ≤ (P ++ [g]).length then (P ++ [g], I, C)
               else batchLoop count penalty rest (P ++ [g]) I C)
             else
              (if count ≤ P.length then
                (P, if (count : Int) - P.length < (I ++ [g]).length
                  then pyTake (I ++ [g]) ((count : Int) - P.length) else I ++ [g], C)
               else batchLoop count penalty rest P
                 (if (count : Int) - P.length < (I ++ [g]).length
                  then pyTake (I ++ [g]) ((count : Int) - P.length) else I ++ [g]) C)) := rfl
        rw [hstep]
        by_cases hq : q = 1
        · subst hq
          rw [if_pos rfl]
          have hP' : ∀ g' ∈ P ++ [g], PerfectAttempt atts0 g' := by
            intro g' hg'
            rcases List.mem_append.mp hg' with h | h
            · exact hP g' h
            · rw [List.mem_singleton.mp h]
              exact hsub _ (List.mem_cons_self _ _)
          by_cases hcnt : count ≤ (P ++ [g]).length
          · rw [if_pos hcnt]
            exact ⟨hP', hI, hC, hsort⟩
          · rw [if_neg hcnt]
            exact ih hsub' (P ++ [g]) I C hP' hI hC hsort
        · rw [if_neg hq]
          have hI' : ∀ g' ∈ (if (count : Int) - P.length < (I ++ [g]).length
              then pyTake (I ++ [g]) ((count : Int) - P.length) else I ++ [g]),
              ImperfectAttempt atts0 g' := by
            have hI0 : ∀ g' ∈ I ++ [g], ImperfectAttempt atts0 g' := by
              intro g' hg'
              rcases List.mem_append.mp hg' with h | h
              · exact hI g' h
              · rw [List.mem_singleton.mp h]
                exact ⟨q, hq, hsub _ (List.mem_cons_self _ _)⟩
            intro g' hg'
            by_cases hcut : (count : Int) - P.length < (I ++ [g]).length
            · rw [if_pos hcut] at hg'
              exact hI0 g' (pyTake_subset _ _ g' hg')
            · rw [if_neg hcut] at hg'
              exact hI0 g' hg'
          by_cases hcnt : count ≤ P.length
          · rw [if_pos hcnt]
            exact ⟨hP, hI', hC, hsort⟩
          · rw [if_neg hcnt]
            exact ih hsub' P _ C hP hI' hC hsort
      | false =>
        have hstep : batchLoop count penalty (some (g, false, q) :: rest) P I C =
            batchLoop count penalty rest P I
              (if ((count : Int) - P.length - I.length) <
                  ((C ++ [(g, penalty g)]).mergeSort (fun a b => decide (a.2 ≤ b.2))).length
               then pyTake ((C ++ [(g, penalty g)]).mergeSort (fun a b => decide (a.2 ≤ b.2)))
                 ((count : Int) - P.length - I.length)
               else (C ++ [(g, penalty g)]).mergeSort (fun a b => decide (a.2 ≤ b.2))) := rfl
        rw [hstep]
        have hC0 : ∀ gc ∈ (C ++ [(g, penalty g)]).mergeSort
            (fun a b => decide (a.2 ≤ b.2)),
            FailedAttempt atts0 gc.1 ∧ gc.2 = penalty gc.1 := by
          intro gc hgc
          rcases List.mem_append.mp (List.mem_mergeSort.mp hgc) with h | h
          · exact hC gc h
          · rw [List.mem_singleton.mp h]
            exact ⟨⟨q, hsub _ (List.mem_cons_self _ _)⟩, rfl⟩
        have hsort0 : ((C ++ [(g, penalty g)]).mergeSort
            (fun a b => decide (a.2 ≤ b.2))).Pairwise (fun a b => a.2 ≤ b.2) := by
          have hms := @List.sorted_mergeSort (Grid × ℚ)
            (fun a b => decide (a.2 ≤ b.2))
            (fun a b c hab hbc => by
              simp only [decide_eq_true_eq] at hab hbc ⊢
              exact le_trans hab hbc)
            (fun a b => by
              rcases le_total a.2 b.2 with h | h <;> simp [h])
            (C ++ [(g, penalty g)])
          exact hms.imp (fun h => by
            simp only [decide_eq_true_eq] at h
            exact h)
        have hC' : ∀ gc ∈ (if ((count : Int) - P.length - I.length) <
              ((C ++ [(g, penalty g)]).mergeSort (fun a b => decide (a.2 ≤ b.2))).length
            then pyTake ((C ++ [(g, penalty g)]).mergeSort (fun a b => decide (a.2 ≤ b.2)))
              ((count : Int) - P.length - I.length)
            else (C ++ [(g, penalty g)]).mergeSort (fun a b => decide (a.2 ≤ b.2))),
            FailedAttempt atts0 gc.1 ∧ gc.2 = penalty gc.1 := by
          intro gc hgc
          by_cases hcut : ((count : Int) - P.length - I.length) <
              ((C ++ [(g, penalty g)]).mergeSort (fun a b => decide (a.2 ≤ b.2))).length
          · rw [if_pos hcut] at hgc
            exact hC0 gc (pyTake_subset _ _ gc hgc)
          · rw [if_neg hcut] at hgc
            exact hC0 gc hgc
        have hsort' : (if ((count : Int) - P.length - I.length) <
              ((C ++ [(g, penalty g)]).mergeSort (fun a b => decide (a.2 ≤ b.2))).length
            then pyTake ((C ++ [(g, penalty g)]).mergeSort (fun a b => decide (a.2 ≤ b.2)))
              ((count : Int) - P.length - I.length)
            else (C ++ [(g, penalty g)]).mergeSort
              (fun a b => decide (a.2 ≤ b.2))).Pairwise (fun a b => a.2 ≤ b.2) := by
          by_cases hcut : ((count : Int) - P.length - I.length) <
              ((C ++ [(g, penalty g)]).mergeSort (fun a b => decide (a.2 ≤ b.2))).length
          · rw [if_pos hcut]
            exact List.Pairwise.sublist (pyTake_sublist _ _) hsort0
          · rw [if_neg hcut]
            exact hsort0
        exact ih hsub' P I _ hP hI hC' hsort'

/-- C5: every batch result decomposes into a block of Perfect grids
(accepted attempts with quality score exactly 1), then a block of Imperfect
grids (accepted, score ≠ 1), then a block of Constraint-violating grids
(failed acceptance) carried with their penalty scores in ascending order;
and the result holds at most `count` grids. -/
theorem generateCrosswordsBatch_spec (count maxIter : Nat) (penalty : Grid → ℚ)
    (attempts : List (Option (Grid × Bool × ℚ))) :
    ∃ (P' I' : List Grid) (C' : List (Grid × ℚ)),
      generateCrosswordsBatch count maxIter penalty attempts =
        (P' ++ I') ++ C'.map (fun gc => gc.1) ∧
      (∀ g ∈ P', PerfectAttempt attempts g) ∧
      (∀ g ∈ I', ImperfectAttempt attempts g) ∧
      (∀ gc ∈ C', FailedAttempt attempts gc.1 ∧ gc.2 = penalty gc.1) ∧
      C'.Pairwise (fun a b => a.2 ≤ b.2) ∧
      (generateCrosswordsBatch count maxIter penalty attempts).length ≤ count := by
  obtain ⟨hP, hI, hC, hsort⟩ := batchLoop_inv count penalty attempts
    (attempts.take maxIter) (fun x hx => List.take_subset _ _ hx) [] [] []
    (fun g h => absurd h (List.not_mem_nil g))
    (fun g h => absurd h (List.not_mem_nil g))
    (fun gc h => absurd h (List.not_mem_nil gc))
    List.Pairwise.nil
  set st := batchLoop count penalty (attempts.take maxIter) [] [] [] with hst
  set perfectToAdd := min st.1.length count with hpta
  set remaining := count - perfectToAdd with hrem
  set imperfectToAdd := (if 0 < remaining then min st.2.1.length remaining else 0) with hita
  set remaining2 := remaining - imperfectToAdd with hrem2
  set cvToAdd := (if 0 < remaining2 ∧ st.2.2 ≠ [] then min st.2.2.length remaining2 else 0)
    with hcta
  refine ⟨st.1.take perfectToAdd, st.2.1.take imperfectToAdd, st.2.2.take cvToAdd,
    rfl, ?_, ?_, ?_, ?_, ?_⟩
  · exact fun g hg => hP g (List.take_subset _ _ hg)
  · exact fun g hg => hI g (List.take_subset _ _ hg)
  · exact fun gc hgc => hC gc (List.take_subset _ _ hgc)
  · exact List.Pairwise.sublist (List.take_sublist _ _) hsort
  · show ((st.1.take perfectToAdd ++ st.2.1.take imperfectToAdd) ++
      (st.2.2.take cvToAdd).map (fun gc => gc.1)).length ≤ count
    simp only [List.length_append, List.length_map, List.length_take]
    have h1 : imperfectToAdd ≤ remaining := by
      rw [hita]
      by_cases h : 0 < remaining
      · rw [if_pos h]
        omega
      · rw [if_neg h]
        omega
    have h2 : cvToAdd ≤ remaining2 := by
      rw [hcta]
      by_cases h : 0 < remaining2 ∧ st.2.2 ≠ []
      · rw [if_pos h]
        omega
      · rw [if_neg h]
        omega
    omega

/- ## Structure of the run scanner (towards C3) -/

theorem runsGo_snoc_dot : ∀ (l : List Char) (i : Nat) (st : Option (Nat × List Char)),
    runsGo (l ++ ['.']) i st = runsGo l i st := by
  intro l
  induction l with
  | nil =>
    intro i st
    cases st with
    | none => rfl
    | some pr => obtain ⟨a, acc⟩ := pr; rfl
  | cons ch rest ih =>
    intro i st
    cases st with
    | none =>
      have hL : runsGo ((ch :: rest) ++ ['.']) i none =
          (if ch = '.' then runsGo (rest ++ ['.']) (i + 1) none
           else runsGo (rest ++ ['.']) (i + 1) (some (i, [ch]))) := rfl
      have hR : runsGo (ch :: rest) i none =
          (if ch = '.' then runsGo rest (i + 1) none
           else runsGo rest (i + 1) (some (i, [ch]))) := rfl
      rw [hL, hR]
      by_cases h : ch = '.'
      · rw [if_pos h, if_pos h, ih]
      · rw [if_neg h, if_neg h, ih]
    | some pr =>
      obtain ⟨a, acc⟩ := pr
      have hL : runsGo ((ch :: rest) ++ ['.']) i (some (a, acc)) =
          (if ch = '.' then (acc.reverse, a) :: runsGo (rest ++ ['.']) (i + 1) none
           else runsGo (rest ++ ['.']) (i + 1) (some (a, ch :: acc))) := rfl
      have hR : runsGo (ch :: rest) i (some (a, acc)) =
          (if ch = '.' then (acc.reverse, a) :: runsGo rest (i + 1) none
           else runsGo rest (i + 1) (some (a, ch :: acc))) := rfl
      rw [hL, hR]
      by_cases h : ch = '.'
      · rw [if_pos h, if_pos h, ih]
      · rw [if_neg h, if_neg h, ih]

theorem runsGo_append_dot_state (l2 : List Char) :
    ∀ (l1 : List Char) (i : Nat) (st : Option (Nat × List Char)),
      runsGo (l1 ++ '.' :: l2) i st =
        runsGo (l1 ++ ['.']) i st ++ runsGo l2 (i + l1.length + 1) none := by
  intro l1
  induction l1 with
  | nil =>
    intro i st
    cases st with
    | none =>
      show runsGo ('.' :: l2) i none = runsGo ['.'] i none ++ runsGo l2 (i + 0 + 1) none
      show runsGo l2 (i + 1) none = runsGo [] (i + 1) none ++ runsGo l2 (i + 0 + 1) none
      rfl
    | some pr =>
      obtain ⟨a, acc⟩ := pr
      show (acc.reverse, a) :: runsGo l2 (i + 1) none =
        ((acc.reverse, a) :: runsGo [] (i + 1) none) ++ runsGo l2 (i + 0 + 1) none
      rfl
  | cons ch rest ih =>
    intro i st
    have hlen : (ch :: rest).length = rest.length + 1 := rfl
    cases st with
    | none =>
      show (if ch = '.' then runsGo (rest ++ '.' :: l2) (i + 1) none
        else runsGo (rest ++ '.' :: l2) (i + 1) (some (i, [ch]))) = _
      by_cases h : ch = '.'
      · rw [if_pos h, ih]
        have : runsGo ((ch :: rest) ++ ['.']) i none = runsGo (rest ++ ['.']) (i + 1) none := by
          show (if ch = '.' then runsGo (rest ++ ['.']) (i + 1) none
            else runsGo (rest ++ ['.']) (i + 1) (some (i, [ch]))) = _
          rw [if_pos h]
        rw [this, hlen]
        have harith : i + 1 + rest.length + 1 = i + (rest.length + 1) + 1 := by omega
        rw [harith]
      · rw [if_neg h, ih]
        have : runsGo ((ch :: rest) ++ ['.']) i none =
            runsGo (rest ++ ['.']) (i + 1) (some (i, [ch])) := by
          show (if ch = '.' then runsGo (rest ++ ['.']) (i + 1) none
            else runsGo (rest ++ ['.']) (i + 1) (some (i, [ch]))) = _
          rw [if_neg h]
        rw [this, hlen]
        have harith : i + 1 + rest.length + 1 = i + (rest.length + 1) + 1 := by omega
        rw [harith]
    | some pr =>
      obtain ⟨a, acc⟩ := pr
      show (if ch = '.' then (acc.reverse, a) :: runsGo (rest ++ '.' :: l2) (i + 1) none
        else runsGo (rest ++ '.' :: l2) (i + 1) (some (a, ch :: acc))) = _
      by_cases h : ch = '.'
      · rw [if_pos h, ih]
        have : runsGo ((ch :: rest) ++ ['.']) i (some (a, acc)) =
            (acc.reverse, a) :: runsGo (rest ++ ['.']) (i + 1) none := by
          show (if ch = '.' then (acc.reverse, a) :: runsGo (rest ++ ['.']) (i + 1) none
            else runsGo (rest ++ ['.']) (i + 1) (some (a, ch :: acc))) = _
          rw [if_pos h]
        rw [this, hlen]
        have harith : i + 1 + rest.length + 1 = i + (rest.length + 1) + 1 := by omega
        rw [harith]
        rfl
      · rw [if_neg h, ih]
        have : runsGo ((ch :: rest) ++ ['.']) i (some (a, acc)) =
            runsGo (rest ++ ['.']) (i + 1) (some (a, ch :: acc)) := by
          show (if ch = '.' then (acc.reverse, a) :: runsGo (rest ++ ['.']) (i + 1) none
            else runsGo (rest ++ ['.']) (i + 1) (some (a, ch :: acc))) = _
          rw [if_neg h]
        rw [this, hlen]
        have harith : i + 1 + rest.length + 1 = i + (rest.length + 1) + 1 := by omega
        rw [harith]

theorem runsGo_append_dot (l1 l2 : List Char) (i : Nat) :
    runsGo (l1 ++ '.' :: l2) i none =
      runsGo l1 i none ++ runsGo l2 (i + l1.length + 1) none := by
  rw [runsGo_append_dot_state, runsGo_snoc_dot]

theorem runsGo_all_nondot_state :
    ∀ (l : List Char), (∀ x ∈ l, x ≠ '.') → ∀ (i a : Nat) (acc : List Char),
      runsGo l i (some (a, acc)) = [(acc.reverse ++ l, a)] := by
  intro l
  induction l with
  | nil =>
    intro _ i a acc
    show [(acc.reverse, a)] = [(acc.reverse ++ [], a)]
    rw [List.append_nil]
  | cons ch rest ih =>
    intro hnd i a acc
    show (if ch = '.' then (acc.reverse, a) :: runsGo rest (i + 1) none
      else runsGo rest (i + 1) (some (a, ch :: acc))) = _
    rw [if_neg (hnd ch (List.mem_cons_self _ _)),
      ih (fun x hx => hnd x (List.mem_cons_of_mem _ hx)) (i + 1) a (ch :: acc),
      List.reverse_cons, List.append_assoc]
    rfl

theorem runsGo_all_nondot (l : List Char) (hne : l ≠ []) (hnd : ∀ x ∈ l, x ≠ '.')
    (i : Nat) : runsGo l i none = [(l, i)] := by
  cases l with
  | nil => exact absurd rfl hne
  | cons ch rest =>
    show (if ch = '.' then runsGo rest (i + 1) none
      else runsGo rest (i + 1) (some (i, [ch]))) = _
    rw [if_neg (hnd ch (List.mem_cons_self _ _)),
      runsGo_all_nondot_state rest (fun x hx => hnd x (List.mem_cons_of_mem _ hx)) (i + 1) i [ch]]
    rfl

theorem runsGo_dot_head (t : List Char) (i : Nat) :
    runsGo ('.' :: t) i none = runsGo t (i + 1) none := by
  have h : runsGo ('.' :: t) i none =
      (if ('.' : Char) = '.' then runsGo t (i + 1) none
       else runsGo t (i + 1) (some (i, ['.']))) := rfl
  rw [h, if_pos rfl]

/-- Central decomposition of a line scan: if positions `[s, e]` hold a
maximal run of non-empty cells (bounded by '.' or the ends of the line),
the scan yields the runs of the prefix, that run, then the runs of the
suffix. -/
theorem runsGo_split (l : List Char) (s e : Nat) (hse : s ≤ e) (hel : e < l.length)
    (hleft : s = 0 ∨ l.get? (s - 1) = some '.')
    (hright : e + 1 = l.length ∨ l.get? (e + 1) = some '.')
    (hmid : ∀ t, s ≤ t → t ≤ e → l.get? t ≠ some '.') :
    runsGo l 0 none =
      runsGo (l.take s) 0 none ++
        (((l.drop s).take (e + 1 - s), s) :: runsGo (l.drop (e + 1)) (e + 1) none) := by
  have hmidlen : ((l.drop s).take (e + 1 - s)).length = e + 1 - s := by
    rw [List.length_take, List.length_drop]
    omega
  have hmidne : (l.drop s).take (e + 1 - s) ≠ [] := by
    intro h
    rw [h] at hmidlen
    simp only [List.length_nil] at hmidlen
    omega
  have hmidnd : ∀ x ∈ (l.drop s).take (e + 1 - s), x ≠ '.' := by
    intro x hx hdot
    subst hdot
    obtain ⟨n, hn⟩ := List.get?_of_mem hx
    have hnlt : n < e + 1 - s := by
      have hl := (List.get?_eq_some.mp hn).1
      rw [hmidlen] at hl
      exact hl
    have h1 : ((l.drop s).take (e + 1 - s)).get? n = (l.drop s).get? n :=
      List.get?_take hnlt
    have h2 : (l.drop s).get? n = l.get? (s + n) := List.get?_drop l s n
    exact hmid (s + n) (by omega) (by omega) (h2 ▸ h1 ▸ hn)
  have hsecond : runsGo (l.drop s) s none =
      ((l.drop s).take (e + 1 - s), s) :: runsGo (l.drop (e + 1)) (e + 1) none := by
    rcases hright with he1 | hdot
    · have hdropnil : l.drop (e + 1) = [] := by
        rw [he1]
        exact List.drop_length l
      have hdropall : (l.drop s).take (e + 1 - s) = l.drop s := by
        apply List.take_of_length_le
        rw [List.length_drop]
        omega
      rw [hdropnil]
      rw [runsGo_all_nondot (l.drop s) (hdropall ▸ hmidne) (hdropall ▸ hmidnd) s]
      rw [hdropall]
      rfl
    · have he1lt : e + 1 < l.length := (List.get?_eq_some.mp hdot).1
      have hcell : l[e + 1] = '.' := by
        have hg : l.get? (e + 1) = l[e + 1]? := List.get?_eq_getElem? l (e + 1)
        have hg2 : l[e + 1]? = some l[e + 1] := List.getElem?_eq_getElem he1lt
        rw [hg, hg2] at hdot
        exact Option.some_inj.mp hdot
      have h3 : l.drop (e + 1) = '.' :: l.drop (e + 2) := by
        rw [List.drop_eq_getElem_cons he1lt, hcell]
      have hdecomp : l.drop s =
          (l.drop s).take (e + 1 - s) ++ '.' :: l.drop (e + 2) := by
        calc l.drop s
            = (l.drop s).take (e + 1 - s) ++ (l.drop s).drop (e + 1 - s) :=
              (List.take_append_drop _ _).symm
          _ = (l.drop s).take (e + 1 - s) ++ l.drop (e + 1) := by
              rw [List.drop_drop]
              congr 2
              omega
          _ = (l.drop s).take (e + 1 - s) ++ '.' :: l.drop (e + 2) := by rw [h3]
      conv_lhs => rw [hdecomp]
      rw [runsGo_append_dot, runsGo_all_nondot _ hmidne hmidnd s, hmidlen]
      have harith : s + (e + 1 - s) + 1 = e + 2 := by omega
      rw [harith, h3, runsGo_dot_head]
      rfl
  rcases hleft with hs0 | hsdot
  · subst hs0
    rw [List.take_zero]
    have hnil : runsGo ([] : List Char) 0 none = [] := rfl
    rw [hnil, List.nil_append]
    rw [List.drop_zero] at hsecond
    exact hsecond
  · rcases Nat.eq_zero_or_pos s with h0 | hspos
    · subst h0
      exact absurd hsdot (hmid 0 (Nat.le_refl 0) (by omega))
    · have htake : l.take s = l.take (s - 1) ++ ['.'] := by
        have hs : s = (s - 1) + 1 := by omega
        conv_lhs => rw [hs]
        rw [List.take_succ]
        have hg : l.get? (s - 1) = l[s - 1]? := List.get?_eq_getElem? l (s - 1)
        rw [hg] at hsdot
        rw [hsdot]
        rfl
      have hassoc : l = l.take (s - 1) ++ '.' :: l.drop s := by
        calc l = l.take s ++ l.drop s := (List.take_append_drop s l).symm
          _ = (l.take (s - 1) ++ ['.']) ++ l.drop s := by rw [htake]
          _ = l.take (s - 1) ++ '.' :: l.drop s := by
              rw [List.append_assoc, List.singleton_append]
      conv_lhs => rw [hassoc]
      rw [runsGo_append_dot, htake, runsGo_snoc_dot]
      have hlen1 : (l.take (s - 1)).length = s - 1 := by
        rw [List.length_take]
        omega
      rw [hlen1]
      have harith : 0 + (s - 1) + 1 = s := by omega
      rw [harith, hsecond]

theorem scanUp_spec (read : Nat → Char) : ∀ p : Nat,
    scanUp read p ≤ p ∧ (∀ t, scanUp read p ≤ t → t < p → read t ≠ '.') ∧
      (scanUp read p = 0 ∨ read (scanUp read p - 1) = '.') := by
  intro p
  induction p with
  | zero => exact ⟨Nat.le_refl 0, fun t _ ht => absurd ht (Nat.not_lt_zero t), Or.inl rfl⟩
  | succ p ih =>
    have hstep : scanUp read (p + 1) =
        (if read p ≠ '.' then scanUp read p else p + 1) := rfl
    by_cases h : read p ≠ '.'
    · rw [hstep, if_pos h]
      obtain ⟨h1, h2, h3⟩ := ih
      refine ⟨by omega, ?_, h3⟩
      intro t ht1 ht2
      by_cases htp : t < p
      · exact h2 t ht1 htp
      · have : t = p := by omega
        rw [this]
        exact h
    · rw [hstep, if_neg h]
      refine ⟨Nat.le_refl _, fun t ht1 ht2 => by omega, Or.inr ?_⟩
      have : p + 1 - 1 = p := by omega
      rw [this]
      exact not_not.mp h

theorem scanDownAux_spec (read : Nat → Char) : ∀ (k p : Nat),
    p ≤ scanDownAux read p k ∧ scanDownAux read p k ≤ p + k ∧
      (∀ t, p < t → t ≤ scanDownAux read p k → read t ≠ '.') ∧
      (scanDownAux read p k = p + k ∨ read (scanDownAux read p k + 1) = '.') := by
  intro k
  induction k with
  | zero =>
    intro p
    have h0 : scanDownAux read p 0 = p := rfl
    rw [h0]
    exact ⟨Nat.le_refl p, by omega, fun t ht1 ht2 => by omega, Or.inl (by omega)⟩
  | succ k ih =>
    intro p
    have hstep : scanDownAux read p (k + 1) =
        (if read (p + 1) ≠ '.' then scanDownAux read (p + 1) k else p) := rfl
    by_cases h : read (p + 1) ≠ '.'
    · rw [hstep, if_pos h]
      obtain ⟨h1, h2, h3, h4⟩ := ih (p + 1)
      refine ⟨by omega, by omega, ?_, ?_⟩
      · intro t ht1 ht2
        by_cases htp : p + 1 < t
        · exact h3 t htp ht2
        · have : t = p + 1 := by omega
          rw [this]
          exact h
      · rcases h4 with h4 | h4
        · exact Or.inl (by omega)
        · exact Or.inr h4
    · rw [hstep, if_neg h]
      exact ⟨Nat.le_refl p, by omega, fun t ht1 ht2 => by omega,
        Or.inr (not_not.mp h)⟩

theorem scanDown_spec (read : Nat → Char) (limit p : Nat) (hp : p < limit) :
    p ≤ scanDown read limit p ∧ scanDown read limit p ≤ limit - 1 ∧
      (∀ t, p < t → t ≤ scanDown read limit p → read t ≠ '.') ∧
      (scanDown read limit p = limit - 1 ∨ read (scanDown read limit p + 1) = '.') := by
  unfold scanDown
  obtain ⟨h1, h2, h3, h4⟩ := scanDownAux_spec read (limit - 1 - p) p
  refine ⟨h1, by omega, h3, ?_⟩
  rcases h4 with h4 | h4
  · exact Or.inl (by omega)
  · exact Or.inr h4

theorem all_flatMap {α β : Type} (f : α → List β) (p : β → Bool) :
    ∀ l : List α, (l.flatMap f).all p = l.all (fun a => (f a).all p) := by
  intro l
  induction l with
  | nil => rfl
  | cons x xs ih =>
    rw [List.flatMap_cons, List.all_append, List.all_cons, ih]

theorem all_filterMap_if {α β : Type} (q : α → Prop) [DecidablePred q] (f : α → β)
    (p : β → Bool) : ∀ l : List α,
      (l.filterMap (fun x => if q x then some (f x) else none)).all p =
        l.all (fun x => if q x then p (f x) else true) := by
  intro l
  induction l with
  | nil => rfl
  | cons x xs ih =>
    rw [List.filterMap_cons, List.all_cons]
    by_cases h : q x
    · rw [if_pos h, if_pos h, List.all_cons, ih]
    · rw [if_neg h, if_neg h, ih, Bool.true_and]

/-- The grid-wide `.all` test over `get_all_letter_sequences`, expressed
per line and per run. -/
theorem getAll_all_iff (G : Grid) (P : List Char × Nat × Nat × Direction → Bool) :
    (getAllLetterSequences G).all P = true ↔
      ((∀ r2, r2 < G.height → ∀ pr ∈ runsGo (rowLine G r2) 0 none,
        1 < pr.1.length → P (pr.1, r2, pr.2, .across) = true) ∧
       (∀ j, j < G.width → ∀ pr ∈ runsGo (colLine G j) 0 none,
        1 < pr.1.length → P (pr.1, pr.2, j, .down) = true)) := by
  unfold getAllLetterSequences
  rw [List.all_append, Bool.and_eq_true, all_flatMap, all_flatMap,
    List.all_eq_true, List.all_eq_true]
  constructor
  · rintro ⟨hrow, hcol⟩
    constructor
    · intro r2 hr2 pr hpr hlen
      have := hrow r2 (List.mem_range.mpr hr2)
      rw [all_filterMap_if, List.all_eq_true] at this
      have := this pr hpr
      rw [if_pos hlen] at this
      exact this
    · intro j hj pr hpr hlen
      have := hcol j (List.mem_range.mpr hj)
      rw [all_filterMap_if, List.all_eq_true] at this
      have := this pr hpr
      rw [if_pos hlen] at this
      exact this
  · rintro ⟨hrow, hcol⟩
    constructor
    · intro r2 hr2
      rw [all_filterMap_if, List.all_eq_true]
      intro pr hpr
      by_cases hlen : 1 < pr.1.length
      · rw [if_pos hlen]
        exact hrow r2 (List.mem_range.mp hr2) pr hpr hlen
      · rw [if_neg hlen]
    · intro j hj
      rw [all_filterMap_if, List.all_eq_true]
      intro pr hpr
      by_cases hlen : 1 < pr.1.length
      · rw [if_pos hlen]
        exact hcol j (List.mem_range.mp hj) pr hpr hlen
      · rw [if_neg hlen]

theorem get?_map_range {α : Type} (f : Nat → α) (k n : Nat) :
    ((List.range k).map f).get? n = if n < k then some (f n) else none := by
  rw [List.get?_map]
  by_cases h : n < k
  · rw [List.get?_range h, if_pos h, Option.map_some']
  · rw [if_neg h, List.get?_eq_none.mpr (by rw [List.length_range]; omega)]
    rfl

theorem get?_eq_some_getBang (l : List Char) : ∀ n, n < l.length → l.get? n = some (l.get! n) := by
  induction l with
  | nil => intro n h; simp at h
  | cons ch rest ih =>
    intro n h
    cases n with
    | zero => rfl
    | succ n =>
      rw [List.get?_cons_succ, List.get!_cons_succ]
      exact ih n (by simpa using Nat.lt_of_succ_lt_succ h)

theorem getBang_mem (l : List Char) (n : Nat) (h : n < l.length) : l.get! n ∈ l := by
  have := get?_eq_some_getBang l n h
  exact List.get?_mem this

theorem rowLine_length (G : Grid) (r : Nat) : (rowLine G r).length = G.width := by
  unfold rowLine
  rw [List.length_map, List.length_range]

theorem colLine_length (G : Grid) (c : Nat) : (colLine G c).length = G.height := by
  unfold colLine
  rw [List.length_map, List.length_range]

theorem rowLine_get? (G : Grid) (r n : Nat) :
    (rowLine G r).get? n = if n < G.width then some (cellD G r n) else none :=
  get?_map_range _ _ _

theorem colLine_get? (G : Grid) (c n : Nat) :
    (colLine G c).get? n = if n < G.height then some (cellD G n c) else none :=
  get?_map_range _ _ _

theorem conflictFreeAcross_iff (g : Grid) (r : Nat) (w : List Char) : ∀ c,
    conflictFreeAcross g r w c = true ↔
      ∀ i, i < w.length → cellD g r (c + i) = '.' ∨ cellD g r (c + i) = w.get! i := by
  induction w with
  | nil =>
    intro c
    constructor
    · intro _ i hi
      simp at hi
    · intro _
      rfl
  | cons ch rest ih =>
    intro c
    have hstep : conflictFreeAcross g r (ch :: rest) c =
        ((decide (cellD g r c = '.') || decide (cellD g r c = ch)) &&
          conflictFreeAcross g r rest (c + 1)) := rfl
    rw [hstep, Bool.and_eq_true, Bool.or_eq_true, decide_eq_true_eq, decide_eq_true_eq, ih]
    constructor
    · rintro ⟨hhd, htl⟩ i hi
      cases i with
      | zero =>
        rw [Nat.add_zero, List.get!_cons_zero]
        exact hhd
      | succ i =>
        rw [List.get!_cons_succ]
        have : c + (i + 1) = (c + 1) + i := by omega
        rw [this]
        exact htl i (by simpa using Nat.lt_of_succ_lt_succ hi)
    · intro h
      constructor
      · have := h 0 (by simp)
        rw [Nat.add_zero, List.get!_cons_zero] at this
        exact this
      · intro i hi
        have := h (i + 1) (by simpa using Nat.succ_lt_succ hi)
        rw [List.get!_cons_succ] at this
        have harith : c + (i + 1) = (c + 1) + i := by omega
        rw [harith] at this
        exact this

theorem conflictFreeDown_iff (g : Grid) (c : Nat) (w : List Char) : ∀ r,
    conflictFreeDown g c w r = true ↔
      ∀ i, i < w.length → cellD g (r + i) c = '.' ∨ cellD g (r + i) c = w.get! i := by
  induction w with
  | nil =>
    intro r
    constructor
    · intro _ i hi
      simp at hi
    · intro _
      rfl
  | cons ch rest ih =>
    intro r
    have hstep : conflictFreeDown g c (ch :: rest) r =
        ((decide (cellD g r c = '.') || decide (cellD g r c = ch)) &&
          conflictFreeDown g c rest (r + 1)) := rfl
    rw [hstep, Bool.and_eq_true, Bool.or_eq_true, decide_eq_true_eq, decide_eq_true_eq, ih]
    constructor
    · rintro ⟨hhd, htl⟩ i hi
      cases i with
      | zero =>
        rw [Nat.add_zero, List.get!_cons_zero]
        exact hhd
      | succ i =>
        rw [List.get!_cons_succ]
        have : r + (i + 1) = (r + 1) + i := by omega
        rw [this]
        exact htl i (by simpa using Nat.lt_of_succ_lt_succ hi)
    · intro h
      constructor
      · have := h 0 (by simp)
        rw [Nat.add_zero, List.get!_cons_zero] at this
        exact this
      · intro i hi
        have := h (i + 1) (by simpa using Nat.succ_lt_succ hi)
        rw [List.get!_cons_succ] at this
        have harith : r + (i + 1) = (r + 1) + i := by omega
        rw [harith] at this
        exact this

theorem geometricOkAcross_spec (g : Grid) (w : List Char) (r c : Nat)
    (h : geometricOkAcross g w r c = true) :
    c + w.length ≤ g.width ∧
    (∀ i, i < w.length → cellD g r (c + i) = '.' ∨ cellD g r (c + i) = w.get! i) ∧
    (c = 0 ∨ cellD g r (c - 1) = '.') ∧
    (c + w.length < g.width → cellD g r (c + w.length) = '.') := by
  unfold geometricOkAcross at h
  rw [Bool.and_eq_true, Bool.and_eq_true, Bool.and_eq_true] at h
  obtain ⟨⟨⟨h1, h2⟩, h3⟩, h4⟩ := h
  rw [decide_eq_true_eq] at h1
  rw [Bool.or_eq_true, decide_eq_true_eq, decide_eq_true_eq] at h3
  rw [Bool.or_eq_true, decide_eq_true_eq, decide_eq_true_eq] at h4
  refine ⟨h1, (conflictFreeAcross_iff g r w c).mp h2, h3, ?_⟩
  intro hlt
  rcases h4 with h4 | h4
  · exact absurd hlt h4
  · exact h4

theorem geometricOkDown_spec (g : Grid) (w : List Char) (r c : Nat)
    (h : geometricOkDown g w r c = true) :
    r + w.length ≤ g.height ∧
    (∀ i, i < w.length → cellD g (r + i) c = '.' ∨ cellD g (r + i) c = w.get! i) ∧
    (r = 0 ∨ cellD g (r - 1) c = '.') ∧
    (r + w.length < g.height → cellD g (r + w.length) c = '.') := by
  unfold geometricOkDown at h
  rw [Bool.and_eq_true, Bool.and_eq_true, Bool.and_eq_true] at h
  obtain ⟨⟨⟨h1, h2⟩, h3⟩, h4⟩ := h
  rw [decide_eq_true_eq] at h1
  rw [Bool.or_eq_true, decide_eq_true_eq, decide_eq_true_eq] at h3
  rw [Bool.or_eq_true, decide_eq_true_eq, decide_eq_true_eq] at h4
  refine ⟨h1, (conflictFreeDown_iff g c w r).mp h2, h3, ?_⟩
  intro hlt
  rcases h4 with h4 | h4
  · exact absurd hlt h4
  · exact h4

theorem cellD_placeAcross (g : Grid) (hwf : WellFormed g) (w : List Char) (r c : Nat)
    (hr : r < g.height) (hc : c + w.length ≤ g.width) (cl : String) (q : Int)
    (r' c' : Nat) :
    cellD (placeWord g w r c .across cl q) r' c' =
      if r' = r ∧ c ≤ c' ∧ c' < c + w.length then w.get! (c' - c) else cellD g r' c' := by
  show (mcell? (placeAcross g.cells r c w) r' c').getD '.' = _
  rw [mcell?_placeAcross]
  by_cases h : r = r' ∧ c ≤ c' ∧ c' < c + w.length
  · rw [if_pos h, if_pos ⟨h.1.symm, h.2⟩]
    have hsome : mcell? g.cells r' c' = some (cellD g r' c') :=
      cell?_eq_some_cellD g hwf (h.1 ▸ hr) (by omega)
    rw [hsome]
    rfl
  · rw [if_neg h, if_neg (fun h' => h ⟨h'.1.symm, h'.2⟩)]
    rfl

theorem cellD_placeDown (g : Grid) (hwf : WellFormed g) (w : List Char) (r c : Nat)
    (hc : c < g.width) (hrl : r + w.length ≤ g.height) (cl : String) (q : Int)
    (r' c' : Nat) :
    cellD (placeWord g w r c .down cl q) r' c' =
      if c' = c ∧ r ≤ r' ∧ r' < r + w.length then w.get! (r' - r) else cellD g r' c' := by
  show (mcell? (placeDown g.cells r c w) r' c').getD '.' = _
  rw [mcell?_placeDown]
  by_cases h : c = c' ∧ r ≤ r' ∧ r' < r + w.length
  · rw [if_pos h, if_pos ⟨h.1.symm, h.2⟩]
    have hsome : mcell? g.cells r' c' = some (cellD g r' c') :=
      cell?_eq_some_cellD g hwf (by omega) (h.1 ▸ hc)
    rw [hsome]
    rfl
  · rw [if_neg h, if_neg (fun h' => h ⟨h'.1.symm, h'.2⟩)]
    rfl

theorem mem_getAll_row (G : Grid) (r2 : Nat) (hr2 : r2 < G.height)
    (pr : List Char × Nat) (hpr : pr ∈ runsGo (rowLine G r2) 0 none)
    (hlen : 1 < pr.1.length) :
    (pr.1, r2, pr.2, Direction.across) ∈ getAllLetterSequences G := by
  unfold getAllLetterSequences
  apply List.mem_append_left
  rw [List.mem_flatMap]
  refine ⟨r2, List.mem_range.mpr hr2, ?_⟩
  rw [List.mem_filterMap]
  exact ⟨pr, hpr, by rw [if_pos hlen]⟩

theorem mem_getAll_col (G : Grid) (j : Nat) (hj : j < G.width)
    (pr : List Char × Nat) (hpr : pr ∈ runsGo (colLine G j) 0 none)
    (hlen : 1 < pr.1.length) :
    (pr.1, pr.2, j, Direction.down) ∈ getAllLetterSequences G := by
  unfold getAllLetterSequences
  apply List.mem_append_right
  rw [List.mem_flatMap]
  refine ⟨j, List.mem_range.mpr hj, ?_⟩
  rw [List.mem_filterMap]
  exact ⟨pr, hpr, by rw [if_pos hlen]⟩

theorem isPlacedTuple_append_one (ws : List Word) (W0 : Word) (s : List Char)
    (r c : Nat) (d : Direction) :
    isPlacedTuple (ws ++ [W0]) s r c d =
      (isPlacedTuple ws s r c d ||
        decide (W0.text = s ∧ W0.row = r ∧ W0.col = c ∧ W0.direction = d)) := by
  unfold isPlacedTuple
  rw [List.any_append]
  congr 1
  simp [List.any_cons]

theorem seqOk_append_mono (ws : List Word) (W0 : Word) (ans : List (List Char))
    (t : List Char × Nat × Nat × Direction) (h : seqOk ws ans t = true) :
    seqOk (ws ++ [W0]) ans t = true := by
  unfold seqOk at h ⊢
  by_cases hlen : 3 ≤ t.1.length
  · rw [if_pos hlen] at h ⊢
    rw [Bool.or_eq_true] at h ⊢
    rcases h with h | h
    · left
      rw [isPlacedTuple_append_one, h]
      rfl
    · right
      exact h
  · rw [if_neg hlen]

theorem isExistingWord_eq_isPlacedTuple (ws : List Word) (d : Direction)
    (r c : Nat) (s : List Char) :
    isExistingWord ws d r c s = isPlacedTuple ws s r c d := by
  unfold isExistingWord isPlacedTuple
  congr 1
  funext wd
  rw [decide_eq_decide]
  tauto

theorem runsGo_take_subset (l : List Char) (c : Nat)
    (hc : c = 0 ∨ l.get? (c - 1) = some '.') :
    ∀ pr ∈ runsGo (l.take c) 0 none, pr ∈ runsGo l 0 none := by
  rcases hc with hc | hc
  · subst hc
    intro pr hpr
    rw [List.take_zero] at hpr
    cases hpr
  · intro pr hpr
    have hc1lt : c - 1 < l.length := (List.get?_eq_some.mp hc).1
    have hcpos : 0 < c := by
      by_contra h
      push_neg at h
      interval_cases c
      have := hc
      have h0 : (0 : Nat) - 1 = 0 := rfl
      rw [h0] at this
      -- c = 0 case was already excluded by the disjunction shape; with c = 0 the
      -- position 0 cell is '.', which is consistent: the take is empty anyway
      rw [List.take_zero] at hpr
      cases hpr
    have htake : l.take c = l.take (c - 1) ++ ['.'] := by
      have hcc : c = (c - 1) + 1 := by omega
      conv_lhs => rw [hcc]
      rw [List.take_succ]
      have hg : l.get? (c - 1) = l[c - 1]? := List.get?_eq_getElem? l (c - 1)
      rw [hg] at hc
      rw [hc]
      rfl
    have hassoc : l = l.take (c - 1) ++ '.' :: l.drop c := by
      calc l = l.take c ++ l.drop c := (List.take_append_drop c l).symm
        _ = (l.take (c - 1) ++ ['.']) ++ l.drop c := by rw [htake]
        _ = l.take (c - 1) ++ '.' :: l.drop c := by
            rw [List.append_assoc, List.singleton_append]
    rw [hassoc]
    rw [runsGo_append_dot]
    apply List.mem_append_left
    rw [htake, runsGo_snoc_dot] at hpr
    exact hpr

theorem runsGo_drop_subset (l : List Char) (d : Nat)
    (hd : l.length ≤ d ∨ l.get? d = some '.') :
    ∀ pr ∈ runsGo (l.drop d) d none, pr ∈ runsGo l 0 none := by
  rcases hd with hd | hd
  · intro pr hpr
    rw [List.drop_eq_nil_of_le hd] at hpr
    cases hpr
  · intro pr hpr
    have hdlt : d < l.length := (List.get?_eq_some.mp hd).1
    have hcell : l[d] = '.' := by
      have hg : l.get? d = l[d]? := List.get?_eq_getElem? l d
      have hg2 : l[d]? = some l[d] := List.getElem?_eq_getElem hdlt
      rw [hg, hg2] at hd
      exact Option.some_inj.mp hd
    have hdecomp : l = l.take d ++ '.' :: l.drop (d + 1) := by
      calc l = l.take d ++ l.drop d := (List.take_append_drop d l).symm
        _ = l.take d ++ '.' :: l.drop (d + 1) := by
            rw [List.drop_eq_getElem_cons hdlt, hcell]
    rw [hdecomp]
    rw [runsGo_append_dot]
    apply List.mem_append_right
    have hlentake : (l.take d).length = d := by
      rw [List.length_take]
      omega
    rw [hlentake]
    have harith : 0 + d + 1 = d + 1 := by omega
    rw [harith]
    rw [List.drop_eq_getElem_cons hdlt, hcell, runsGo_dot_head] at hpr
    exact hpr

/- ## C3: the optimized corpus check versus the naive simulate-and-rescan -/

/-- The optimized rule-4 corpus-consistency check exactly as
`is_valid_placement` performs it (over the sequences the placement creates
at its touched cells). -/
def optimizedCorpusCheck (g : Grid) (w : List Char) (r c : Nat) (dir : Direction)
    (ans : List (List Char)) : Bool :=
  (getNewSequencesFromPlacement g w r c dir).all (seqOk g.words ans)

theorem isValidPlacement_eq_geo_and_opt (g : Grid) (w : List Char) (r c : Nat)
    (dir : Direction) (ans : List (List Char)) :
    isValidPlacement g w r c dir (some ans) =
      ((match dir with
        | .across => geometricOkAcross g w r c
        | .down => geometricOkDown g w r c) && optimizedCorpusCheck g w r c dir ans) := by
  unfold isValidPlacement optimizedCorpusCheck
  cases dir with
  | across =>
    by_cases h : geometricOkAcross g w r c = true
    · simp [h]
    · rw [Bool.not_eq_true] at h
      simp [h]
  | down =>
    by_cases h : geometricOkDown g w r c = true
    · simp [h]
    · rw [Bool.not_eq_true] at h
      simp [h]

/-- Modelled from the spec (§4.2 rule 4 and claim C3's naive approach): the
naive check simulates the placement with `place_word` on a copy of the
grid, rescans all letter sequences grid-wide, and requires every incidental
sequence of length ≥ 3 — one not matching any placed word of the simulated
grid, the newly placed word included — to be in the eligible-answer set.
(`seqOk` is exactly that per-sequence test.) -/
def naiveCorpusCheck (g : Grid) (w : List Char) (r c : Nat) (dir : Direction)
    (ans : List (List Char)) : Bool :=
  (getAllLetterSequences (placeWord g w r c dir "" 2)).all
    (seqOk (placeWord g w r c dir "" 2).words ans)

/-- The per-letter condition the optimized ACROSS check enforces on the
vertical run the letter would create in its column `j`. -/
def colSeqCond (g : Grid) (r : Nat) (ans : List (List Char)) (j : Nat)
    (ch : Char) : Prop :=
  2 ≤ scanDown (fun t => cellD g t j) g.height r - scanUp (fun t => cellD g t j) r + 1 →
  isExistingWord g.words .down (scanUp (fun t => cellD g t j) r) j
      (buildSeq (fun t => cellD g t j) (scanUp (fun t => cellD g t j) r)
        (scanDown (fun t => cellD g t j) g.height r) r ch) = false →
  seqOk g.words ans
    (buildSeq (fun t => cellD g t j) (scanUp (fun t => cellD g t j) r)
      (scanDown (fun t => cellD g t j) g.height r) r ch,
     scanUp (fun t => cellD g t j) r, j, Direction.down) = true

/-- The per-letter condition the optimized DOWN check enforces on the
horizontal run the letter would create in its row `i`. -/
def rowSeqCond (g : Grid) (c : Nat) (ans : List (List Char)) (i : Nat)
    (ch : Char) : Prop :=
  2 ≤ scanDown (fun t => cellD g i t) g.width c - scanUp (fun t => cellD g i t) c + 1 →
  isExistingWord g.words .across i (scanUp (fun t => cellD g i t) c)
      (buildSeq (fun t => cellD g i t) (scanUp (fun t => cellD g i t) c)
        (scanDown (fun t => cellD g i t) g.width c) c ch) = false →
  seqOk g.words ans
    (buildSeq (fun t => cellD g i t) (scanUp (fun t => cellD g i t) c)
      (scanDown (fun t => cellD g i t) g.width c) c ch,
     i, scanUp (fun t => cellD g i t) c, Direction.across) = true

theorem forall_lt_succ_shift {P : Nat → Char → Prop} (c0 : Nat) (ch : Char)
    (rest : List Char) :
    (∀ i, i < (ch :: rest).length → P (c0 + i) ((ch :: rest).get! i)) ↔
      (P c0 ch ∧ ∀ i, i < rest.length → P ((c0 + 1) + i) (rest.get! i)) := by
  constructor
  · intro h
    refine ⟨by simpa using h 0 (by simp), ?_⟩
    intro i hi
    have hh := h (i + 1) (by simp only [List.length_cons]; omega)
    rw [List.get!_cons_succ] at hh
    have harith : c0 + (i + 1) = (c0 + 1) + i := by omega
    rw [harith] at hh
    exact hh
  · rintro ⟨hhd, htl⟩ i hi
    cases i with
    | zero => simpa using hhd
    | succ i =>
      rw [List.get!_cons_succ]
      have harith : c0 + (i + 1) = (c0 + 1) + i := by omega
      rw [harith]
      exact htl i (by simp only [List.length_cons] at hi; omega)

theorem newSeqsAcross_all_iff (g : Grid) (r : Nat) (ans : List (List Char))
    (w : List Char) : ∀ c0,
    ((newSeqsAcross g r w c0).all (seqOk g.words ans) = true ↔
      ∀ i, i < w.length → colSeqCond g r ans (c0 + i) (w.get! i)) := by
  induction w with
  | nil =>
    intro c0
    constructor
    · intro _ i hi
      simp at hi
    · intro _
      rfl
  | cons ch rest ih =>
    intro c0
    have hstep : newSeqsAcross g r (ch :: rest) c0 =
        (if 2 ≤ scanDown (fun t => cellD g t c0) g.height r -
              scanUp (fun t => cellD g t c0) r + 1 then
          (if isExistingWord g.words .down (scanUp (fun t => cellD g t c0) r) c0
              (buildSeq (fun t => cellD g t c0) (scanUp (fun t => cellD g t c0) r)
                (scanDown (fun t => cellD g t c0) g.height r) r ch)
           then newSeqsAcross g r rest (c0 + 1)
           else (buildSeq (fun t => cellD g t c0) (scanUp (fun t => cellD g t c0) r)
                (scanDown (fun t => cellD g t c0) g.height r) r ch,
              scanUp (fun t => cellD g t c0) r, c0, .down) ::
              newSeqsAcross g r rest (c0 + 1))
         else newSeqsAcross g r rest (c0 + 1)) := rfl
    rw [hstep, forall_lt_succ_shift (P := fun j ch => colSeqCond g r ans j ch), ← ih (c0 + 1)]
    by_cases h2 : 2 ≤ scanDown (fun t => cellD g t c0) g.height r -
        scanUp (fun t => cellD g t c0) r + 1
    · rw [if_pos h2]
      by_cases hex : isExistingWord g.words .down (scanUp (fun t => cellD g t c0) r) c0
          (buildSeq (fun t => cellD g t c0) (scanUp (fun t => cellD g t c0) r)
            (scanDown (fun t => cellD g t c0) g.height r) r ch) = true
      · rw [if_pos hex]
        have hhead : colSeqCond g r ans c0 ch := by
          intro _ hfalse
          rw [hex] at hfalse
          cases hfalse
        constructor
        · intro h
          exact ⟨hhead, h⟩
        · intro h
          exact h.2
      · rw [if_neg hex, List.all_cons, Bool.and_eq_true]
        have hexf : isExistingWord g.words .down (scanUp (fun t => cellD g t c0) r) c0
            (buildSeq (fun t => cellD g t c0) (scanUp (fun t => cellD g t c0) r)
              (scanDown (fun t => cellD g t c0) g.height r) r ch) = false := by
          rw [← Bool.not_eq_true]
          exact hex
        constructor
        · rintro ⟨hh, ht⟩
          exact ⟨fun _ _ => hh, ht⟩
        · rintro ⟨hh, ht⟩
          exact ⟨hh h2 hexf, ht⟩
    · rw [if_neg h2]
      have hhead : colSeqCond g r ans c0 ch := fun hc _ => absurd hc h2
      constructor
      · intro h
        exact ⟨hhead, h⟩
      · intro h
        exact h.2

theorem newSeqsDown_all_iff (g : Grid) (c : Nat) (ans : List (List Char))
    (w : List Char) : ∀ r0,
    ((newSeqsDown g c w r0).all (seqOk g.words ans) = true ↔
      ∀ i, i < w.length → rowSeqCond g c ans (r0 + i) (w.get! i)) := by
  induction w with
  | nil =>
    intro r0
    constructor
    · intro _ i hi
      simp at hi
    · intro _
      rfl
  | cons ch rest ih =>
    intro r0
    have hstep : newSeqsDown g c (ch :: rest) r0 =
        (if 2 ≤ scanDown (fun t => cellD g r0 t) g.width c -
              scanUp (fun t => cellD g r0 t) c + 1 then
          (if isExistingWord g.words .across r0 (scanUp (fun t => cellD g r0 t) c)
              (buildSeq (fun t => cellD g r0 t) (scanUp (fun t => cellD g r0 t) c)
                (scanDown (fun t => cellD g r0 t) g.width c) c ch)
           then newSeqsDown g c rest (r0 + 1)
           else (buildSeq (fun t => cellD g r0 t) (scanUp (fun t => cellD g r0 t) c)
                (scanDown (fun t => cellD g r0 t) g.width c) c ch,
              r0, scanUp (fun t => cellD g r0 t) c, .across) ::
              newSeqsDown g c rest (r0 + 1))
         else newSeqsDown g c rest (r0 + 1)) := rfl
    rw [hstep, forall_lt_succ_shift (P := fun i ch => rowSeqCond g c ans i ch), ← ih (r0 + 1)]
    by_cases h2 : 2 ≤ scanDown (fun t => cellD g r0 t) g.width c -
        scanUp (fun t => cellD g r0 t) c + 1
    · rw [if_pos h2]
      by_cases hex : isExistingWord g.words .across r0 (scanUp (fun t => cellD g r0 t) c)
          (buildSeq (fun t => cellD g r0 t) (scanUp (fun t => cellD g r0 t) c)
            (scanDown (fun t => cellD g r0 t) g.width c) c ch) = true
      · rw [if_pos hex]
        have hhead : rowSeqCond g c ans r0 ch := by
          intro _ hfalse
          rw [hex] at hfalse
          cases hfalse
        constructor
        · intro h
          exact ⟨hhead, h⟩
        · intro h
          exact h.2
      · rw [if_neg hex, List.all_cons, Bool.and_eq_true]
        have hexf : isExistingWord g.words .across r0 (scanUp (fun t => cellD g r0 t) c)
            (buildSeq (fun t => cellD g r0 t) (scanUp (fun t => cellD g r0 t) c)
              (scanDown (fun t => cellD g r0 t) g.width c) c ch) = false := by
          rw [← Bool.not_eq_true]
          exact hex
        constructor
        · rintro ⟨hh, ht⟩
          exact ⟨fun _ _ => hh, ht⟩
        · rintro ⟨hh, ht⟩
          exact ⟨hh h2 hexf, ht⟩
    · rw [if_neg h2]
      have hhead : rowSeqCond g c ans r0 ch := fun hc _ => absurd hc h2
      constructor
      · intro h
        exact ⟨hhead, h⟩
      · intro h
        exact h.2

theorem placeWord_width (g : Grid) (w : List Char) (r c : Nat) (dir : Direction)
    (cl : String) (q : Int) : (placeWord g w r c dir cl q).width = g.width := rfl

theorem placeWord_height (g : Grid) (w : List Char) (r c : Nat) (dir : Direction)
    (cl : String) (q : Int) : (placeWord g w r c dir cl q).height = g.height := rfl

theorem placeWord_words_eq (g : Grid) (w : List Char) (r c : Nat) (dir : Direction)
    (cl : String) (q : Int) :
    (placeWord g w r c dir cl q).words = g.words ++ [⟨w, r, c, dir, cl, q⟩] := rfl

theorem take_eq_of_get? {α : Type} (l1 l2 : List α) (k : Nat)
    (hlen : l1.length = l2.length) (h : ∀ n, n < k → l1.get? n = l2.get? n) :
    l1.take k = l2.take k := by
  apply List.ext_get?
  intro n
  by_cases hn : n < k
  · rw [List.get?_take hn, List.get?_take hn, h n hn]
  · have e1 : (l1.take k).get? n = none :=
      List.get?_eq_none.mpr (by rw [List.length_take]; omega)
    have e2 : (l2.take k).get? n = none :=
      List.get?_eq_none.mpr (by rw [List.length_take]; omega)
    rw [e1, e2]

theorem drop_eq_of_get? {α : Type} (l1 l2 : List α) (k : Nat)
    (h : ∀ n, k ≤ n → l1.get? n = l2.get? n) : l1.drop k = l2.drop k := by
  apply List.ext_get?
  intro n
  rw [List.get?_drop, List.get?_drop]
  exact h (k + n) (by omega)

theorem drop_take_eq_of_get? {α : Type} (l : List α) (s k : Nat) (w2 : List α)
    (hlen : w2.length = k) (hk : s + k ≤ l.length)
    (h : ∀ m, m < k → l.get? (s + m) = w2.get? m) :
    (l.drop s).take k = w2 := by
  apply List.ext_get?
  intro n
  by_cases hn : n < k
  · rw [List.get?_take hn, List.get?_drop, h n hn]
  · have e1 : ((l.drop s).take k).get? n = none :=
      List.get?_eq_none.mpr (by rw [List.length_take, List.length_drop]; omega)
    have e2 : w2.get? n = none := List.get?_eq_none.mpr (by omega)
    rw [e1, e2]

theorem buildSeq_length (read : Nat → Char) (start stop pos : Nat) (ch : Char) :
    (buildSeq read start stop pos ch).length = stop + 1 - start := by
  unfold buildSeq
  rw [List.length_map, List.length_range']

theorem buildSeq_get? (read : Nat → Char) (start stop pos : Nat) (ch : Char)
    (m : Nat) (hm : m < stop + 1 - start) :
    (buildSeq read start stop pos ch).get? m =
      some (if start + m = pos then ch else read (start + m)) := by
  unfold buildSeq
  rw [List.get?_map, List.get?_range' start 1 hm]
  have h1 : start + 1 * m = start + m := by omega
  rw [h1]
  rfl

theorem rowLine_congr (G G2 : Grid) (r r2 : Nat) (hW : G2.width = G.width)
    (h : ∀ j, j < G.width → cellD G2 r2 j = cellD G r j) :
    rowLine G2 r2 = rowLine G r := by
  unfold rowLine
  rw [hW]
  exact List.map_congr_left (fun j hj => h j (List.mem_range.mp hj))

theorem colLine_congr (G G2 : Grid) (c c2 : Nat) (hH : G2.height = G.height)
    (h : ∀ t, t < G.height → cellD G2 t c2 = cellD G t c) :
    colLine G2 c2 = colLine G c := by
  unfold colLine
  rw [hH]
  exact List.map_congr_left (fun t ht => h t (List.mem_range.mp ht))

theorem seqOk_of_run_row (g : Grid) (ans : List (List Char)) (W0 : Word)
    (hclean : ∀ t ∈ getAllLetterSequences g, seqOk g.words ans t = true)
    (r2 : Nat) (hr2 : r2 < g.height) (pr : List Char × Nat)
    (hpr : pr ∈ runsGo (rowLine g r2) 0 none) (hlen : 1 < pr.1.length) :
    seqOk (g.words ++ [W0]) ans (pr.1, r2, pr.2, .across) = true :=
  seqOk_append_mono _ _ _ _ (hclean _ (mem_getAll_row g r2 hr2 pr hpr hlen))

theorem seqOk_of_run_col (g : Grid) (ans : List (List Char)) (W0 : Word)
    (hclean : ∀ t ∈ getAllLetterSequences g, seqOk g.words ans t = true)
    (j : Nat) (hj : j < g.width) (pr : List Char × Nat)
    (hpr : pr ∈ runsGo (colLine g j) 0 none) (hlen : 1 < pr.1.length) :
    seqOk (g.words ++ [W0]) ans (pr.1, pr.2, j, .down) = true :=
  seqOk_append_mono _ _ _ _ (hclean _ (mem_getAll_col g j hj pr hpr hlen))

theorem cellD_placeAcross_span (g : Grid) (hwf : WellFormed g) (w : List Char)
    (r c : Nat) (hr : r < g.height) (hbound : c + w.length ≤ g.width)
    (i : Nat) (hi : i < w.length) (t : Nat) :
    cellD (placeWord g w r c .across "" 2) t (c + i) =
      if t = r then w.get! i else cellD g t (c + i) := by
  rw [cellD_placeAcross g hwf w r c hr hbound "" 2 t (c + i)]
  by_cases ht : t = r
  · rw [if_pos ⟨ht, by omega, by omega⟩, if_pos ht]
    congr 1
    omega
  · rw [if_neg (fun hh => ht hh.1), if_neg ht]

/-- The column scan of the simulated ACROSS placement decomposes at the
vertical run through the placed letter in column `c + i`: runs of the cells
above the run, the run the optimized check builds, then runs of the cells
below — the outer parts read from the original grid. -/
theorem colLine_placeAcross_split (g : Grid) (hwf : WellFormed g) (w : List Char)
    (r c : Nat) (hr : r < g.height) (hbound : c + w.length ≤ g.width)
    (i : Nat) (hi : i < w.length) (hchd : w.get! i ≠ '.') :
    runsGo (colLine (placeWord g w r c .across "" 2) (c + i)) 0 none =
      runsGo ((colLine g (c + i)).take (scanUp (fun t => cellD g t (c + i)) r)) 0 none ++
        ((buildSeq (fun t => cellD g t (c + i)) (scanUp (fun t => cellD g t (c + i)) r)
            (scanDown (fun t => cellD g t (c + i)) g.height r) r (w.get! i),
          scanUp (fun t => cellD g t (c + i)) r) ::
          runsGo ((colLine g (c + i)).drop
              (scanDown (fun t => cellD g t (c + i)) g.height r + 1))
            (scanDown (fun t => cellD g t (c + i)) g.height r + 1) none) := by
  obtain ⟨hs_le, hs_run, hs_bd⟩ := scanUp_spec (fun t => cellD g t (c + i)) r
  obtain ⟨he_ge, he_le, he_run, he_bd⟩ :=
    scanDown_spec (fun t => cellD g t (c + i)) g.height r hr
  have hH : (placeWord g w r c .across "" 2).height = g.height := rfl
  have hcell : ∀ t, cellD (placeWord g w r c .across "" 2) t (c + i) =
      if t = r then w.get! i else cellD g t (c + i) :=
    cellD_placeAcross_span g hwf w r c hr hbound i hi
  have hlen_col : (colLine (placeWord g w r c .across "" 2) (c + i)).length = g.height := by
    rw [colLine_length, hH]
  have hget : ∀ t, t < g.height →
      (colLine (placeWord g w r c .across "" 2) (c + i)).get? t =
        some (cellD (placeWord g w r c .across "" 2) t (c + i)) := by
    intro t ht
    rw [colLine_get?, hH, if_pos ht]
  have hsplit := runsGo_split (colLine (placeWord g w r c .across "" 2) (c + i))
    (scanUp (fun t => cellD g t (c + i)) r)
    (scanDown (fun t => cellD g t (c + i)) g.height r)
    (le_trans hs_le he_ge)
    (by rw [hlen_col]; omega)
    ?_ ?_ ?_
  · have htake : (colLine (placeWord g w r c .across "" 2) (c + i)).take
        (scanUp (fun t => cellD g t (c + i)) r) =
        (colLine g (c + i)).take (scanUp (fun t => cellD g t (c + i)) r) := by
      apply take_eq_of_get?
      · rw [hlen_col, colLine_length]
      · intro n hn
        rw [hget n (by omega), colLine_get?, if_pos (by omega : n < g.height), hcell n,
          if_neg (by omega : ¬ n = r)]
    have hmid : ((colLine (placeWord g w r c .across "" 2) (c + i)).drop
        (scanUp (fun t => cellD g t (c + i)) r)).take
          (scanDown (fun t => cellD g t (c + i)) g.height r + 1 -
            scanUp (fun t => cellD g t (c + i)) r) =
        buildSeq (fun t => cellD g t (c + i)) (scanUp (fun t => cellD g t (c + i)) r)
          (scanDown (fun t => cellD g t (c + i)) g.height r) r (w.get! i) := by
      apply drop_take_eq_of_get?
      · rw [buildSeq_length]
      · rw [hlen_col]
        omega
      · intro m hm
        rw [hget _ (by omega), hcell _,
          buildSeq_get? (fun t => cellD g t (c + i)) _ _ r (w.get! i) m hm]
    have hdrop : (colLine (placeWord g w r c .across "" 2) (c + i)).drop
        (scanDown (fun t => cellD g t (c + i)) g.height r + 1) =
        (colLine g (c + i)).drop
          (scanDown (fun t => cellD g t (c + i)) g.height r + 1) := by
      apply drop_eq_of_get?
      intro n hn
      by_cases hnh : n < g.height
      · rw [hget n hnh, colLine_get?, if_pos hnh, hcell n,
          if_neg (by omega : ¬ n = r)]
      · have e1 : (colLine (placeWord g w r c .across "" 2) (c + i)).get? n = none :=
          List.get?_eq_none.mpr (by rw [hlen_col]; omega)
        have e2 : (colLine g (c + i)).get? n = none :=
          List.get?_eq_none.mpr (by rw [colLine_length]; omega)
        rw [e1, e2]
    rw [hsplit, htake, hmid, hdrop]
  · by_cases hs0 : scanUp (fun t => cellD g t (c + i)) r = 0
    · exact Or.inl hs0
    · right
      have hs1 : 1 ≤ scanUp (fun t => cellD g t (c + i)) r := by omega
      rw [hget _ (by omega), hcell _, if_neg (by omega :
        ¬ scanUp (fun t => cellD g t (c + i)) r - 1 = r)]
      rcases hs_bd with h0 | hd
      · exact absurd h0 hs0
      · rw [hd]
  · rcases he_bd with h0 | hd
    · left
      rw [hlen_col]
      omega
    · by_cases hE : scanDown (fun t => cellD g t (c + i)) g.height r + 1 < g.height
      · right
        rw [hget _ hE, hcell _, if_neg (by omega :
          ¬ scanDown (fun t => cellD g t (c + i)) g.height r + 1 = r), hd]
      · left
        rw [hlen_col]
        omega
  · intro t ht1 ht2
    rw [hget t (by omega), hcell t]
    by_cases htr : t = r
    · rw [if_pos htr]
      intro hcontra
      exact hchd (Option.some_inj.mp hcontra)
    · rw [if_neg htr]
      intro hcontra
      rcases Nat.lt_or_ge t r with hlt | hge
      · exact hs_run t ht1 hlt (Option.some_inj.mp hcontra)
      · exact he_run t (by omega) ht2 (Option.some_inj.mp hcontra)

/-- The row scan of the simulated ACROSS placement decomposes at the placed
word itself: runs of the cells left of the word, the word at column `c`,
then runs of the cells right of it — the outer parts read from the original
grid. -/
theorem rowLine_placeAcross_split (g : Grid) (hwf : WellFormed g) (w : List Char)
    (hwne : w ≠ []) (hdot : ∀ ch ∈ w, ch ≠ '.') (r c : Nat) (hr : r < g.height)
    (hbound : c + w.length ≤ g.width)
    (hleftb : c = 0 ∨ cellD g r (c - 1) = '.')
    (hrightb : c + w.length < g.width → cellD g r (c + w.length) = '.') :
    runsGo (rowLine (placeWord g w r c .across "" 2) r) 0 none =
      runsGo ((rowLine g r).take c) 0 none ++
        ((w, c) :: runsGo ((rowLine g r).drop (c + w.length)) (c + w.length) none) := by
  have hn : 0 < w.length := List.length_pos.mpr hwne
  have hW : (placeWord g w r c .across "" 2).width = g.width := rfl
  have hcell : ∀ j, cellD (placeWord g w r c .across "" 2) r j =
      if c ≤ j ∧ j < c + w.length then w.get! (j - c) else cellD g r j := by
    intro j
    rw [cellD_placeAcross g hwf w r c hr hbound "" 2 r j]
    by_cases hj : c ≤ j ∧ j < c + w.length
    · rw [if_pos ⟨rfl, hj⟩, if_pos hj]
    · rw [if_neg (fun hh => hj hh.2), if_neg hj]
  have hlen_row : (rowLine (placeWord g w r c .across "" 2) r).length = g.width := by
    rw [rowLine_length, hW]
  have hget : ∀ j, j < g.width →
      (rowLine (placeWord g w r c .across "" 2) r).get? j =
        some (cellD (placeWord g w r c .across "" 2) r j) := by
    intro j hj
    rw [rowLine_get?, hW, if_pos hj]
  have he1 : c + w.length - 1 + 1 = c + w.length := by omega
  have hsplit := runsGo_split (rowLine (placeWord g w r c .across "" 2) r)
    c (c + w.length - 1) (by omega) (by rw [hlen_row]; omega) ?_ ?_ ?_
  · rw [he1] at hsplit
    have htake : (rowLine (placeWord g w r c .across "" 2) r).take c =
        (rowLine g r).take c := by
      apply take_eq_of_get?
      · rw [hlen_row, rowLine_length]
      · intro n hnc
        rw [hget n (by omega), rowLine_get?, if_pos (by omega : n < g.width), hcell n,
          if_neg (by omega : ¬ (c ≤ n ∧ n < c + w.length))]
    have hmid : ((rowLine (placeWord g w r c .across "" 2) r).drop c).take
        (c + w.length - c) = w := by
      apply drop_take_eq_of_get?
      · omega
      · rw [hlen_row]
        omega
      · intro m hm
        rw [hget _ (by omega), hcell _, if_pos ⟨by omega, by omega⟩]
        have hcm : c + m - c = m := by omega
        rw [hcm, get?_eq_some_getBang w m (by omega)]
    have hdrop : (rowLine (placeWord g w r c .across "" 2) r).drop (c + w.length) =
        (rowLine g r).drop (c + w.length) := by
      apply drop_eq_of_get?
      intro n hnc
      by_cases hnw : n < g.width
      · rw [hget n hnw, rowLine_get?, if_pos hnw, hcell n,
          if_neg (by omega : ¬ (c ≤ n ∧ n < c + w.length))]
      · have e1 : (rowLine (placeWord g w r c .across "" 2) r).get? n = none :=
          List.get?_eq_none.mpr (by rw [hlen_row]; omega)
        have e2 : (rowLine g r).get? n = none :=
          List.get?_eq_none.mpr (by rw [rowLine_length]; omega)
        rw [e1, e2]
    rw [hsplit, htake, hmid, hdrop]
  · rcases hleftb with h0 | hd
    · exact Or.inl h0
    · by_cases hc0 : c = 0
      · exact Or.inl hc0
      · right
        rw [hget _ (by omega), hcell _,
          if_neg (by omega : ¬ (c ≤ c - 1 ∧ c - 1 < c + w.length)), hd]
  · by_cases hlt : c + w.length < g.width
    · right
      rw [he1, hget _ hlt, hcell _,
        if_neg (by omega : ¬ (c ≤ c + w.length ∧ c + w.length < c + w.length)),
        hrightb hlt]
    · left
      rw [he1, hlen_row]
      omega
  · intro t h1 h2
    rw [hget t (by omega), hcell t, if_pos ⟨h1, by omega⟩]
    intro hcontra
    exact hdot (w.get! (t - c)) (getBang_mem w (t - c) (by omega))
      (Option.some_inj.mp hcontra)

theorem rowLine_placeAcross_other (g : Grid) (hwf : WellFormed g) (w : List Char)
    (r c : Nat) (hr : r < g.height) (hbound : c + w.length ≤ g.width)
    (r2 : Nat) (hne : r2 ≠ r) :
    rowLine (placeWord g w r c .across "" 2) r2 = rowLine g r2 := by
  apply rowLine_congr
  · rfl
  · intro j hj
    rw [cellD_placeAcross g hwf w r c hr hbound "" 2 r2 j, if_neg (fun hh => hne hh.1)]

theorem colLine_placeAcross_other (g : Grid) (hwf : WellFormed g) (w : List Char)
    (r c : Nat) (hr : r < g.height) (hbound : c + w.length ≤ g.width)
    (j : Nat) (hj : j < c ∨ c + w.length ≤ j) :
    colLine (placeWord g w r c .across "" 2) j = colLine g j := by
  apply colLine_congr
  · rfl
  · intro t ht
    rw [cellD_placeAcross g hwf w r c hr hbound "" 2 t j,
      if_neg (by omega : ¬ (t = r ∧ c ≤ j ∧ j < c + w.length))]

theorem seqOk_pair (ws : List Word) (ans : List (List Char)) (s : List Char)
    (a b : Nat) (d : Direction) :
    seqOk ws ans (s, a, b, d) =
      if 3 ≤ s.length then isPlacedTuple ws s a b d || decide (s ∈ ans) else true := rfl

theorem isPlacedTuple_append_other_dir (ws : List Word) (W0 : Word) (s : List Char)
    (a b : Nat) (d : Direction) (hd : W0.direction ≠ d) :
    isPlacedTuple (ws ++ [W0]) s a b d = isPlacedTuple ws s a b d := by
  rw [isPlacedTuple_append_one]
  have hf : decide (W0.text = s ∧ W0.row = a ∧ W0.col = b ∧ W0.direction = d) = false := by
    rw [decide_eq_false_iff_not]
    rintro ⟨-, -, -, hdd⟩
    exact hd hdd
  rw [hf, Bool.or_false]

theorem seqOk_append_other_dir (ws : List Word) (W0 : Word) (ans : List (List Char))
    (s : List Char) (a b : Nat) (d : Direction) (hd : W0.direction ≠ d) :
    seqOk (ws ++ [W0]) ans (s, a, b, d) = seqOk ws ans (s, a, b, d) := by
  rw [seqOk_pair, seqOk_pair, isPlacedTuple_append_other_dir ws W0 s a b d hd]

theorem seqOk_append_self (ws : List Word) (ans : List (List Char)) (W0 : Word) :
    seqOk (ws ++ [W0]) ans (W0.text, W0.row, W0.col, W0.direction) = true := by
  rw [seqOk_pair]
  by_cases h3 : 3 ≤ W0.text.length
  · rw [if_pos h3, isPlacedTuple_append_one]
    have ht : decide (W0.text = W0.text ∧ W0.row = W0.row ∧ W0.col = W0.col ∧
        W0.direction = W0.direction) = true := by
      rw [decide_eq_true_eq]
      exact ⟨rfl, rfl, rfl, rfl⟩
    rw [ht, Bool.or_true, Bool.true_or]
  · rw [if_neg h3]

/-- On an original grid all of whose grid-wide sequences already pass the
corpus test, the naive simulate-and-rescan agrees with the optimized
touched-cells check, ACROSS case. -/
theorem corpusAgree_across (g : Grid) (hwf : WellFormed g) (w : List Char)
    (hwne : w ≠ []) (hdot : ∀ ch ∈ w, ch ≠ '.') (r c : Nat) (hr : r < g.height)
    (ans : List (List Char)) (hgeo : geometricOkAcross g w r c = true)
    (hclean : ∀ t ∈ getAllLetterSequences g, seqOk g.words ans t = true) :
    naiveCorpusCheck g w r c .across ans = optimizedCorpusCheck g w r c .across ans := by
  have hn : 0 < w.length := List.length_pos.mpr hwne
  obtain ⟨hbound, -, hleftb, hrightb⟩ := geometricOkAcross_spec g w r c hgeo
  have hchd : ∀ i, i < w.length → w.get! i ≠ '.' :=
    fun i hi => hdot (w.get! i) (getBang_mem w i hi)
  rw [Bool.eq_iff_iff]
  unfold naiveCorpusCheck optimizedCorpusCheck
  have hng : getNewSequencesFromPlacement g w r c .across = newSeqsAcross g r w c := rfl
  rw [getAll_all_iff, hng, newSeqsAcross_all_iff g r ans w c,
    placeWord_height g w r c .across "" 2, placeWord_width g w r c .across "" 2,
    placeWord_words_eq g w r c .across "" 2]
  have hkey : ∀ i, i < w.length →
      (colSeqCond g r ans (c + i) (w.get! i) ↔
        (1 < (buildSeq (fun t => cellD g t (c + i)) (scanUp (fun t => cellD g t (c + i)) r)
            (scanDown (fun t => cellD g t (c + i)) g.height r) r (w.get! i)).length →
          seqOk (g.words ++ [(⟨w, r, c, .across, "", 2⟩ : Word)]) ans
            (buildSeq (fun t => cellD g t (c + i)) (scanUp (fun t => cellD g t (c + i)) r)
              (scanDown (fun t => cellD g t (c + i)) g.height r) r (w.get! i),
             scanUp (fun t => cellD g t (c + i)) r, c + i, .down) = true)) := by
    intro i hi
    rw [buildSeq_length,
      seqOk_append_other_dir g.words ⟨w, r, c, .across, "", 2⟩ ans _ _ _ .down
        (fun hdd => Direction.noConfusion hdd)]
    constructor
    · intro hc hlen1
      have h2 : 2 ≤ scanDown (fun t => cellD g t (c + i)) g.height r -
          scanUp (fun t => cellD g t (c + i)) r + 1 := by omega
      by_cases hex : isExistingWord g.words .down (scanUp (fun t => cellD g t (c + i)) r)
          (c + i) (buildSeq (fun t => cellD g t (c + i))
            (scanUp (fun t => cellD g t (c + i)) r)
            (scanDown (fun t => cellD g t (c + i)) g.height r) r (w.get! i)) = true
      · rw [seqOk_pair]
        by_cases h3 : 3 ≤ (buildSeq (fun t => cellD g t (c + i))
            (scanUp (fun t => cellD g t (c + i)) r)
            (scanDown (fun t => cellD g t (c + i)) g.height r) r (w.get! i)).length
        · rw [if_pos h3, ← isExistingWord_eq_isPlacedTuple, hex, Bool.true_or]
        · rw [if_neg h3]
      · rw [Bool.not_eq_true] at hex
        exact hc h2 hex
    · intro hyp h2 hexf
      exact hyp (by omega)
  constructor
  · rintro ⟨hrows, hcols⟩ i hi
    rw [hkey i hi]
    intro hlen1
    have hsplit := colLine_placeAcross_split g hwf w r c hr hbound i hi (hchd i hi)
    have hmem : (buildSeq (fun t => cellD g t (c + i)) (scanUp (fun t => cellD g t (c + i)) r)
          (scanDown (fun t => cellD g t (c + i)) g.height r) r (w.get! i),
        scanUp (fun t => cellD g t (c + i)) r) ∈
        runsGo (colLine (placeWord g w r c .across "" 2) (c + i)) 0 none := by
      rw [hsplit]
      exact List.mem_append_right _ (List.mem_cons_self _ _)
    exact hcols (c + i) (by omega) _ hmem hlen1
  · intro hopt
    constructor
    · intro r2 hr2 pr hpr hlen
      by_cases hr2r : r2 = r
      · subst hr2r
        rw [rowLine_placeAcross_split g hwf w hwne hdot r2 c hr hbound hleftb hrightb] at hpr
        rcases List.mem_append.mp hpr with hpr1 | hpr2
        · have hbnd : c = 0 ∨ (rowLine g r2).get? (c - 1) = some '.' := by
            by_cases hc0 : c = 0
            · exact Or.inl hc0
            · right
              rw [rowLine_get?, if_pos (by omega : c - 1 < g.width)]
              rcases hleftb with h0 | hd
              · exact absurd h0 hc0
              · rw [hd]
          exact seqOk_of_run_row g ans _ hclean r2 hr2 pr
            (runsGo_take_subset (rowLine g r2) c hbnd pr hpr1) hlen
        · rcases List.mem_cons.mp hpr2 with hpr2 | hpr3
          · rw [hpr2]
            exact seqOk_append_self g.words ans ⟨w, r2, c, .across, "", 2⟩
          · have hbnd : (rowLine g r2).length ≤ c + w.length ∨
                (rowLine g r2).get? (c + w.length) = some '.' := by
              by_cases hlt : c + w.length < g.width
              · right
                rw [rowLine_get?, if_pos hlt, hrightb hlt]
              · left
                rw [rowLine_length]
                omega
            exact seqOk_of_run_row g ans _ hclean r2 hr2 pr
              (runsGo_drop_subset (rowLine g r2) (c + w.length) hbnd pr hpr3) hlen
      · rw [rowLine_placeAcross_other g hwf w r c hr hbound r2 hr2r] at hpr
        exact seqOk_of_run_row g ans _ hclean r2 hr2 pr hpr hlen
    · intro j hj pr hpr hlen
      by_cases hjs : c ≤ j ∧ j < c + w.length
      · obtain ⟨i, rfl⟩ : ∃ i, j = c + i := ⟨j - c, by omega⟩
        have hi : i < w.length := by omega
        obtain ⟨hs_le, -, hs_bd⟩ := scanUp_spec (fun t => cellD g t (c + i)) r
        obtain ⟨he_ge, he_le, -, he_bd⟩ :=
          scanDown_spec (fun t => cellD g t (c + i)) g.height r hr
        rw [colLine_placeAcross_split g hwf w r c hr hbound i hi (hchd i hi)] at hpr
        rcases List.mem_append.mp hpr with hpr1 | hpr2
        · have hbnd : scanUp (fun t => cellD g t (c + i)) r = 0 ∨
              (colLine g (c + i)).get?
                (scanUp (fun t => cellD g t (c + i)) r - 1) = some '.' := by
            by_cases hs0 : scanUp (fun t => cellD g t (c + i)) r = 0
            · exact Or.inl hs0
            · right
              rw [colLine_get?, if_pos (by omega :
                scanUp (fun t => cellD g t (c + i)) r - 1 < g.height)]
              rcases hs_bd with h0 | hd
              · exact absurd h0 hs0
              · rw [hd]
          exact seqOk_of_run_col g ans _ hclean (c + i) hj pr
            (runsGo_take_subset (colLine g (c + i)) _ hbnd pr hpr1) hlen
        · rcases List.mem_cons.mp hpr2 with hpr2 | hpr3
          · have h := (hkey i hi).mp (hopt i hi)
            rw [hpr2] at hlen ⊢
            exact h hlen
          · have hbnd : (colLine g (c + i)).length ≤
                scanDown (fun t => cellD g t (c + i)) g.height r + 1 ∨
              (colLine g (c + i)).get?
                (scanDown (fun t => cellD g t (c + i)) g.height r + 1) = some '.' := by
              rcases he_bd with h0 | hd
              · left
                rw [colLine_length]
                omega
              · by_cases hE : scanDown (fun t => cellD g t (c + i)) g.height r + 1 < g.height
                · right
                  rw [colLine_get?, if_pos hE, hd]
                · left
                  rw [colLine_length]
                  omega
            exact seqOk_of_run_col g ans _ hclean (c + i) hj pr
              (runsGo_drop_subset (colLine g (c + i)) _ hbnd pr hpr3) hlen
      · rw [colLine_placeAcross_other g hwf w r c hr hbound j (by omega)] at hpr
        exact seqOk_of_run_col g ans _ hclean j hj pr hpr hlen

theorem cellD_placeDown_span (g : Grid) (hwf : WellFormed g) (w : List Char)
    (r c : Nat) (hc : c < g.width) (hbound : r + w.length ≤ g.height)
    (i : Nat) (hi : i < w.length) (t : Nat) :
    cellD (placeWord g w r c .down "" 2) (r + i) t =
      if t = c then w.get! i else cellD g (r + i) t := by
  rw [cellD_placeDown g hwf w r c hc hbound "" 2 (r + i) t]
  by_cases ht : t = c
  · rw [if_pos ⟨ht, by omega, by omega⟩, if_pos ht]
    congr 1
    omega
  · rw [if_neg (fun hh => ht hh.1), if_neg ht]

/-- The row scan of the simulated DOWN placement decomposes at the
horizontal run through the placed letter in row `r + i`. -/
theorem rowLine_placeDown_split (g : Grid) (hwf : WellFormed g) (w : List Char)
    (r c : Nat) (hc : c < g.width) (hbound : r + w.length ≤ g.height)
    (i : Nat) (hi : i < w.length) (hchd : w.get! i ≠ '.') :
    runsGo (rowLine (placeWord g w r c .down "" 2) (r + i)) 0 none =
      runsGo ((rowLine g (r + i)).take (scanUp (fun t => cellD g (r + i) t) c)) 0 none ++
        ((buildSeq (fun t => cellD g (r + i) t) (scanUp (fun t => cellD g (r + i) t) c)
            (scanDown (fun t => cellD g (r + i) t) g.width c) c (w.get! i),
          scanUp (fun t => cellD g (r + i) t) c) ::
          runsGo ((rowLine g (r + i)).drop
              (scanDown (fun t => cellD g (r + i) t) g.width c + 1))
            (scanDown (fun t => cellD g (r + i) t) g.width c + 1) none) := by
  obtain ⟨hs_le, hs_run, hs_bd⟩ := scanUp_spec (fun t => cellD g (r + i) t) c
  obtain ⟨he_ge, he_le, he_run, he_bd⟩ :=
    scanDown_spec (fun t => cellD g (r + i) t) g.width c hc
  have hW : (placeWord g w r c .down "" 2).width = g.width := rfl
  have hcell : ∀ t, cellD (placeWord g w r c .down "" 2) (r + i) t =
      if t = c then w.get! i else cellD g (r + i) t :=
    cellD_placeDown_span g hwf w r c hc hbound i hi
  have hlen_row : (rowLine (placeWord g w r c .down "" 2) (r + i)).length = g.width := by
    rw [rowLine_length, hW]
  have hget : ∀ t, t < g.width →
      (rowLine (placeWord g w r c .down "" 2) (r + i)).get? t =
        some (cellD (placeWord g w r c .down "" 2) (r + i) t) := by
    intro t ht
    rw [rowLine_get?, hW, if_pos ht]
  have hsplit := runsGo_split (rowLine (placeWord g w r c .down "" 2) (r + i))
    (scanUp (fun t => cellD g (r + i) t) c)
    (scanDown (fun t => cellD g (r + i) t) g.width c)
    (le_trans hs_le he_ge)
    (by rw [hlen_row]; omega)
    ?_ ?_ ?_
  · have htake : (rowLine (placeWord g w r c .down "" 2) (r + i)).take
        (scanUp (fun t => cellD g (r + i) t) c) =
        (rowLine g (r + i)).take (scanUp (fun t => cellD g (r + i) t) c) := by
      apply take_eq_of_get?
      · rw [hlen_row, rowLine_length]
      · intro n hn
        rw [hget n (by omega), rowLine_get?, if_pos (by omega : n < g.width), hcell n,
          if_neg (by omega : ¬ n = c)]
    have hmid : ((rowLine (placeWord g w r c .down "" 2) (r + i)).drop
        (scanUp (fun t => cellD g (r + i) t) c)).take
          (scanDown (fun t => cellD g (r + i) t) g.width c + 1 -
            scanUp (fun t => cellD g (r + i) t) c) =
        buildSeq (fun t => cellD g (r + i) t) (scanUp (fun t => cellD g (r + i) t) c)
          (scanDown (fun t => cellD g (r + i) t) g.width c) c (w.get! i) := by
      apply drop_take_eq_of_get?
      · rw [buildSeq_length]
      · rw [hlen_row]
        omega
      · intro m hm
        rw [hget _ (by omega), hcell _,
          buildSeq_get? (fun t => cellD g (r + i) t) _ _ c (w.get! i) m hm]
    have hdrop : (rowLine (placeWord g w r c .down "" 2) (r + i)).drop
        (scanDown (fun t => cellD g (r + i) t) g.width c + 1) =
        (rowLine g (r + i)).drop
          (scanDown (fun t => cellD g (r + i) t) g.width c + 1) := by
      apply drop_eq_of_get?
      intro n hn
      by_cases hnw : n < g.width
      · rw [hget n hnw, rowLine_get?, if_pos hnw, hcell n,
          if_neg (by omega : ¬ n = c)]
      · have e1 : (rowLine (placeWord g w r c .down "" 2) (r + i)).get? n = none :=
          List.get?_eq_none.mpr (by rw [hlen_row]; omega)
        have e2 : (rowLine g (r + i)).get? n = none :=
          List.get?_eq_none.mpr (by rw [rowLine_length]; omega)
        rw [e1, e2]
    rw [hsplit, htake, hmid, hdrop]
  · by_cases hs0 : scanUp (fun t => cellD g (r + i) t) c = 0
    · exact Or.inl hs0
    · right
      have hs1 : 1 ≤ scanUp (fun t => cellD g (r + i) t) c := by omega
      rw [hget _ (by omega), hcell _, if_neg (by omega :
        ¬ scanUp (fun t => cellD g (r + i) t) c - 1 = c)]
      rcases hs_bd with h0 | hd
      · exact absurd h0 hs0
      · rw [hd]
  · rcases he_bd with h0 | hd
    · left
      rw [hlen_row]
      omega
    · by_cases hE : scanDown (fun t => cellD g (r + i) t) g.width c + 1 < g.width
      · right
        rw [hget _ hE, hcell _, if_neg (by omega :
          ¬ scanDown (fun t => cellD g (r + i) t) g.width c + 1 = c), hd]
      · left
        rw [hlen_row]
        omega
  · intro t ht1 ht2
    rw [hget t (by omega), hcell t]
    by_cases htc : t = c
    · rw [if_pos htc]
      intro hcontra
      exact hchd (Option.some_inj.mp hcontra)
    · rw [if_neg htc]
      intro hcontra
      rcases Nat.lt_or_ge t c with hlt | hge
      · exact hs_run t ht1 hlt (Option.some_inj.mp hcontra)
      · exact he_run t (by omega) ht2 (Option.some_inj.mp hcontra)

/-- The column scan of the simulated DOWN placement decomposes at the placed
word itself in column `c`. -/
theorem colLine_placeDown_split (g : Grid) (hwf : WellFormed g) (w : List Char)
    (hwne : w ≠ []) (hdot : ∀ ch ∈ w, ch ≠ '.') (r c : Nat) (hc : c < g.width)
    (hbound : r + w.length ≤ g.height)
    (hleftb : r = 0 ∨ cellD g (r - 1) c = '.')
    (hrightb : r + w.length < g.height → cellD g (r + w.length) c = '.') :
    runsGo (colLine (placeWord g w r c .down "" 2) c) 0 none =
      runsGo ((colLine g c).take r) 0 none ++
        ((w, r) :: runsGo ((colLine g c).drop (r + w.length)) (r + w.length) none) := by
  have hn : 0 < w.length := List.length_pos.mpr hwne
  have hH : (placeWord g w r c .down "" 2).height = g.height := rfl
  have hcell : ∀ t, cellD (placeWord g w r c .down "" 2) t c =
      if r ≤ t ∧ t < r + w.length then w.get! (t - r) else cellD g t c := by
    intro t
    rw [cellD_placeDown g hwf w r c hc hbound "" 2 t c]
    by_cases ht : r ≤ t ∧ t < r + w.length
    · rw [if_pos ⟨rfl, ht⟩, if_pos ht]
    · rw [if_neg (fun hh => ht hh.2), if_neg ht]
  have hlen_col : (colLine (placeWord g w r c .down "" 2) c).length = g.height := by
    rw [colLine_length, hH]
  have hget : ∀ t, t < g.height →
      (colLine (placeWord g w r c .down "" 2) c).get? t =
        some (cellD (placeWord g w r c .down "" 2) t c) := by
    intro t ht
    rw [colLine_get?, hH, if_pos ht]
  have he1 : r + w.length - 1 + 1 = r + w.length := by omega
  have hsplit := runsGo_split (colLine (placeWord g w r c .down "" 2) c)
    r (r + w.length - 1) (by omega) (by rw [hlen_col]; omega) ?_ ?_ ?_
  · rw [he1] at hsplit
    have htake : (colLine (placeWord g w r c .down "" 2) c).take r =
        (colLine g c).take r := by
      apply take_eq_of_get?
      · rw [hlen_col, colLine_length]
      · intro n hnr
        rw [hget n (by omega), colLine_get?, if_pos (by omega : n < g.height), hcell n,
          if_neg (by omega : ¬ (r ≤ n ∧ n < r + w.length))]
    have hmid : ((colLine (placeWord g w r c .down "" 2) c).drop r).take
        (r + w.length - r) = w := by
      apply drop_take_eq_of_get?
      · omega
      · rw [hlen_col]
        omega
      · intro m hm
        rw [hget _ (by omega), hcell _, if_pos ⟨by omega, by omega⟩]
        have hrm : r + m - r = m := by omega
        rw [hrm, get?_eq_some_getBang w m (by omega)]
    have hdrop : (colLine (placeWord g w r c .down "" 2) c).drop (r + w.length) =
        (colLine g c).drop (r + w.length) := by
      apply drop_eq_of_get?
      intro n hnr
      by_cases hnh : n < g.height
      · rw [hget n hnh, colLine_get?, if_pos hnh, hcell n,
          if_neg (by omega : ¬ (r ≤ n ∧ n < r + w.length))]
      · have e1 : (colLine (placeWord g w r c .down "" 2) c).get? n = none :=
          List.get?_eq_none.mpr (by rw [hlen_col]; omega)
        have e2 : (colLine g c).get? n = none :=
          List.get?_eq_none.mpr (by rw [colLine_length]; omega)
        rw [e1, e2]
    rw [hsplit, htake, hmid, hdrop]
  · rcases hleftb with h0 | hd
    · exact Or.inl h0
    · by_cases hr0 : r = 0
      · exact Or.inl hr0
      · right
        rw [hget _ (by omega), hcell _,
          if_neg (by omega : ¬ (r ≤ r - 1 ∧ r - 1 < r + w.length)), hd]
  · by_cases hlt : r + w.length < g.height
    · right
      rw [he1, hget _ hlt, hcell _,
        if_neg (by omega : ¬ (r ≤ r + w.length ∧ r + w.length < r + w.length)),
        hrightb hlt]
    · left
      rw [he1, hlen_col]
      omega
  · intro t h1 h2
    rw [hget t (by omega), hcell t, if_pos ⟨h1, by omega⟩]
    intro hcontra
    exact hdot (w.get! (t - r)) (getBang_mem w (t - r) (by omega))
      (Option.some_inj.mp hcontra)

theorem rowLine_placeDown_other (g : Grid) (hwf : WellFormed g) (w : List Char)
    (r c : Nat) (hc : c < g.width) (hbound : r + w.length ≤ g.height)
    (r2 : Nat) (hr2 : r2 < r ∨ r + w.length ≤ r2) :
    rowLine (placeWord g w r c .down "" 2) r2 = rowLine g r2 := by
  apply rowLine_congr
  · rfl
  · intro j hj
    rw [cellD_placeDown g hwf w r c hc hbound "" 2 r2 j,
      if_neg (by omega : ¬ (j = c ∧ r ≤ r2 ∧ r2 < r + w.length))]

theorem colLine_placeDown_other (g : Grid) (hwf : WellFormed g) (w : List Char)
    (r c : Nat) (hc : c < g.width) (hbound : r + w.length ≤ g.height)
    (j : Nat) (hne : j ≠ c) :
    colLine (placeWord g w r c .down "" 2) j = colLine g j := by
  apply colLine_congr
  · rfl
  · intro t ht
    rw [cellD_placeDown g hwf w r c hc hbound "" 2 t j, if_neg (fun hh => hne hh.1)]

/-- On an original grid all of whose grid-wide sequences already pass the
corpus test, the naive simulate-and-rescan agrees with the optimized
touched-cells check, DOWN case. -/
theorem corpusAgree_down (g : Grid) (hwf : WellFormed g) (w : List Char)
    (hwne : w ≠ []) (hdot : ∀ ch ∈ w, ch ≠ '.') (r c : Nat) (hc : c < g.width)
    (ans : List (List Char)) (hgeo : geometricOkDown g w r c = true)
    (hclean : ∀ t ∈ getAllLetterSequences g, seqOk g.words ans t = true) :
    naiveCorpusCheck g w r c .down ans = optimizedCorpusCheck g w r c .down ans := by
  have hn : 0 < w.length := List.length_pos.mpr hwne
  obtain ⟨hbound, -, hleftb, hrightb⟩ := geometricOkDown_spec g w r c hgeo
  have hchd : ∀ i, i < w.length → w.get! i ≠ '.' :=
    fun i hi => hdot (w.get! i) (getBang_mem w i hi)
  rw [Bool.eq_iff_iff]
  unfold naiveCorpusCheck optimizedCorpusCheck
  have hng : getNewSequencesFromPlacement g w r c .down = newSeqsDown g c w r := rfl
  rw [getAll_all_iff, hng, newSeqsDown_all_iff g c ans w r,
    placeWord_height g w r c .down "" 2, placeWord_width g w r c .down "" 2,
    placeWord_words_eq g w r c .down "" 2]
  have hkey : ∀ i, i < w.length →
      (rowSeqCond g c ans (r + i) (w.get! i) ↔
        (1 < (buildSeq (fun t => cellD g (r + i) t) (scanUp (fun t => cellD g (r + i) t) c)
            (scanDown (fun t => cellD g (r + i) t) g.width c) c (w.get! i)).length →
          seqOk (g.words ++ [(⟨w, r, c, .down, "", 2⟩ : Word)]) ans
            (buildSeq (fun t => cellD g (r + i) t) (scanUp (fun t => cellD g (r + i) t) c)
              (scanDown (fun t => cellD g (r + i) t) g.width c) c (w.get! i),
             r + i, scanUp (fun t => cellD g (r + i) t) c, .across) = true)) := by
    intro i hi
    rw [buildSeq_length,
      seqOk_append_other_dir g.words ⟨w, r, c, .down, "", 2⟩ ans _ _ _ .across
        (fun hdd => Direction.noConfusion hdd)]
    constructor
    · intro hcnd hlen1
      have h2 : 2 ≤ scanDown (fun t => cellD g (r + i) t) g.width c -
          scanUp (fun t => cellD g (r + i) t) c + 1 := by omega
      by_cases hex : isExistingWord g.words .across (r + i)
          (scanUp (fun t => cellD g (r + i) t) c) (buildSeq (fun t => cellD g (r + i) t)
            (scanUp (fun t => cellD g (r + i) t) c)
            (scanDown (fun t => cellD g (r + i) t) g.width c) c (w.get! i)) = true
      · rw [seqOk_pair]
        by_cases h3 : 3 ≤ (buildSeq (fun t => cellD g (r + i) t)
            (scanUp (fun t => cellD g (r + i) t) c)
            (scanDown (fun t => cellD g (r + i) t) g.width c) c (w.get! i)).length
        · rw [if_pos h3, ← isExistingWord_eq_isPlacedTuple, hex, Bool.true_or]
        · rw [if_neg h3]
      · rw [Bool.not_eq_true] at hex
        exact hcnd h2 hex
    · intro hyp h2 hexf
      exact hyp (by omega)
  constructor
  · rintro ⟨hrows, hcols⟩ i hi
    rw [hkey i hi]
    intro hlen1
    have hsplit := rowLine_placeDown_split g hwf w r c hc hbound i hi (hchd i hi)
    have hmem : (buildSeq (fun t => cellD g (r + i) t) (scanUp (fun t => cellD g (r + i) t) c)
          (scanDown (fun t => cellD g (r + i) t) g.width c) c (w.get! i),
        scanUp (fun t => cellD g (r + i) t) c) ∈
        runsGo (rowLine (placeWord g w r c .down "" 2) (r + i)) 0 none := by
      rw [hsplit]
      exact List.mem_append_right _ (List.mem_cons_self _ _)
    exact hrows (r + i) (by omega) _ hmem hlen1
  · intro hopt
    constructor
    · intro r2 hr2 pr hpr hlen
      by_cases hrs : r ≤ r2 ∧ r2 < r + w.length
      · obtain ⟨i, rfl⟩ : ∃ i, r2 = r + i := ⟨r2 - r, by omega⟩
        have hi : i < w.length := by omega
        obtain ⟨hs_le, -, hs_bd⟩ := scanUp_spec (fun t => cellD g (r + i) t) c
        obtain ⟨he_ge, he_le, -, he_bd⟩ :=
          scanDown_spec (fun t => cellD g (r + i) t) g.width c hc
        rw [rowLine_placeDown_split g hwf w r c hc hbound i hi (hchd i hi)] at hpr
        rcases List.mem_append.mp hpr with hpr1 | hpr2
        · have hbnd : scanUp (fun t => cellD g (r + i) t) c = 0 ∨
              (rowLine g (r + i)).get?
                (scanUp (fun t => cellD g (r + i) t) c - 1) = some '.' := by
            by_cases hs0 : scanUp (fun t => cellD g (r + i) t) c = 0
            · exact Or.inl hs0
            · right
              rw [rowLine_get?, if_pos (by omega :
                scanUp (fun t => cellD g (r + i) t) c - 1 < g.width)]
              rcases hs_bd with h0 | hd
              · exact absurd h0 hs0
              · rw [hd]
          exact seqOk_of_run_row g ans _ hclean (r + i) hr2 pr
            (runsGo_take_subset (rowLine g (r + i)) _ hbnd pr hpr1) hlen
        · rcases List.mem_cons.mp hpr2 with hpr2 | hpr3
          · have h := (hkey i hi).mp (hopt i hi)
            rw [hpr2] at hlen ⊢
            exact h hlen
          · have hbnd : (rowLine g (r + i)).length ≤
                scanDown (fun t => cellD g (r + i) t) g.width c + 1 ∨
              (rowLine g (r + i)).get?
                (scanDown (fun t => cellD g (r + i) t) g.width c + 1) = some '.' := by
              rcases he_bd with h0 | hd
              · left
                rw [rowLine_length]
                omega
              · by_cases hE : scanDown (fun t => cellD g (r + i) t) g.width c + 1 < g.width
                · right
                  rw [rowLine_get?, if_pos hE, hd]
                · left
                  rw [rowLine_length]
                  omega
            exact seqOk_of_run_row g ans _ hclean (r + i) hr2 pr
              (runsGo_drop_subset (rowLine g (r + i)) _ hbnd pr hpr3) hlen
      · rw [rowLine_placeDown_other g hwf w r c hc hbound r2 (by omega)] at hpr
        exact seqOk_of_run_row g ans _ hclean r2 hr2 pr hpr hlen
    · intro j hj pr hpr hlen
      by_cases hjc : j = c
      · subst hjc
        rw [colLine_placeDown_split g hwf w hwne hdot r j hc hbound hleftb hrightb] at hpr
        rcases List.mem_append.mp hpr with hpr1 | hpr2
        · have hbnd : r = 0 ∨ (colLine g j).get? (r - 1) = some '.' := by
            by_cases hr0 : r = 0
            · exact Or.inl hr0
            · right
              rw [colLine_get?, if_pos (by omega : r - 1 < g.height)]
              rcases hleftb with h0 | hd
              · exact absurd h0 hr0
              · rw [hd]
          exact seqOk_of_run_col g ans _ hclean j hj pr
            (runsGo_take_subset (colLine g j) r hbnd pr hpr1) hlen
        · rcases List.mem_cons.mp hpr2 with hpr2 | hpr3
          · rw [hpr2]
            exact seqOk_append_self g.words ans ⟨w, r, j, .down, "", 2⟩
          · have hbnd : (colLine g j).length ≤ r + w.length ∨
                (colLine g j).get? (r + w.length) = some '.' := by
              by_cases hlt : r + w.length < g.height
              · right
                rw [colLine_get?, if_pos hlt, hrightb hlt]
              · left
                rw [colLine_length]
                omega
            exact seqOk_of_run_col g ans _ hclean j hj pr
              (runsGo_drop_subset (colLine g j) (r + w.length) hbnd pr hpr3) hlen
      · rw [colLine_placeDown_other g hwf w r c hc hbound j hjc] at hpr
        exact seqOk_of_run_col g ans _ hclean j hj pr hpr hlen

/-- C3, counterexample: on a well-formed 4 × 3 grid whose last column
already holds the incidental run "XYZ" (not a placed word, not an eligible
answer), placing "AB" ACROSS at the in-bounds origin (0, 0) passes the
optimized touched-cells check (and `is_valid_placement` accepts), while the
naive simulate-and-rescan rejects, because the grid-wide rescan also sees
the pre-existing invalid sequence the optimized check never inspects. -/
theorem optimizedCorpusCheck_ne_naiveCorpusCheck :
    WellFormed ⟨4, 3, [['.','.','.','X'],['.','.','.','Y'],['.','.','.','Z']], []⟩ ∧
    optimizedCorpusCheck ⟨4, 3, [['.','.','.','X'],['.','.','.','Y'],['.','.','.','Z']], []⟩
        ['A','B'] 0 0 .across [['A','B']] = true ∧
    isValidPlacement ⟨4, 3, [['.','.','.','X'],['.','.','.','Y'],['.','.','.','Z']], []⟩
        ['A','B'] 0 0 .across (some [['A','B']]) = true ∧
    naiveCorpusCheck ⟨4, 3, [['.','.','.','X'],['.','.','.','Y'],['.','.','.','Z']], []⟩
        ['A','B'] 0 0 .across [['A','B']] = false := by
  decide

/-- C3 amended: the optimized corpus-consistency check of
`is_valid_placement` agrees with the naive approach that simulates the
placement via `place_word` on a copy and rescans all letter sequences
grid-wide, PROVIDED the original grid is itself clean — every letter
sequence already on the grid passes the corpus test. For a well-formed
grid, a non-empty all-letter word, an in-bounds origin, and a placement
passing the geometric rules 1-3, the two checks are then equal (the
counterexample shows the proviso is necessary: a pre-existing invalid
sequence is seen only by the rescan). -/
theorem optimizedCorpusCheck_eq_naive (g : Grid) (hwf : WellFormed g)
    (w : List Char) (hwne : w ≠ []) (hdot : ∀ ch ∈ w, ch ≠ '.')
    (r c : Nat) (hr : r < g.height) (hc : c < g.width) (dir : Direction)
    (ans : List (List Char))
    (hgeo : (match dir with
      | .across => geometricOkAcross g w r c
      | .down => geometricOkDown g w r c) = true)
    (hclean : ∀ t ∈ getAllLetterSequences g, seqOk g.words ans t = true) :
    optimizedCorpusCheck g w r c dir ans = naiveCorpusCheck g w r c dir ans := by
  cases dir with
  | across => exact (corpusAgree_across g hwf w hwne hdot r c hr ans hgeo hclean).symm
  | down => exact (corpusAgree_down g hwf w hwne hdot r c hc ans hgeo hclean).symm

/-- Witness for the amended C3: placing "AB" ACROSS at (0, 0) on the clean
empty 2 × 2 grid — the optimized and naive checks coincide there. -/
theorem optimizedCorpusCheck_eq_naive_witness :
    optimizedCorpusCheck ⟨2, 2, [['.','.'],['.','.']], []⟩ ['A','B'] 0 0 .across
        [['A','B']] =
      naiveCorpusCheck ⟨2, 2, [['.','.'],['.','.']], []⟩ ['A','B'] 0 0 .across
        [['A','B']] :=
  optimizedCorpusCheck_eq_naive ⟨2, 2, [['.','.'],['.','.']], []⟩ (by decide)
    ['A','B'] (by decide) (by decide) 0 0 (by decide) (by decide) .across
    [['A','B']] (by decide) (by decide)

end Crossword
